import Mathlib

/-!
Verification of the fast ternary string set (src/ftss.ts).

The TypeScript class stores a ternary search tree in a flat integer array
`_tree`: each node occupies four consecutive entries
(value with flags, less-child index, equal-child index, greater-child index).
We embed the class shallowly: a string is its list of char codes
(`charCodeAt` values, each below 0x10000 for real strings), the state is the
four fields of the class, and every recursive tree walk of the source carries
an explicit fuel argument (the source recursion terminates because reachable
trees are finite and acyclic; top-level wrappers pass a fuel that provably
suffices for all states satisfying the invariants established below).
Functions that can throw return `Option α × TernaryStringSet`: `none` means
an exception is propagating and the state component is the (possibly
partially mutated) state at throw time, matching the in-place mutation
semantics of the source.
-/

namespace Ftss

/-- A JavaScript string, as the sequence of its char codes. -/
abbrev JsStr := List Nat

/-- Node index indicating that no node is present: the TS value is the
32-bit `~(1 <<< 31) = 0x7FFFFFFF`. -/
def NUL : Nat := 2147483647

/-- First node index that would run off of the end of the array. -/
def NODE_CEILING : Nat := NUL - 3

/-- End-of-string flag bit, `1 <<< 21`. -/
def EOS : Nat := 2097152

/-- Mask to extract the code point from a node value, ignoring flags. -/
def CP_MASK : Nat := EOS - 1

/-- Smallest code point that requires a surrogate pair. -/
def CP_MIN_SURROGATE : Nat := 65536

/-- The state of a `TernaryStringSet` object (fields of the TS class). -/
structure TernaryStringSet where
  _tree : List Nat
  _hasEmpty : Bool
  _compact : Bool
  _size : Int
deriving DecidableEq

/-- Reading `tree[i]`; every read the source performs on a well-formed tree
is in bounds, so the default value is irrelevant there. -/
def tval (tr : List Nat) (i : Nat) : Nat := tr.getD i 0

/-- The state after `clear()` (also the state of `new TernaryStringSet()`). -/
def emptySet : TernaryStringSet :=
  { _tree := [], _hasEmpty := false, _compact := false, _size := 0 }

/-- `toCodePoints(s)` from the source. -/
def toCodePoints : JsStr → List Nat
  | [] => []
  | c :: rest =>
    if CP_MIN_SURROGATE ≤ c then
      match rest with
      | [] => [c]
      | _ :: rest2 => c :: toCodePoints rest2
    else c :: toCodePoints rest

/-- `fromCodePoints` / `getStringFromCharArray`: `String.fromCharCode`
truncates each value to 16 bits. -/
def fromCodePoints (l : List Nat) : JsStr := l.map (fun c => c % 65536)

/-- `_has(node, s, i, c)`: the membership walk, with explicit fuel. -/
def _has (tr : List Nat) : Nat → Nat → JsStr → Nat → Nat → Bool
  | 0, _, _, _, _ => false
  | fuel + 1, node, s, i, c =>
    if tr.length ≤ node then false
    else
      let treeChar := (tval tr node) &&& CP_MASK
      if c < treeChar then _has tr fuel (tval tr (node + 1)) s i c
      else if treeChar < c then _has tr fuel (tval tr (node + 3)) s i c
      else
        let i2 := i + (if CP_MIN_SURROGATE ≤ c then 2 else 1)
        if s.length ≤ i2 then ((tval tr node) &&& EOS) == EOS
        else _has tr fuel (tval tr (node + 2)) s i2 (s.getD i2 0)

/-- Fuel passed by top-level wrappers; sufficient for every tree satisfying
the invariants proved below (walk length is at most one node per four array
entries). -/
def wrapFuel (t : TernaryStringSet) : Nat := t._tree.length + 1

/-- `has(s)` (for a non-null string; the null check lives in `hasN`). -/
def has (t : TernaryStringSet) (s : JsStr) : Bool :=
  if s.length = 0 then t._hasEmpty
  else _has t._tree (wrapFuel t) 0 s 0 (s.getD 0 0)

/-!  An inductive view of the node array, used only in proofs: `decode`
reads the tree rooted at an index out to a given depth. -/

/-- Inductive ternary tree; node values keep the raw flag bits. -/
inductive ITree where
  | nil : ITree
  | nd : Nat → ITree → ITree → ITree → ITree
deriving DecidableEq

/-- Decode the flat array into an `ITree`, cut off at the given depth. -/
def decode (tr : List Nat) : Nat → Nat → ITree
  | 0, _ => .nil
  | f + 1, node =>
    if tr.length ≤ node then .nil
    else
      .nd (tval tr node)
        (decode tr f (tval tr (node + 1)))
        (decode tr f (tval tr (node + 2)))
        (decode tr f (tval tr (node + 3)))

/-- The membership walk on the inductive view, mirroring `_has`. -/
def iHas : ITree → JsStr → Nat → Nat → Bool
  | .nil, _, _, _ => false
  | .nd v l e g, s, i, c =>
    let treeChar := v &&& CP_MASK
    if c < treeChar then iHas l s i c
    else if treeChar < c then iHas g s i c
    else
      let i2 := i + (if CP_MIN_SURROGATE ≤ c then 2 else 1)
      if s.length ≤ i2 then (v &&& EOS) == EOS
      else iHas e s i2 (s.getD i2 0)

/-!  The mutation layer.  `_add` mutates the tree in place (possibly pushing
a fresh node block first) and returns the index of the node examined;
`none` in the first component models the capacity-exhaustion throw
(and, unreachably on invariant states, fuel exhaustion), with the state at
throw time in the second component. -/

/-- One step of `_add` after the allocation check: `none` = throw. -/
def _add (t : TernaryStringSet) : Nat → Nat → JsStr → Nat → Nat →
    Option Nat × TernaryStringSet
  | 0, _, _, _, _ => (none, t)
  | fuel + 1, node, s, i, c =>
    -- allocation: if `node` runs off the end, push a fresh block
    let alloc : Option (TernaryStringSet × Nat) :=
      if t._tree.length ≤ node then
        if NODE_CEILING ≤ t._tree.length then none
        else some ({ t with _tree := t._tree ++ [c, NUL, NUL, NUL] }, t._tree.length)
      else some (t, node)
    match alloc with
    | none => (none, t)
    | some (t0, nd) =>
      let treeChar := (tval t0._tree nd) &&& CP_MASK
      if c < treeChar then
        match _add t0 fuel (tval t0._tree (nd + 1)) s i c with
        | (none, t1) => (none, t1)
        | (some r, t1) => (some nd, { t1 with _tree := t1._tree.set (nd + 1) r })
      else if treeChar < c then
        match _add t0 fuel (tval t0._tree (nd + 3)) s i c with
        | (none, t1) => (none, t1)
        | (some r, t1) => (some nd, { t1 with _tree := t1._tree.set (nd + 3) r })
      else
        let i2 := i + (if CP_MIN_SURROGATE ≤ c then 2 else 1)
        if s.length ≤ i2 then
          if ((tval t0._tree nd) &&& EOS) == 0 then
            (some nd, { t0 with
              _tree := t0._tree.set nd ((tval t0._tree nd) ||| EOS),
              _size := t0._size + 1 })
          else (some nd, t0)
        else
          match _add t0 fuel (tval t0._tree (nd + 2)) s i2 (s.getD i2 0) with
          | (none, t1) => (none, t1)
          | (some r, t1) => (some nd, { t1 with _tree := t1._tree.set (nd + 2) r })

/-- The body of `_add` after the allocation check, with the `let`s inlined:
`t0` is the state after a possible push and `nd` the node actually visited. -/
def addStep (t0 : TernaryStringSet) (nd fuel : Nat) (s : JsStr) (i c : Nat) :
    Option Nat × TernaryStringSet :=
  if c < (tval t0._tree nd) &&& CP_MASK then
    match _add t0 fuel (tval t0._tree (nd + 1)) s i c with
    | (none, t1) => (none, t1)
    | (some r, t1) => (some nd, { t1 with _tree := t1._tree.set (nd + 1) r })
  else if (tval t0._tree nd) &&& CP_MASK < c then
    match _add t0 fuel (tval t0._tree (nd + 3)) s i c with
    | (none, t1) => (none, t1)
    | (some r, t1) => (some nd, { t1 with _tree := t1._tree.set (nd + 3) r })
  else if s.length ≤ i + (if CP_MIN_SURROGATE ≤ c then 2 else 1) then
    if ((tval t0._tree nd) &&& EOS) == 0 then
      (some nd, { t0 with
        _tree := t0._tree.set nd ((tval t0._tree nd) ||| EOS),
        _size := t0._size + 1 })
    else (some nd, t0)
  else
    match _add t0 fuel (tval t0._tree (nd + 2)) s
        (i + (if CP_MIN_SURROGATE ≤ c then 2 else 1))
        (s.getD (i + (if CP_MIN_SURROGATE ≤ c then 2 else 1)) 0) with
    | (none, t1) => (none, t1)
    | (some r, t1) => (some nd, { t1 with _tree := t1._tree.set (nd + 2) r })

/-- `addCodePoints(node, s, i)`: like `_add` but on a code-point array;
does not handle empty strings or decompaction. -/
def addCodePoints (t : TernaryStringSet) : Nat → Nat → List Nat → Nat →
    Option Nat × TernaryStringSet
  | 0, _, _, _ => (none, t)
  | fuel + 1, node, s, i =>
    let cp := s.getD i 0
    let alloc : Option (TernaryStringSet × Nat) :=
      if t._tree.length ≤ node then
        if NODE_CEILING ≤ t._tree.length then none
        else some ({ t with _tree := t._tree ++ [cp, NUL, NUL, NUL] }, t._tree.length)
      else some (t, node)
    match alloc with
    | none => (none, t)
    | some (t0, nd) =>
      let treeCp := (tval t0._tree nd) &&& CP_MASK
      if cp < treeCp then
        match addCodePoints t0 fuel (tval t0._tree (nd + 1)) s i with
        | (none, t1) => (none, t1)
        | (some r, t1) => (some nd, { t1 with _tree := t1._tree.set (nd + 1) r })
      else if treeCp < cp then
        match addCodePoints t0 fuel (tval t0._tree (nd + 3)) s i with
        | (none, t1) => (none, t1)
        | (some r, t1) => (some nd, { t1 with _tree := t1._tree.set (nd + 3) r })
      else
        let i2 := i + (if CP_MIN_SURROGATE ≤ cp then 2 else 1)
        if s.length ≤ i2 then
          if ((tval t0._tree nd) &&& EOS) == 0 then
            (some nd, { t0 with
              _tree := t0._tree.set nd ((tval t0._tree nd) ||| EOS),
              _size := t0._size + 1 })
          else (some nd, t0)
        else
          match addCodePoints t0 fuel (tval t0._tree (nd + 2)) s i2 with
          | (none, t1) => (none, t1)
          | (some r, t1) => (some nd, { t1 with _tree := t1._tree.set (nd + 2) r })

/-- `_delete(node, s, i, c)`: clears the end-of-string flag if the string is
found; returns whether it was present.  Never throws (fuel exhaustion,
unreachable on invariant states, reports `false`). -/
def _delete (t : TernaryStringSet) : Nat → Nat → JsStr → Nat → Nat →
    Bool × TernaryStringSet
  | 0, _, _, _, _ => (false, t)
  | fuel + 1, node, s, i, c =>
    if t._tree.length ≤ node then (false, t)
    else
      let treeChar := (tval t._tree node) &&& CP_MASK
      if c < treeChar then _delete t fuel (tval t._tree (node + 1)) s i c
      else if treeChar < c then _delete t fuel (tval t._tree (node + 3)) s i c
      else
        -- note the source uses a strict `>` here (unlike `_has` and `_add`)
        let i2 := i + (if CP_MIN_SURROGATE < c then 2 else 1)
        if s.length ≤ i2 then
          let had := ((tval t._tree node) &&& EOS) == EOS
          if had then
            (true, { t with
              _tree := t._tree.set node ((tval t._tree node) &&& CP_MASK),
              _size := t._size - 1 })
          else (false, t)
        else _delete t fuel (tval t._tree (node + 2)) s i2 (s.getD i2 0)

/-!  Traversal: `visitCodePoints` calls a visitor on every end-of-string
node in order (less, node, equal, greater).  We model it as the list of
prefix snapshots passed to the visitor. -/

/-- The list of code-point strings visited below `node`, given the running
prefix `pfx`. -/
def visitCP (tr : List Nat) : Nat → Nat → List Nat → List (List Nat)
  | 0, _, _ => []
  | f + 1, node, pfx =>
    if tr.length ≤ node then []
    else
      visitCP tr f (tval tr (node + 1)) pfx
      ++ (let pfx2 := pfx ++ [(tval tr node) &&& CP_MASK]
          (if ((tval tr node) &&& EOS) == EOS then [pfx2] else [])
          ++ visitCP tr f (tval tr (node + 2)) pfx2)
      ++ visitCP tr f (tval tr (node + 3)) pfx

/-- `toArray()`. -/
def toArray (t : TernaryStringSet) : List JsStr :=
  (if t._hasEmpty then [[]] else [])
  ++ (visitCP t._tree (wrapFuel t) 0 []).map fromCodePoints

/-- In-order visit on the inductive view, mirroring `visitCP`. -/
def iVisit : ITree → List Nat → List (List Nat)
  | .nil, _ => []
  | .nd v l e g, pfx =>
    iVisit l pfx
    ++ (let pfx2 := pfx ++ [v &&& CP_MASK]
        (if (v &&& EOS) == EOS then [pfx2] else [])
        ++ iVisit e pfx2)
    ++ iVisit g pfx

/-!  The public mutation operations form one mutually recursive cluster in
the source: `add` on a compacted set calls `decompact`, which rebuilds via
`balance`, which constructs a fresh set from `toArray()`, whose constructor
calls `addAll`, which calls `add` again (on the fresh, never-compacted set).
We thread one shared fuel through the cluster; it bounds only the nesting
depth of calls, and the top-level wrappers pass an amply sufficient value. -/

mutual

/-- `add(s)` for a non-null string `s`. -/
def addM (fuel : Nat) (t : TernaryStringSet) (s : JsStr) :
    Option Unit × TernaryStringSet :=
  match fuel with
  | 0 => (none, t)
  | fuel + 1 =>
    if s.length = 0 then
      if !t._hasEmpty then (some (), { t with _hasEmpty := true, _size := t._size + 1 })
      else (some (), t)
    else
      match (if t._compact && !(has t s) then decompactM fuel t else (some (), t)) with
      | (none, t1) => (none, t1)
      | (some _, t1) =>
        match _add t1 (t1._tree.length + s.length + 4) 0 s 0 (s.getD 0 0) with
        | (none, t2) => (none, t2)
        | (some _, t2) => (some (), t2)

/-- `decompact()`. -/
def decompactM (fuel : Nat) (t : TernaryStringSet) :
    Option Unit × TernaryStringSet :=
  match fuel with
  | 0 => (none, t)
  | fuel + 1 => if t._compact then balanceM fuel t else (some (), t)

/-- `balance()`: on an exception inside the rebuilding constructor the
assignment to `_tree` never runs, so the state is returned unchanged. -/
def balanceM (fuel : Nat) (t : TernaryStringSet) :
    Option Unit × TernaryStringSet :=
  match fuel with
  | 0 => (none, t)
  | fuel + 1 =>
    match ctorM fuel (toArray t) with
    | (none, _) => (none, t)
    | (some _, fresh) => (some (), { t with _tree := fresh._tree, _compact := false })

/-- `new TernaryStringSet(source)` for an array source: `clear()` then
`addAll(source)`. -/
def ctorM (fuel : Nat) (src : List JsStr) : Option Unit × TernaryStringSet :=
  match fuel with
  | 0 => (none, emptySet)
  | fuel + 1 => addAllM fuel emptySet src 0 none

/-- `addAll(strings, start, end)` for a non-null collection (the null check
lives in `addAllN`); `none` for `end` is the `null` default.  Integer
arguments are integral by construction, so the `Math.trunc` checks of the
source are identically satisfied. -/
def addAllM (fuel : Nat) (t : TernaryStringSet) (strings : List JsStr)
    (start : Int) (stop : Option Int) : Option Unit × TernaryStringSet :=
  match fuel with
  | 0 => (none, t)
  | fuel + 1 =>
    let len : Int := strings.length
    let stop := match stop with | none => len | some e => e
    if start < 0 || len < start then (none, t)
    else if stop < 0 || len < stop then (none, t)
    else if start < stop then _addAllM fuel t strings start.toNat stop.toNat
    else (some (), t)

/-- `_addAll(strings, start, end)`: midpoint-first bisection insert of the
half-open range.  The source decrements `end` first and returns when it
falls below `start`. -/
def _addAllM (fuel : Nat) (t : TernaryStringSet) (strings : List JsStr)
    (start stop : Nat) : Option Unit × TernaryStringSet :=
  match fuel with
  | 0 => (none, t)
  | fuel + 1 =>
    if stop ≤ start then (some (), t)
    else
      let e := stop - 1
      let mid := start + (e - start) / 2
      match addM fuel t (strings.getD mid []) with
      | (none, t1) => (none, t1)
      | (some _, t1) =>
        match _addAllM fuel t1 strings start mid with
        | (none, t2) => (none, t2)
        | (some _, t2) => _addAllM fuel t2 strings (mid + 1) (e + 1)

/-- `delete(s)` for a non-null string. -/
def deleteM (fuel : Nat) (t : TernaryStringSet) (s : JsStr) :
    Option Bool × TernaryStringSet :=
  match fuel with
  | 0 => (none, t)
  | fuel + 1 =>
    if s.length = 0 then
      if t._hasEmpty then (some true, { t with _hasEmpty := false, _size := t._size - 1 })
      else (some false, t)
    else
      match (if t._compact && has t s then decompactM fuel t else (some (), t)) with
      | (none, t1) => (none, t1)
      | (some _, t1) =>
        let r := _delete t1 (wrapFuel t1) 0 s 0 (s.getD 0 0)
        (some r.1, r.2)

/-- The loop body of `deleteAll(elements)`: elements may be null, and
`delete(null)` throws. -/
def deleteAllM (fuel : Nat) (t : TernaryStringSet)
    (elements : List (Option JsStr)) (acc : Bool) :
    Option Bool × TernaryStringSet :=
  match fuel with
  | 0 => (none, t)
  | fuel + 1 =>
    match elements with
    | [] => (some acc, t)
    | el :: rest =>
      match (match el with
             | none => (none, t)
             | some s => deleteM fuel t s) with
      | (none, t1) => (none, t1)
      | (some d, t1) => deleteAllM fuel t1 rest (d && acc)

end

/-- `add(s)` with ample fuel. -/
def add (t : TernaryStringSet) (s : JsStr) : Option Unit × TernaryStringSet :=
  addM (t._tree.length + s.length + 32) t s

/-- `delete(s)` with ample fuel. -/
def delete (t : TernaryStringSet) (s : JsStr) : Option Bool × TernaryStringSet :=
  deleteM (t._tree.length + s.length + 32) t s

/-- `addAll(strings, start, end)` with ample fuel. -/
def addAll (t : TernaryStringSet) (strings : List JsStr) (start : Int)
    (stop : Option Int) : Option Unit × TernaryStringSet :=
  addAllM (t._tree.length + strings.length + 32) t strings start stop

/-- `deleteAll(elements)` for a non-null collection. -/
def deleteAll (t : TernaryStringSet) (elements : List (Option JsStr)) :
    Option Bool × TernaryStringSet :=
  deleteAllM (t._tree.length + elements.length + 32) t elements true

/-- `balance()` with ample fuel. -/
def balance (t : TernaryStringSet) : Option Unit × TernaryStringSet :=
  balanceM (t._tree.length + 32) t

/-- `clear()`. -/
def clear (_t : TernaryStringSet) : TernaryStringSet := emptySet

/-!  The compaction engine.  `compactionPass` deduplicates structurally
identical node blocks.  Its nested sparse-array map keyed on the four
entries of a block is modelled as an association list; out-of-bounds array
reads (which JS yields `undefined` for, in particular at the `NUL`
pseudo-index) are modelled with `Option`. -/

/-- The key of node block `i`: its four entries, `none` when out of bounds
(JS `undefined`), exactly as the nested `nodeMap` indexing reads them. -/
def nodeKey (tr : List Nat) (i : Nat) :
    Option Nat × Option Nat × Option Nat × Option Nat :=
  (tr.get? i, tr.get? (i + 1), tr.get? (i + 2), tr.get? (i + 3))

abbrev NodeMap := List ((Option Nat × Option Nat × Option Nat × Option Nat) × Nat)

def lookupKey (m : NodeMap)
    (k : Option Nat × Option Nat × Option Nat × Option Nat) : Option Nat :=
  (m.find? (fun p => p.1 == k)).map (fun p => p.2)

/-- `mapping(i)`: return the slot assigned to the node at `i`, assigning
the next available slot on first sight. -/
def mapping (tr : List Nat) (st : NodeMap × Nat) (i : Nat) :
    Nat × (NodeMap × Nat) :=
  let k := nodeKey tr i
  match lookupKey st.1 k with
  | some slot => (slot, st)
  | none => (st.2, ((k, st.2) :: st.1, st.2 + 4))

/-- The block start indices `0, 4, 8, …` below `len`. -/
def alignedIdxs (len : Nat) : List Nat :=
  (List.range ((len + 3) / 4)).map (fun k => 4 * k)

/-- The map-building scan over all node blocks. -/
def scanMap (tr : List Nat) : NodeMap × Nat :=
  (alignedIdxs tr.length).foldl (fun st i => (mapping tr st i).2) ([], 0)

/-- One step of the rewrite loop; `none` models the assertion error (proved
unreachable below for pointer-aligned trees). -/
def rewriteStep (tr : List Nat) (acc : List Nat × (NodeMap × Nat)) (i : Nat) :
    Option (List Nat × (NodeMap × Nat)) :=
  let st0 := acc.2
  let m0 := mapping tr st0 i
  let slot := m0.1
  if acc.1.length ≤ slot then
    if acc.1.length < slot then none
    else
      let m1 := mapping tr m0.2 (tval tr (i + 1))
      let m2 := mapping tr m1.2 (tval tr (i + 2))
      let m3 := mapping tr m2.2 (tval tr (i + 3))
      some (acc.1 ++ [tval tr i, m1.1, m2.1, m3.1], m3.2)
  else some (acc.1, m0.2)

/-- `compactionPass(tree)`. -/
def compactionPass (tr : List Nat) : Option (List Nat) :=
  let st0 := scanMap tr
  if st0.2 = tr.length then some tr
  else
    ((alignedIdxs tr.length).foldlM (fun acc i => rewriteStep tr acc i)
      ([], st0)).map (fun acc => acc.1)

/-- The `while (true)` rewrite loop of `compact()`: repeat passes until the
output stops shrinking.  Each genuine iteration shrinks the tree, so the
fuel passed by `compact` never runs out. -/
def compactLoop : Nat → List Nat → Option (List Nat)
  | 0, tr => some tr
  | f + 1, tr =>
    match compactionPass tr with
    | none => none
    | some c => if c.length = tr.length then some c else compactLoop f c

/-- `compact()`.  On the (unreachable) assertion error the source would
leave `_tree` null; we model that corner with an empty tree. -/
def compact (t : TernaryStringSet) : Option Unit × TernaryStringSet :=
  if t._compact || t._tree.length = 0 then (some (), t)
  else
    match compactLoop (t._tree.length + 1) t._tree with
    | none => (none, { t with _tree := [] })
    | some c => (some (), { t with _tree := c, _compact := true })

/-!  The query engine.  Pattern arguments that may be `null` in JS are
`Option JsStr`; a `none` result models a thrown error.  Where the source can
read `charCodeAt` out of bounds (yielding `NaN`), the code point is an
`Option Nat` with `none` for `NaN`, and every comparison with `NaN` is
false, as in JS. -/

def cpLt (cp : Option Nat) (x : Nat) : Bool :=
  match cp with | some c => decide (c < x) | none => false

def cpGt (cp : Option Nat) (x : Nat) : Bool :=
  match cp with | some c => decide (x < c) | none => false

def cpEq (cp : Option Nat) (x : Nat) : Bool :=
  match cp with | some c => decide (c = x) | none => false

def cpGe (cp : Option Nat) (x : Nat) : Bool :=
  match cp with | some c => decide (x ≤ c) | none => false

/-- `checkDistance(distance)` for an actual number: negative and `NaN`
inputs are unrepresentable in this model, and `Math.trunc` is the identity
on naturals, so only the clamp to `NUL` remains. -/
def checkDistance (distance : Nat) : Nat := min distance NUL

/-- `_getWithinHammingDistanceOf`.  `dist` is an `Int`: the source lets it
go negative and guards on `dist < 0`. -/
def _getWithinHammingDistanceOf (tr : List Nat) :
    Nat → Nat → JsStr → Nat → Int → List Nat → List JsStr
  | 0, _, _, _, _, _ => []
  | f + 1, node, pat, i, dist, pfx =>
    if tr.length ≤ node || dist < 0 then []
    else
      let cp := pat.get? i
      let treeCp := (tval tr node) &&& CP_MASK
      (if cpLt cp treeCp || 0 < dist then
        _getWithinHammingDistanceOf tr f (tval tr (node + 1)) pat i dist pfx
      else [])
      ++ (let pfx2 := pfx ++ [treeCp]
          if (((tval tr node) &&& EOS) ≠ 0) ∧ pat.length = pfx2.length then
            (if 0 < dist || cpEq cp treeCp then [fromCodePoints pfx2] else [])
          else
            let i2 := i + (if cpGe cp CP_MIN_SURROGATE then 2 else 1)
            let dist2 := dist - (if cpEq cp treeCp then 0 else 1)
            _getWithinHammingDistanceOf tr f (tval tr (node + 2)) pat i2 dist2 pfx2)
      ++ (if cpGt cp treeCp || 0 < dist then
        _getWithinHammingDistanceOf tr f (tval tr (node + 3)) pat i dist pfx
      else [])

/-- `getWithinHammingDistanceOf(pattern, distance)`. -/
def getWithinHammingDistanceOf (t : TernaryStringSet) (pattern : Option JsStr)
    (distance : Nat) : Option (List JsStr) :=
  match pattern with
  | none => none
  | some pat =>
    let distance := checkDistance distance
    if distance < 1 || pat.length = 0 then
      some (if has t pat then [pat] else [])
    else if pat.length ≤ distance then
      some (((visitCP t._tree (wrapFuel t) 0 []).filter
        (fun p => p.length = pat.length)).map fromCodePoints)
    else
      some (_getWithinHammingDistanceOf t._tree (wrapFuel t) 0 pat 0
        (Int.ofNat distance) [])

/-- `_getPartialMatchesOf`.  The pattern index stays in bounds at every
call, so the code point is read directly. -/
def _getPartialMatchesOf (tr : List Nat) :
    Nat → Nat → JsStr → Nat → Nat → List Nat → List JsStr
  | 0, _, _, _, _, _ => []
  | f + 1, node, pat, i, dc, pfx =>
    if tr.length ≤ node then []
    else
      let cp := pat.getD i 0
      let treeCp := (tval tr node) &&& CP_MASK
      (if cp < treeCp || cp = dc then
        _getPartialMatchesOf tr f (tval tr (node + 1)) pat i dc pfx
      else [])
      ++ (if cp = treeCp || cp = dc then
            let i2 := i + (if CP_MIN_SURROGATE ≤ cp then 2 else 1)
            let pfx2 := pfx ++ [treeCp]
            if pat.length ≤ i2 then
              (if ((tval tr node) &&& EOS) ≠ 0 then [fromCodePoints pfx2] else [])
            else _getPartialMatchesOf tr f (tval tr (node + 2)) pat i2 dc pfx2
          else [])
      ++ (if treeCp < cp || cp = dc then
        _getPartialMatchesOf tr f (tval tr (node + 3)) pat i dc pfx
      else [])

/-- `getPartialMatchesOf(pattern, dontCareChar)`: a null `dontCareChar` is
replaced by the default `"."` (char code 46); an empty one throws. -/
def getPartialMatchesOf (t : TernaryStringSet) (pattern : Option JsStr)
    (dontCareChar : Option JsStr) : Option (List JsStr) :=
  match pattern with
  | none => none
  | some pat =>
    let dc0 := match dontCareChar with | none => [46] | some d => d
    if dc0.length = 0 then none
    else if pat.length = 0 then some (if t._hasEmpty then [[]] else [])
    else some (_getPartialMatchesOf t._tree (wrapFuel t) 0 pat 0 (dc0.getD 0 0) [])

/-- `hasCodePoints(node, s, i)`: returns the node index if the code-point
string is in the set, otherwise `-node - 1` for the stopping node. -/
def hasCodePoints (tr : List Nat) : Nat → Nat → List Nat → Nat → Int
  | 0, _, _, _ => -1
  | f + 1, node, s, i =>
    if tr.length ≤ node then -(Int.ofNat node) - 1
    else
      let cp := s.getD i 0
      let treeCp := (tval tr node) &&& CP_MASK
      if cp < treeCp then hasCodePoints tr f (tval tr (node + 1)) s i
      else if treeCp < cp then hasCodePoints tr f (tval tr (node + 3)) s i
      else if s.length ≤ i + 1 then
        (if ((tval tr node) &&& EOS) == EOS then Int.ofNat node
         else -(Int.ofNat node) - 1)
      else hasCodePoints tr f (tval tr (node + 2)) s (i + 1)

/-- `getCompletionsOf(prefix)`. -/
def getCompletionsOf (t : TernaryStringSet) (pattern : Option JsStr) :
    Option (List JsStr) :=
  match pattern with
  | none => none
  | some p =>
    if p.length = 0 then some (toArray t)
    else
      let pat := toCodePoints p
      let node := hasCodePoints t._tree (wrapFuel t) 0 pat 0
      if node < 0 then
        let nd := (-node - 1).toNat
        if t._tree.length ≤ nd then some []
        else
          some ((visitCP t._tree (wrapFuel t) (tval t._tree (nd + 2)) pat).map
            fromCodePoints)
      else
        some (p :: (visitCP t._tree (wrapFuel t) (tval t._tree (node.toNat + 2))
          pat).map fromCodePoints)

/-- `getCompletedBy(suffix)`: enumerate everything and keep the strings
whose trailing code points match the suffix. -/
def getCompletedBy (t : TernaryStringSet) (pattern : Option JsStr) :
    Option (List JsStr) :=
  match pattern with
  | none => none
  | some sfx =>
    if sfx.length = 0 then some (toArray t)
    else
      let pat := toCodePoints sfx
      some (((visitCP t._tree (wrapFuel t) 0 []).filter
        (fun s => pat.length ≤ s.length ∧ s.drop (s.length - pat.length) = pat)).map
        fromCodePoints)

/-- The `availChars` table built from the pattern: how many times each code
point appears (the scan skips the trailing unit of surrogate pairs, i.e. it
counts code points). -/
def availOf (p : JsStr) (c : Nat) : Nat := (toCodePoints p).count c

/-- `_getArrangementsOf`. -/
def _getArrangementsOf (tr : List Nat) :
    Nat → Nat → (Nat → Nat) → List Nat → List JsStr
  | 0, _, _, _ => []
  | f + 1, node, avail, pfx =>
    if tr.length ≤ node then []
    else
      _getArrangementsOf tr f (tval tr (node + 1)) avail pfx
      ++ (let cp := (tval tr node) &&& CP_MASK
          if 0 < avail cp then
            let avail2 := fun x => if x = cp then avail cp - 1 else avail x
            let pfx2 := pfx ++ [cp]
            (if ((tval tr node) &&& EOS) ≠ 0 then [fromCodePoints pfx2] else [])
            ++ _getArrangementsOf tr f (tval tr (node + 2)) avail2 pfx2
          else [])
      ++ _getArrangementsOf tr f (tval tr (node + 3)) avail pfx

/-- `getArrangementsOf(charPattern)`. -/
def getArrangementsOf (t : TernaryStringSet) (pattern : Option JsStr) :
    Option (List JsStr) :=
  match pattern with
  | none => none
  | some p =>
    some ((if t._hasEmpty then [[]] else [])
      ++ _getArrangementsOf t._tree (wrapFuel t) 0 (availOf p) [])

/-- `out.addCodePoints(0, s, 0)` with throw propagation. -/
def acp (out : TernaryStringSet) (s : List Nat) : Option TernaryStringSet :=
  match addCodePoints out (out._tree.length + s.length + 4) 0 s 0 with
  | (none, _) => none
  | (some _, t1) => some t1

/-- `_getWithinEditDistanceOf`; the accumulator `out` is a temporary
`TernaryStringSet`, mutated through `addCodePoints`. -/
def _getWithinEditDistanceOf (tr : List Nat) :
    Nat → Nat → List Nat → Nat → Int → List Nat → TernaryStringSet →
    Option TernaryStringSet
  | 0, _, _, _, _, _, _ => none
  | f + 1, node, pat, i, dist, pfx, out => do
    if tr.length ≤ node || dist < 0 then return out
    let treeCp := (tval tr node) &&& CP_MASK
    let eos := (tval tr node) &&& EOS
    if i < pat.length then
      let cp := pat.getD i 0
      let i2 := i + 1
      let dist2 := dist - 1
      let out ←
        (if cp = treeCp then do
          let pfx2 := pfx ++ [cp]
          let out ← (if eos ≠ 0 ∧ Int.ofNat pat.length ≤ Int.ofNat i2 + dist then
              acp out pfx2
            else some out)
          _getWithinEditDistanceOf tr f (tval tr (node + 2)) pat i2 dist pfx2 out
        else if 0 < dist then do
          let pfx2 := pfx ++ [treeCp]
          let out ← (if eos ≠ 0 ∧ Int.ofNat pat.length ≤ Int.ofNat i + dist then
              acp out pfx2
            else some out)
          let out ← _getWithinEditDistanceOf tr f (tval tr (node + 2)) pat i dist2
            pfx2 out
          _getWithinEditDistanceOf tr f (tval tr (node + 2)) pat i2 dist2 pfx2 out
        else some out)
      let out ← (if cp < treeCp ∨ 0 < dist then
          _getWithinEditDistanceOf tr f (tval tr (node + 1)) pat i dist pfx out
        else some out)
      if treeCp < cp ∨ 0 < dist then
        _getWithinEditDistanceOf tr f (tval tr (node + 3)) pat i dist pfx out
      else return out
    else if 0 < dist then
      let pfx2 := pfx ++ [treeCp]
      let out ← (if eos ≠ 0 then acp out pfx2 else some out)
      let out ← _getWithinEditDistanceOf tr f (tval tr (node + 2)) pat i (dist - 1)
        pfx2 out
      let out ← _getWithinEditDistanceOf tr f (tval tr (node + 1)) pat i dist pfx out
      _getWithinEditDistanceOf tr f (tval tr (node + 3)) pat i dist pfx out
    else return out

/-- The body of the pattern-visiting callback of `getWithinEditDistanceOf`:
threads `(results, reducedPatterns)` through one visited pattern. -/
def editStep (t : TernaryStringSet) (d : Nat)
    (st : TernaryStringSet × TernaryStringSet) (cp : List Nat) :
    Option (TernaryStringSet × TernaryStringSet) := do
  let results ← _getWithinEditDistanceOf t._tree (wrapFuel t) 0 cp 0
    (Int.ofNat d) [] st.1
  if 0 < d ∧ 0 < cp.length then
    if cp.length = 1 then
      return (results, { st.2 with _hasEmpty := true })
    else
      let reduced ← (List.range cp.length).foldlM
        (fun (r : TernaryStringSet) i => acp r (cp.eraseIdx i)) st.2
      return (results, reduced)
  else
    return (results, st.2)

/-- One iteration of the `for (let d = distance; d >= 0; --d)` loop. -/
def editPass (t : TernaryStringSet) (d : Nat)
    (patterns results : TernaryStringSet) :
    Option (TernaryStringSet × TernaryStringSet) := do
  let results ← (if patterns._hasEmpty then
      _getWithinEditDistanceOf t._tree (wrapFuel t) 0 [] 0 (Int.ofNat d) [] results
    else some results)
  let st ← (visitCP patterns._tree (wrapFuel patterns) 0 []).foldlM
    (editStep t d) (results, emptySet)
  let results2 ← (if patterns._hasEmpty then
      _getWithinEditDistanceOf t._tree (wrapFuel t) 0 [] 0 (Int.ofNat d) [] st.1
    else some st.1)
  return (st.2, results2)

/-- The countdown loop `d = distance, …, 0`. -/
def editLoop (t : TernaryStringSet) :
    Nat → TernaryStringSet → TernaryStringSet → Option TernaryStringSet
  | d, patterns, results => do
    let st ← editPass t d patterns results
    match d with
    | 0 => return st.2
    | d + 1 => editLoop t d st.1 st.2

/-- `getWithinEditDistanceOf(pattern, distance)`. -/
def getWithinEditDistanceOf (t : TernaryStringSet) (pattern : Option JsStr)
    (distance : Nat) : Option (List JsStr) :=
  match pattern with
  | none => none
  | some pat =>
    let distance := checkDistance distance
    if distance < 1 then some (if has t pat then [pat] else [])
    else
      let results := emptySet
      let results := if t._hasEmpty ∧ pat.length ≤ distance then
          { results with _hasEmpty := true, _size := results._size + 1 }
        else results
      match add emptySet pat with
      | (none, _) => none
      | (some _, patterns) =>
        match editLoop t distance patterns results with
        | none => none
        | some r => some (toArray r)

/-!  Stats (`updateStats` / `traverse`). -/

structure TernaryTreeStats where
  size : Int
  nodes : Nat
  compact : Bool
  depth : Nat
  breadth : List Nat
  minCodePoint : Nat
  maxCodePoint : Nat
  surrogates : Nat
deriving DecidableEq

/-- `this._stats.breadth[d] = breadth.length <= d ? 1 : breadth[d] + 1`.
`traverse` increases `d` one level at a time, so the assignment is either
an in-range update or an append; the padding branch is unreachable. -/
def setBreadth (b : List Nat) (d : Nat) : List Nat :=
  if b.length ≤ d then b ++ List.replicate (d - b.length) 0 ++ [1]
  else b.set d (b.getD d 0 + 1)

/-- `traverse(n, d)`, threading the stats record. -/
def traverse (tr : List Nat) :
    Nat → Nat → Nat → TernaryTreeStats → TernaryTreeStats
  | 0, _, _, st => st
  | f + 1, n, d, st =>
    if tr.length ≤ n then st
    else
      let st := { st with breadth := setBreadth st.breadth d }
      let cp := (tval tr n) &&& CP_MASK
      let st := if CP_MIN_SURROGATE ≤ cp then
          { st with surrogates := st.surrogates + 1 } else st
      let st := if st.maxCodePoint < cp then { st with maxCodePoint := cp } else st
      let st := if cp < st.minCodePoint then { st with minCodePoint := cp } else st
      let st := traverse tr f (tval tr (n + 1)) (d + 1) st
      let st := traverse tr f (tval tr (n + 2)) (d + 1) st
      traverse tr f (tval tr (n + 3)) (d + 1) st

/-- The `stats` property (`updateStats`); `0x10fff` is the source literal. -/
def stats (t : TernaryStringSet) : TernaryTreeStats :=
  let st : TernaryTreeStats :=
    { size := 0, nodes := t._tree.length / 4, compact := false, depth := 0,
      breadth := [], surrogates := 0,
      minCodePoint := if 0 < t._tree.length / 4 then 69631 else 0,
      maxCodePoint := 0 }
  let st := traverse t._tree (wrapFuel t) 0 0 st
  { st with size := t._size, compact := t._compact, depth := st.breadth.length }

/-!  Null-accepting wrappers for the remaining public operations. -/

def hasN (t : TernaryStringSet) : Option JsStr → Option Bool
  | none => none
  | some s => some (has t s)

def addN (t : TernaryStringSet) : Option JsStr → Option Unit × TernaryStringSet
  | none => (none, t)
  | some s => add t s

def deleteN (t : TernaryStringSet) : Option JsStr → Option Bool × TernaryStringSet
  | none => (none, t)
  | some s => delete t s

def addAllN (t : TernaryStringSet) (strings : Option (List JsStr))
    (start : Int) (stop : Option Int) : Option Unit × TernaryStringSet :=
  match strings with
  | none => (none, t)
  | some strs => addAll t strs start stop

/-- `deleteAll(null)` returns `false` without throwing. -/
def deleteAllN (t : TernaryStringSet) :
    Option (List (Option JsStr)) → Option Bool × TernaryStringSet
  | none => (some false, t)
  | some els => deleteAll t els

/-- The number of tree nodes whose end-of-string flag is set. -/
def eosCount (tr : List Nat) : Nat :=
  ((alignedIdxs tr.length).filter (fun i => ((tval tr i) &&& EOS) ≠ 0)).length

/-!  Pure counterparts of the tree operations on the inductive view, stated
on the remaining code-point suffix of the argument string.  These are the
specification devices the array walkers are proved to refine. -/

/-- A string all of whose char codes are below the surrogate range: every
char code an actual JS string produces is below 0x10000. -/
def SmallW (w : List Nat) : Prop := ∀ c ∈ w, c < CP_MIN_SURROGATE

/-- The chain of fresh nodes `_add` pushes for the remaining suffix. -/
def chainW : List Nat → ITree
  | [] => .nil
  | [c] => .nd (c ||| EOS) .nil .nil .nil
  | c :: rest => .nd c .nil (chainW rest) .nil

/-- Pure insertion of a nonempty suffix, mirroring `_add`. -/
def iInsW : ITree → List Nat → ITree
  | .nil, w => chainW w
  | .nd v l e g, [] => .nd v l e g
  | .nd v l e g, c :: rest =>
    if c < (v &&& CP_MASK) then .nd v (iInsW l (c :: rest)) e g
    else if (v &&& CP_MASK) < c then .nd v l e (iInsW g (c :: rest))
    else if rest = [] then .nd (v ||| EOS) l e g
    else .nd v l (iInsW e rest) g

/-- Pure deletion of a nonempty suffix, mirroring `_delete`. -/
def iDelW : ITree → List Nat → Bool × ITree
  | .nil, _ => (false, .nil)
  | .nd v l e g, [] => (false, .nd v l e g)
  | .nd v l e g, c :: rest =>
    if c < (v &&& CP_MASK) then
      let r := iDelW l (c :: rest); (r.1, .nd v r.2 e g)
    else if (v &&& CP_MASK) < c then
      let r := iDelW g (c :: rest); (r.1, .nd v l e r.2)
    else if rest = [] then
      (if (v &&& EOS) == EOS then (true, .nd (v &&& CP_MASK) l e g)
       else (false, .nd v l e g))
    else
      let r := iDelW e rest; (r.1, .nd v l r.2 g)

/-- Pure membership of a nonempty suffix, mirroring `_has`. -/
def iFind : ITree → List Nat → Bool
  | .nil, _ => false
  | .nd _ _ _ _, [] => false
  | .nd v l e g, c :: rest =>
    if c < (v &&& CP_MASK) then iFind l (c :: rest)
    else if (v &&& CP_MASK) < c then iFind g (c :: rest)
    else if rest = [] then (v &&& EOS) == EOS
    else iFind e rest

/-- The member suffixes below a subtree, in in-order. -/
def iStrings : ITree → List (List Nat)
  | .nil => []
  | .nd v l e g =>
    iStrings l
    ++ ((if (v &&& EOS) == EOS then [[v &&& CP_MASK]] else [])
        ++ (iStrings e).map (fun r => (v &&& CP_MASK) :: r))
    ++ iStrings g

/-- The number of end-of-string nodes of the inductive view. -/
def iCount : ITree → Nat
  | .nil => 0
  | .nd v l e g =>
    iCount l + iCount e + iCount g + (if (v &&& EOS) == EOS then 1 else 0)

/-- Height of the inductive view. -/
def iHeight : ITree → Nat
  | .nil => 0
  | .nd _ l e g => 1 + max (iHeight l) (max (iHeight e) (iHeight g))

/-- Truncation of an inductive tree at a depth. -/
def itrunc : Nat → ITree → ITree
  | 0, _ => .nil
  | _ + 1, .nil => .nil
  | f + 1, .nd v l e g => .nd v (itrunc f l) (itrunc f e) (itrunc f g)

/-- A well-formed node value: a code point below the surrogate range,
possibly with the end-of-string bit. -/
def goodV (v : Nat) : Bool :=
  decide ((v &&& CP_MASK) < CP_MIN_SURROGATE) &&
    (decide (v = (v &&& CP_MASK)) || decide (v = ((v &&& CP_MASK) ||| EOS)))

/-- All node values of the view are well formed. -/
def goodT : ITree → Bool
  | .nil => true
  | .nd v l e g => goodV v && goodT l && goodT e && goodT g

/-- Head strictly above an optional lower bound. -/
def hdLoB : Option Nat → Nat → Bool
  | none, _ => true
  | some a, c => decide (a < c)

/-- Head strictly below an optional upper bound. -/
def hdHiB : Option Nat → Nat → Bool
  | none, _ => true
  | some b, c => decide (c < b)

/-- Binary-search-tree ordering of the code points along the less/greater
axis, with optional strict bounds; equal-subtrees are recursively ordered
with fresh bounds. -/
def ordB : Option Nat → Option Nat → ITree → Bool
  | _, _, .nil => true
  | lo, hi, .nd v l e g =>
    hdLoB lo (v &&& CP_MASK) && hdHiB hi (v &&& CP_MASK) &&
    ordB lo (some (v &&& CP_MASK)) l && ordB (some (v &&& CP_MASK)) hi g &&
    ordB none none e

/-- The full order invariant. -/
def OrdT (T : ITree) : Prop := ordB none none T = true

/-- Strict lexicographic order on code-point strings (a proper prefix is
smaller). -/
def strLt : List Nat → List Nat → Bool
  | [], [] => false
  | [], _ :: _ => true
  | _ :: _, [] => false
  | a :: as, b :: bs => if a < b then true else if b < a then false else strLt as bs

/-- Bound weakening for lower bounds (`lo'` is weaker than `lo`). -/
def loW : Option Nat → Option Nat → Prop
  | none, _ => True
  | some _, none => False
  | some a', some a => a' ≤ a

/-- Bound weakening for upper bounds (`hi'` is weaker than `hi`). -/
def hiW : Option Nat → Option Nat → Prop
  | none, _ => True
  | some _, none => False
  | some b', some b => b ≤ b'

/-!  Array-layer well-formedness for non-compacted trees.  Children are
always pushed after their parent, so every stored pointer is either `NUL`
or a strictly later, aligned block; this yields the termination measure of
all walks. -/

/-- A stored child pointer: `NUL`, or an aligned strictly later in-range
block. -/
def ptrOk (tr : List Nat) (i p : Nat) : Bool :=
  (p == NUL) || (decide (i < p) && decide (p < tr.length) && (p % 4 == 0))

/-- Block `i` is well formed: a good value and three good pointers. -/
def blockOk (tr : List Nat) (i : Nat) : Bool :=
  goodV (tval tr i) && ptrOk tr i (tval tr (i + 1)) &&
    ptrOk tr i (tval tr (i + 2)) && ptrOk tr i (tval tr (i + 3))

/-- Well-formedness of a non-compacted tree array. -/
def treeOk (tr : List Nat) : Bool :=
  (tr.length % 4 == 0) && decide (tr.length ≤ NODE_CEILING) &&
    (alignedIdxs tr.length).all (fun i => blockOk tr i)

/-- Canonical decode of the subtree at a node (fuel provably sufficient on
well-formed trees). -/
def decN (tr : List Nat) (node : Nat) : ITree :=
  decode tr ((tr.length - node) / 4 + 1) node

/-- Canonical decode of the whole tree. -/
def dec (tr : List Nat) : ITree := decN tr 0

/-- The blocks visited when decoding from a node, with fuel. -/
def reachL (tr : List Nat) : Nat → Nat → List Nat
  | 0, _ => []
  | f + 1, node =>
    if tr.length ≤ node then []
    else
      node :: (reachL tr f (tval tr (node + 1)) ++
        reachL tr f (tval tr (node + 2)) ++ reachL tr f (tval tr (node + 3)))

/-- Canonical reach set of the subtree at a node. -/
def reachN (tr : List Nat) (node : Nat) : List Nat :=
  reachL tr ((tr.length - node) / 4 + 1) node

/-- The node blocks `_add` pushes for the remaining suffix, with the
equal-child pointers already linked (`base` is the array length at the
first push). -/
def chainBlocks (base : Nat) : List Nat → List Nat
  | [] => []
  | [c] => [c ||| EOS, NUL, NUL, NUL]
  | c :: rest => [c, NUL, base + 4, NUL] ++ chainBlocks (base + 4) rest

/-- The four shapes of the array after a successful `_add` call on `node`:
unchanged, one EOS bit set on a reachable block, a fresh chain appended
(off-the-end node), or a fresh chain appended and grafted onto one
previously-NUL child pointer of a reachable block. -/
def addShape (t : TernaryStringSet) (node i : Nat) (s : JsStr)
    (t2 : TernaryStringSet) : Prop :=
  t2 = t ∨
  (∃ p, p ∈ reachN t._tree node ∧ (tval t._tree p) &&& EOS = 0 ∧
    t2 = { t with
      _tree := t._tree.set p ((tval t._tree p) ||| EOS),
      _size := t._size + 1 }) ∨
  (t._tree.length ≤ node ∧
    t2 = { t with
      _tree := t._tree ++ chainBlocks t._tree.length (s.drop i),
      _size := t._size + 1 }) ∨
  (∃ p k w2, p ∈ reachN t._tree node ∧ 1 ≤ k ∧ k ≤ 3 ∧
    tval t._tree (p + k) = NUL ∧ w2 ≠ [] ∧ SmallW w2 ∧
    w2.length ≤ s.length - i ∧
    t2 = { t with
      _tree := (t._tree ++ chainBlocks t._tree.length w2).set (p + k)
        t._tree.length,
      _size := t._size + 1 })

/-- Everything a successful `_add` call guarantees: untouched flags, size
bump exactly when the suffix was absent, preserved well-formedness, the
returned node, length growth bounds, the decoded subtree refining `iInsW`,
reach-set bookkeeping, and the array shape. -/
def addOut (t : TernaryStringSet) (node i : Nat) (s : JsStr)
    (r : Nat) (t2 : TernaryStringSet) : Prop :=
  t2._hasEmpty = t._hasEmpty ∧ t2._compact = t._compact ∧
  t2._size = t._size +
    (if iFind (decN t._tree node) (s.drop i) = true then 0 else 1) ∧
  treeOk t2._tree = true ∧
  r = (if node < t._tree.length then node else t._tree.length) ∧
  t._tree.length ≤ t2._tree.length ∧
  t2._tree.length ≤ t._tree.length + 4 * (s.length - i) ∧
  decN t2._tree r = iInsW (decN t._tree node) (s.drop i) ∧
  (∀ b ∈ reachN t2._tree r, b ∈ reachN t._tree node ∨
    (t._tree.length ≤ b ∧ b < t2._tree.length)) ∧
  (reachN t2._tree r).Nodup ∧
  addShape t node i s t2

/-- The representation invariant of non-compacted states: well-formed
blocks, no shared nodes, ordered code points, and the compact flag clear. -/
def Inv (t : TernaryStringSet) : Prop :=
  treeOk t._tree = true ∧ (reachN t._tree 0).Nodup ∧
  ordB none none (decN t._tree 0) = true ∧ t._compact = false

/-- Logical membership of a state, including the empty string. -/
def memF (t : TernaryStringSet) (s : JsStr) : Bool :=
  if s = [] then t._hasEmpty else iFind (decN t._tree 0) s

/-- The size bookkeeping invariant claimed by the spec: the `_size` field
counts the end-of-string blocks plus the empty-string flag. -/
def sizeInv (t : TernaryStringSet) : Prop :=
  t._size = (eosCount t._tree : Int) + (if t._hasEmpty then 1 else 0)

/-- Total code-point count of the half-open slice `[start, stop)`. -/
def segLen (strings : List JsStr) (start stop : Nat) : Nat :=
  ((List.range (stop - start)).map
    (fun k => (strings.getD (start + k) []).length)).sum

/-- Replace the `k`-th child (1 = less, 2 = equal, 3 = greater) of a node. -/
def replaceChild : Nat → ITree → ITree → ITree
  | 1, .nd v _ e g, x => .nd v x e g
  | 2, .nd v l _ g, x => .nd v l x g
  | 3, .nd v l e _, x => .nd v l e x
  | _, T, _ => T

/-- A pointer of a (possibly compacted) tree: anything at or past the end
acts as null (`NUL` itself, or the null slot a compaction pass emits);
otherwise it must be block-aligned and in range. -/
def ptrP (tr : List Nat) (p : Nat) : Bool :=
  decide (tr.length ≤ p) || (decide (p < tr.length) && (p % 4 == 0))

/-- The structural well-formedness that survives compaction: whole blocks,
every stored pointer null or aligned-in-range.  (Unlike `treeOk` it allows
sharing and backward pointers.) -/
def passOk (tr : List Nat) : Bool :=
  (tr.length % 4 == 0) &&
    (alignedIdxs tr.length).all (fun i =>
      ptrP tr (tval tr (i + 1)) && ptrP tr (tval tr (i + 2)) &&
      ptrP tr (tval tr (i + 3)))

/-- The slot a compaction pass assigns to the node a pointer designates:
the scanned slot of its key, or the null slot (the output length) for
keys the scan never saw (all out-of-range pointers). -/
def slotAbs (tr : List Nat) (st0 : NodeMap × Nat) (p : Nat) : Nat :=
  (lookupKey st0.1 (nodeKey tr p)).getD st0.2

/-- The decode of `tr` at `node` stabilises to the (finite) tree `T`:
each fuel yields exactly the depth-`fuel` truncation of `T`. -/
def stabTo (tr : List Nat) (node : Nat) (T : ITree) : Prop :=
  ∀ f, decode tr f node = itrunc f T

/-- Well-formedness of a node-map state: slots are block-aligned, below
the next free slot, pairwise distinct, keys are pairwise distinct keys of
aligned in-range blocks. -/
def MOk (tr : List Nat) (st : NodeMap × Nat) : Prop :=
  st.2 % 4 = 0 ∧
  (∀ e ∈ st.1, (∃ i, i % 4 = 0 ∧ i < tr.length ∧ e.1 = nodeKey tr i) ∧
    e.2 < st.2 ∧ e.2 % 4 = 0) ∧
  (st.1.map Prod.fst).Nodup ∧
  (st.1.map Prod.snd).Nodup

/-- The content relation between a tree and the output of a completed
rewrite pass: every assigned slot holds the source block's value and the
slot-translated pointers. -/
def passCont (tr out : List Nat) : Prop :=
  ∀ i, i % 4 = 0 → i < tr.length →
    slotAbs tr (scanMap tr) i < out.length →
    tval out (slotAbs tr (scanMap tr) i) = tval tr i ∧
    tval out (slotAbs tr (scanMap tr) i + 1) =
      slotAbs tr (scanMap tr) (tval tr (i + 1)) ∧
    tval out (slotAbs tr (scanMap tr) i + 2) =
      slotAbs tr (scanMap tr) (tval tr (i + 2)) ∧
    tval out (slotAbs tr (scanMap tr) i + 3) =
      slotAbs tr (scanMap tr) (tval tr (i + 3))

/-- The pure bisection bulk insert on the inductive view, mirroring
`_addAllM` step for step. -/
def iAddAll (strings : List JsStr) : Nat → Nat → Nat → ITree → ITree
  | 0, _, _, T => T
  | fuel + 1, start, stop, T =>
    if stop ≤ start then T
    else
      let e := stop - 1
      let mid := start + (e - start) / 2
      let T1 := iInsW T (strings.getD mid [])
      let T2 := iAddAll strings fuel start mid T1
      iAddAll strings fuel (mid + 1) (e + 1) T2

/-- The perfectly balanced single-code-point tree the bisection insert
builds out of a sorted range (proved below). -/
def bisectT (cs : List Nat) : Nat → Nat → Nat → ITree
  | 0, _, _ => .nil
  | fuel + 1, start, stop =>
    if stop ≤ start then .nil
    else
      let e := stop - 1
      let mid := start + (e - start) / 2
      .nd ((cs.getD mid 0) ||| EOS) (bisectT cs fuel start mid) .nil
        (bisectT cs fuel (mid + 1) (e + 1))

/-!
# Theorems
-/

theorem EOS_eq : EOS = 2 ^ 21 := by norm_num [EOS]

theorem CP_MASK_eq : CP_MASK = 2 ^ 21 - 1 := by norm_num [CP_MASK, EOS]

theorem surrogate_lt_eos : CP_MIN_SURROGATE < EOS := by
  norm_num [CP_MIN_SURROGATE, EOS]

theorem testBit_cpmask (i : Nat) : Nat.testBit CP_MASK i = decide (i < 21) := by
  rw [CP_MASK_eq, Nat.testBit_two_pow_sub_one]

theorem testBit_eos (i : Nat) : Nat.testBit EOS i = decide (21 = i) := by
  rw [EOS_eq, Nat.testBit_two_pow]

theorem testBit_of_lt_eos {cp i : Nat} (h : cp < EOS) (hi : ¬ i < 21) :
    cp.testBit i = false := by
  apply Nat.testBit_eq_false_of_lt
  calc cp < EOS := h
    _ = 2 ^ 21 := EOS_eq
    _ ≤ 2 ^ i := Nat.pow_le_pow_right (by norm_num) (by omega)

theorem and_cpmask_of_lt {cp : Nat} (h : cp < EOS) : cp &&& CP_MASK = cp := by
  apply Nat.eq_of_testBit_eq
  intro i
  rw [Nat.testBit_land, testBit_cpmask]
  by_cases hi : i < 21
  · rw [decide_eq_true hi, Bool.and_true]
  · rw [testBit_of_lt_eos h hi, Bool.false_and]

theorem and_eos_of_lt {cp : Nat} (h : cp < EOS) : cp &&& EOS = 0 := by
  apply Nat.eq_of_testBit_eq
  intro i
  rw [Nat.testBit_land, Nat.zero_testBit, testBit_eos]
  by_cases hi : i = 21
  · rw [testBit_of_lt_eos h (by omega), Bool.false_and]
  · rw [decide_eq_false (by omega), Bool.and_false]

theorem or_eos_and_cpmask {cp : Nat} (h : cp < EOS) :
    (cp ||| EOS) &&& CP_MASK = cp := by
  apply Nat.eq_of_testBit_eq
  intro i
  rw [Nat.testBit_land, Nat.testBit_lor, testBit_cpmask, testBit_eos]
  by_cases hi : i < 21
  · rw [decide_eq_true hi, decide_eq_false (by omega), Bool.or_false, Bool.and_true]
  · rw [decide_eq_false hi, Bool.and_false, testBit_of_lt_eos h hi]

theorem or_eos_and_eos (v : Nat) : (v ||| EOS) &&& EOS = EOS := by
  apply Nat.eq_of_testBit_eq
  intro i
  rw [Nat.testBit_land, Nat.testBit_lor, testBit_eos]
  by_cases hi : i = 21
  · rw [decide_eq_true (by omega : 21 = i), Bool.or_true, Bool.true_and]
  · rw [decide_eq_false (by omega), Bool.or_false, Bool.and_false]

theorem or_eos_idem (v : Nat) : (v ||| EOS) ||| EOS = v ||| EOS := by
  rw [Nat.or_assoc, Nat.or_self]

theorem goodV_cp_lt {v : Nat} (h : goodV v = true) :
    (v &&& CP_MASK) < CP_MIN_SURROGATE := by
  simp only [goodV, Bool.and_eq_true, decide_eq_true_eq] at h
  exact h.1

theorem goodV_cases {v : Nat} (h : goodV v = true) :
    ((v &&& EOS) = 0 ∧ v = v &&& CP_MASK) ∨
      ((v &&& EOS) = EOS ∧ v = (v &&& CP_MASK) ||| EOS) := by
  simp only [goodV, Bool.and_eq_true, Bool.or_eq_true, decide_eq_true_eq] at h
  obtain ⟨hlt, hv⟩ := h
  have hlt2 : (v &&& CP_MASK) < EOS := lt_trans hlt surrogate_lt_eos
  rcases hv with hv | hv
  · left
    constructor
    · conv_lhs => rw [hv]
      exact and_eos_of_lt hlt2
    · exact hv
  · right
    constructor
    · conv_lhs => rw [hv]
      exact or_eos_and_eos _
    · exact hv

theorem goodV_or_eos {v : Nat} (h : goodV v = true) :
    goodV (v ||| EOS) = true ∧ (v ||| EOS) &&& CP_MASK = v &&& CP_MASK := by
  have hlt := goodV_cp_lt h
  have hlt2 : (v &&& CP_MASK) < EOS := lt_trans hlt surrogate_lt_eos
  rcases goodV_cases h with ⟨_, hv⟩ | ⟨_, hv⟩
  · have hm : (v ||| EOS) &&& CP_MASK = v &&& CP_MASK := by
      conv_lhs => rw [hv]
      rw [or_eos_and_cpmask hlt2, ← hv]
    refine ⟨?_, hm⟩
    simp only [goodV, Bool.and_eq_true, Bool.or_eq_true, decide_eq_true_eq]
    refine ⟨by rw [hm]; exact hlt, Or.inr ?_⟩
    rw [hm]
    conv_lhs => rw [hv]
  · have hvv : v ||| EOS = v := by
      conv_lhs => rw [hv]
      rw [or_eos_idem, ← hv]
    rw [hvv]
    constructor
    · simp only [goodV, Bool.and_eq_true, Bool.or_eq_true, decide_eq_true_eq]
      exact ⟨hlt, Or.inr hv⟩
    · rfl

theorem goodV_eos_self {v : Nat} (h : goodV v = true)
    (he : (v &&& EOS) == EOS) : v ||| EOS = v := by
  rcases goodV_cases h with ⟨h0, _⟩ | ⟨_, hv⟩
  · simp only [beq_iff_eq] at he
    rw [h0] at he
    exact absurd he.symm (by norm_num [EOS])
  · conv_lhs => rw [hv]
    rw [or_eos_idem, ← hv]

theorem has_decode (tr : List Nat) :
    ∀ (f node : Nat) (s : JsStr) (i c : Nat),
      _has tr f node s i c = iHas (decode tr f node) s i c := by
  intro f
  induction f with
  | zero => intro node s i c; simp [_has, decode, iHas]
  | succ f ih =>
    intro node s i c
    simp only [_has, decode]
    by_cases hlen : tr.length ≤ node
    · simp [hlen, iHas]
    · simp only [hlen, if_false, iHas]
      simp only [ih]

theorem visitCP_decode (tr : List Nat) :
    ∀ (f node : Nat) (pfx : List Nat),
      visitCP tr f node pfx = iVisit (decode tr f node) pfx := by
  intro f
  induction f with
  | zero => intro node pfx; simp [visitCP, decode, iVisit]
  | succ f ih =>
    intro node pfx
    simp only [visitCP, decode]
    by_cases hlen : tr.length ≤ node
    · simp [hlen, iVisit]
    · simp only [hlen, if_false, iVisit]
      simp only [ih]

/-!  Lexicographic order facts. -/

theorem strLt_irrefl : ∀ w, strLt w w = false
  | [] => rfl
  | a :: as => by simp [strLt, strLt_irrefl as]

theorem strLt_nil_right : ∀ w, strLt w [] = false
  | [] => rfl
  | _ :: _ => rfl

theorem strLt_cons_same (c : Nat) (r1 r2 : List Nat) :
    strLt (c :: r1) (c :: r2) = strLt r1 r2 := by
  simp [strLt]

theorem strLt_of_head_lt {a b : Nat} (h : a < b) (r1 r2 : List Nat) :
    strLt (a :: r1) (b :: r2) = true := by
  simp [strLt, h]

theorem strLt_trans : ∀ {a b c : List Nat},
    strLt a b = true → strLt b c = true → strLt a c = true
  | [], b, c, _, h2 => by
    cases c with
    | nil => rw [strLt_nil_right] at h2; exact absurd h2 (by simp)
    | cons z zs => rfl
  | _ :: _, [], _, h1, _ => by
    rw [strLt_nil_right] at h1; exact absurd h1 (by simp)
  | _ :: _, _ :: _, [], _, h2 => by
    rw [strLt_nil_right] at h2; exact absurd h2 (by simp)
  | x :: xs, y :: ys, z :: zs, h1, h2 => by
    simp only [strLt] at h1 h2 ⊢
    rcases lt_trichotomy x y with hxy | hxy | hxy
    · rcases lt_trichotomy y z with hyz | hyz | hyz
      · simp [lt_trans hxy hyz]
      · subst hyz; simp [hxy]
      · rw [if_neg (by omega), if_pos hyz] at h2; exact absurd h2 (by simp)
    · subst hxy
      rcases lt_trichotomy x z with hxz | hxz | hxz
      · simp [hxz]
      · subst hxz
        rw [if_neg (lt_irrefl x), if_neg (lt_irrefl x)] at h1 h2 ⊢
        exact strLt_trans h1 h2
      · rw [if_neg (by omega), if_pos hxz] at h2; exact absurd h2 (by simp)
    · rw [if_neg (by omega), if_pos hxy] at h1; exact absurd h1 (by simp)

theorem strLt_ne {a b : List Nat} (h : strLt a b = true) : a ≠ b := by
  intro he
  subst he
  rw [strLt_irrefl] at h
  exact absurd h (by simp)

/-!  Shape, sortedness and membership of the in-order enumeration under the
order invariant. -/

theorem ordB_node {v : Nat} {l e g : ITree} {lo hi : Option Nat} :
    ordB lo hi (.nd v l e g) = true ↔
      hdLoB lo (v &&& CP_MASK) = true ∧ hdHiB hi (v &&& CP_MASK) = true ∧
      ordB lo (some (v &&& CP_MASK)) l = true ∧
      ordB (some (v &&& CP_MASK)) hi g = true ∧
      ordB none none e = true := by
  simp only [ordB, Bool.and_eq_true]
  constructor
  · rintro ⟨⟨⟨⟨hlo, hhi⟩, hl⟩, hg⟩, he⟩
    exact ⟨hlo, hhi, hl, hg, he⟩
  · rintro ⟨hlo, hhi, hl, hg, he⟩
    exact ⟨⟨⟨⟨hlo, hhi⟩, hl⟩, hg⟩, he⟩

theorem hdLoB_mono {lo : Option Nat} {c c' : Nat} (h : hdLoB lo c = true)
    (hcc : c < c') : hdLoB lo c' = true := by
  cases lo with
  | none => rfl
  | some a => simp only [hdLoB, decide_eq_true_eq] at h ⊢; omega

theorem hdHiB_mono {hi : Option Nat} {c c' : Nat} (h : hdHiB hi c = true)
    (hcc : c' < c) : hdHiB hi c' = true := by
  cases hi with
  | none => rfl
  | some b => simp only [hdHiB, decide_eq_true_eq] at h ⊢; omega

theorem ordB_mono : ∀ (T : ITree) {lo hi lo' hi' : Option Nat},
    ordB lo hi T = true → loW lo' lo → hiW hi' hi → ordB lo' hi' T = true
  | .nil, _, _, _, _, _, _, _ => rfl
  | .nd v l e g, lo, hi, lo', hi', h, hl', hh' => by
    rw [ordB_node] at h ⊢
    obtain ⟨hlo, hhi, hl, hg, he⟩ := h
    have hlo' : hdLoB lo' (v &&& CP_MASK) = true := by
      cases lo' with
      | none => rfl
      | some a' =>
        cases lo with
        | none => exact absurd hl' (by simp [loW])
        | some a =>
          simp only [hdLoB, decide_eq_true_eq] at hlo ⊢
          simp only [loW] at hl'
          omega
    have hhi' : hdHiB hi' (v &&& CP_MASK) = true := by
      cases hi' with
      | none => rfl
      | some b' =>
        cases hi with
        | none => exact absurd hh' (by simp [hiW])
        | some b =>
          simp only [hdHiB, decide_eq_true_eq] at hhi ⊢
          simp only [hiW] at hh'
          omega
    exact ⟨hlo', hhi', ordB_mono l hl hl' (le_refl _),
      ordB_mono g hg (le_refl _) hh', he⟩

theorem ordT_of_ordB {T : ITree} {lo hi : Option Nat}
    (h : ordB lo hi T = true) : OrdT T :=
  ordB_mono T h trivial trivial

theorem strings_shape : ∀ (T : ITree) (lo hi : Option Nat),
    ordB lo hi T = true → ∀ w ∈ iStrings T, ∃ c r, w = c :: r ∧
      hdLoB lo c = true ∧ hdHiB hi c = true
  | .nil, _, _, _, w, hw => by simp [iStrings] at hw
  | .nd v l e g, lo, hi, h, w, hw => by
    rw [ordB_node] at h
    obtain ⟨hlo, hhi, hl, hg, he⟩ := h
    simp only [iStrings, List.mem_append, List.mem_map] at hw
    rcases hw with (hw | hw) | hw
    · obtain ⟨c, r, rfl, hc1, hc2⟩ := strings_shape l lo _ hl w hw
      have hc2' : (c : Nat) < v &&& CP_MASK := by
        simpa [hdHiB] using hc2
      exact ⟨c, r, rfl, hc1, hdHiB_mono hhi hc2'⟩
    · have hcase : w = [v &&& CP_MASK] ∨ ∃ r ∈ iStrings e, (v &&& CP_MASK) :: r = w := by
        rcases hw with hw | hw
        · left
          rcases Bool.eq_false_or_eq_true ((v &&& EOS) == EOS) with hb | hb <;>
            rw [hb] at hw <;> simp at hw
          exact hw
        · exact Or.inr hw
      rcases hcase with rfl | ⟨r, _, rfl⟩
      · exact ⟨v &&& CP_MASK, [], rfl, hlo, hhi⟩
      · exact ⟨v &&& CP_MASK, r, rfl, hlo, hhi⟩
    · obtain ⟨c, r, rfl, hc1, hc2⟩ := strings_shape g _ hi hg w hw
      have hc1' : (v &&& CP_MASK) < c := by
        simpa [hdLoB] using hc1
      exact ⟨c, r, rfl, hdLoB_mono hlo hc1', hc2⟩

theorem strings_sorted : ∀ (T : ITree) (lo hi : Option Nat),
    ordB lo hi T = true →
    List.Pairwise (fun x y => strLt x y = true) (iStrings T)
  | .nil, _, _, _ => by simp [iStrings]
  | .nd v l e g, lo, hi, h => by
    have horig := h
    rw [ordB_node] at h
    obtain ⟨hlo, hhi, hl, hg, he⟩ := h
    simp only [iStrings]
    rw [List.append_assoc, List.pairwise_append]
    refine ⟨strings_sorted l lo _ hl, ?_, ?_⟩
    · rw [List.pairwise_append]
      refine ⟨?_, strings_sorted g _ hi hg, ?_⟩
      · rw [List.pairwise_append]
        refine ⟨?_, ?_, ?_⟩
        · rcases Bool.eq_false_or_eq_true ((v &&& EOS) == EOS) with hb | hb <;>
            rw [hb] <;> simp
        · rw [List.pairwise_map]
          refine (strings_sorted e none none he).imp ?_
          intro a b hab
          rw [strLt_cons_same]
          exact hab
        · intro x hx y hy
          rcases Bool.eq_false_or_eq_true ((v &&& EOS) == EOS) with hb | hb <;>
            rw [hb] at hx <;> simp at hx
          subst hx
          simp only [List.mem_map] at hy
          obtain ⟨r, hr, rfl⟩ := hy
          obtain ⟨c2, r2, rfl, _, _⟩ := strings_shape e none none he r hr
          rw [strLt_cons_same]
          rfl
      · intro x hx y hy
        obtain ⟨cy, ry, rfl, hcy, _⟩ := strings_shape g _ hi hg y hy
        have hcy' : (v &&& CP_MASK) < cy := by simpa [hdLoB] using hcy
        have hx' : ∃ cx rx, x = cx :: rx ∧ cx = v &&& CP_MASK := by
          rcases List.mem_append.mp hx with hx | hx
          · rcases Bool.eq_false_or_eq_true ((v &&& EOS) == EOS) with hb | hb <;>
              rw [hb] at hx <;> simp at hx
            exact ⟨_, _, hx, rfl⟩
          · simp only [List.mem_map] at hx
            obtain ⟨r, _, rfl⟩ := hx
            exact ⟨_, _, rfl, rfl⟩
        obtain ⟨cx, rx, rfl, rfl⟩ := hx'
        exact strLt_of_head_lt hcy' _ _
    · intro x hx y hy
      obtain ⟨cx, rx, rfl, _, hcx⟩ := strings_shape l lo _ hl x hx
      have hcx' : (cx : Nat) < v &&& CP_MASK := by simpa [hdHiB] using hcx
      have hy' : ∃ cy ry, y = cy :: ry ∧ (v &&& CP_MASK) ≤ cy := by
        rcases List.mem_append.mp hy with hy | hy
        · rcases List.mem_append.mp hy with hy | hy
          · rcases Bool.eq_false_or_eq_true ((v &&& EOS) == EOS) with hb | hb <;>
              rw [hb] at hy <;> simp at hy
            exact ⟨_, _, hy, le_refl _⟩
          · simp only [List.mem_map] at hy
            obtain ⟨r, _, rfl⟩ := hy
            exact ⟨_, _, rfl, le_refl _⟩
        · obtain ⟨cy, ry, rfl, hcy, _⟩ := strings_shape g _ hi hg y hy
          have : (v &&& CP_MASK) < cy := by simpa [hdLoB] using hcy
          exact ⟨cy, ry, rfl, le_of_lt this⟩
      obtain ⟨cy, ry, rfl, hcy⟩ := hy'
      exact strLt_of_head_lt (lt_of_lt_of_le hcx' hcy) _ _

theorem find_mem : ∀ (T : ITree) (lo hi : Option Nat),
    ordB lo hi T = true → ∀ (w : List Nat),
      (iFind T w = true ↔ w ∈ iStrings T)
  | .nil, _, _, _, w => by simp [iFind, iStrings]
  | .nd v l e g, lo, hi, h, w => by
    have horig := h
    rw [ordB_node] at h
    obtain ⟨hlo, hhi, hl, hg, he⟩ := h
    cases w with
    | nil =>
      simp only [iFind]
      constructor
      · intro h; exact absurd h (by simp)
      · intro hmem
        exfalso
        obtain ⟨c, r, heq, _, _⟩ := strings_shape _ lo hi horig _ hmem
        exact absurd heq (by simp)
    | cons c rest =>
      simp only [iFind, iStrings, List.mem_append, List.mem_map]
      by_cases h1 : c < v &&& CP_MASK
      · rw [if_pos h1, find_mem l lo _ hl]
        constructor
        · intro hm; exact Or.inl (Or.inl hm)
        · intro hm
          rcases hm with (hm | hm) | hm
          · exact hm
          · exfalso
            rcases hm with hm | ⟨r, _, hm⟩
            · rcases Bool.eq_false_or_eq_true ((v &&& EOS) == EOS) with hb | hb <;>
                rw [hb] at hm <;> simp at hm
              omega
            · have := List.cons.inj hm
              omega
          · exfalso
            obtain ⟨cy, ry, heq, hcy, _⟩ := strings_shape g _ hi hg _ hm
            have hinj := List.cons.inj heq
            have : (v &&& CP_MASK) < cy := by simpa [hdLoB] using hcy
            omega
      · rw [if_neg h1]
        by_cases h2 : v &&& CP_MASK < c
        · rw [if_pos h2, find_mem g _ hi hg]
          constructor
          · intro hm; exact Or.inr hm
          · intro hm
            rcases hm with (hm | hm) | hm
            · exfalso
              obtain ⟨cy, ry, heq, _, hcy⟩ := strings_shape l lo _ hl _ hm
              have hinj := List.cons.inj heq
              have : cy < v &&& CP_MASK := by simpa [hdHiB] using hcy
              omega
            · exfalso
              rcases hm with hm | ⟨r, _, hm⟩
              · rcases Bool.eq_false_or_eq_true ((v &&& EOS) == EOS) with hb | hb <;>
                  rw [hb] at hm <;> simp at hm
                omega
              · have := List.cons.inj hm
                omega
            · exact hm
        · have hc : c = v &&& CP_MASK := by omega
          rw [if_neg h2]
          by_cases h3 : rest = []
          · subst h3
            rw [if_pos rfl]
            constructor
            · intro heos
              refine Or.inl (Or.inr ?_)
              rw [heos]
              simp [hc]
            · intro hm
              rcases hm with (hm | hm) | hm
              · exfalso
                obtain ⟨cy, ry, heq, _, hcy⟩ := strings_shape l lo _ hl _ hm
                have hinj := List.cons.inj heq
                have : cy < v &&& CP_MASK := by simpa [hdHiB] using hcy
                omega
              · rcases hm with hm | ⟨r, hr, hm⟩
                · rcases Bool.eq_false_or_eq_true ((v &&& EOS) == EOS) with hb | hb <;>
                    rw [hb] at hm <;> simp at hm
                  rw [hb]
                · exfalso
                  obtain ⟨cr, rr, rfl, _, _⟩ := strings_shape e none none he r hr
                  have hinj := List.cons.inj hm
                  exact absurd hinj.2.symm (by simp)
              · exfalso
                obtain ⟨cy, ry, heq, hcy, _⟩ := strings_shape g _ hi hg _ hm
                have hinj := List.cons.inj heq
                have : (v &&& CP_MASK) < cy := by simpa [hdLoB] using hcy
                omega
          · rw [if_neg h3, find_mem e none none he]
            constructor
            · intro hm
              exact Or.inl (Or.inr (Or.inr ⟨rest, hm, by rw [hc]⟩))
            · intro hm
              rcases hm with (hm | hm) | hm
              · exfalso
                obtain ⟨cy, ry, heq, _, hcy⟩ := strings_shape l lo _ hl _ hm
                have hinj := List.cons.inj heq
                have : cy < v &&& CP_MASK := by simpa [hdHiB] using hcy
                omega
              · rcases hm with hm | ⟨r, hr, hm⟩
                · rcases Bool.eq_false_or_eq_true ((v &&& EOS) == EOS) with hb | hb <;>
                    rw [hb] at hm <;> simp at hm
                  exact absurd hm.2 h3
                · have hinj := List.cons.inj hm
                  rw [← hinj.2]
                  exact hr
              · exfalso
                obtain ⟨cy, ry, heq, hcy, _⟩ := strings_shape g _ hi hg _ hm
                have hinj := List.cons.inj heq
                have : (v &&& CP_MASK) < cy := by simpa [hdLoB] using hcy
                omega

/-- The visitor sees exactly the member suffixes, each prefixed with the
running prefix. -/
theorem iVisit_strings : ∀ (T : ITree) (pfx : List Nat),
    iVisit T pfx = (iStrings T).map (fun w => pfx ++ w)
  | .nil, _ => rfl
  | .nd v l e g, pfx => by
    simp only [iVisit, iStrings, iVisit_strings l, iVisit_strings e,
      iVisit_strings g, List.map_append, List.map_map]
    congr 2
    rcases Bool.eq_false_or_eq_true ((v &&& EOS) == EOS) with hb | hb <;>
      rw [hb] <;> simp [Function.comp_def]

/-!  Pure insertion and deletion specifications. -/

theorem smallW_head {c : Nat} {rest : List Nat} (h : SmallW (c :: rest)) :
    c < EOS :=
  lt_trans (h c (by simp)) surrogate_lt_eos

theorem smallW_tail {c : Nat} {rest : List Nat} (h : SmallW (c :: rest)) :
    SmallW rest := by
  intro x hx
  exact h x (by simp [hx])

theorem chainW_find : ∀ (w x : List Nat), SmallW w → w ≠ [] →
    iFind (chainW w) x = decide (x = w)
  | [], _, _, h => absurd rfl h
  | [c], x, hs, _ => by
    have hc : c < EOS := smallW_head hs
    cases x with
    | nil => simp [chainW, iFind]
    | cons a as =>
      simp only [chainW, iFind, or_eos_and_cpmask hc]
      by_cases h1 : a < c
      · rw [if_pos h1]
        have : ¬ (a :: as = [c]) := by intro hh; cases hh; omega
        simp [this]
      · rw [if_neg h1]
        by_cases h2 : c < a
        · rw [if_pos h2]
          have : ¬ (a :: as = [c]) := by intro hh; cases hh; omega
          simp [this]
        · have hac : a = c := by omega
          rw [if_neg h2]
          subst hac
          by_cases h3 : as = []
          · subst h3
            rw [if_pos rfl, or_eos_and_eos]
            simp
          · rw [if_neg h3]
            have : ¬ (a :: as = [a]) := by intro hh; cases hh; exact h3 rfl
            simp [this]
  | c :: c2 :: rest, x, hs, _ => by
    have hc : c < EOS := smallW_head hs
    cases x with
    | nil => simp [chainW, iFind]
    | cons a as =>
      simp only [chainW, iFind, and_cpmask_of_lt hc]
      by_cases h1 : a < c
      · rw [if_pos h1]
        have : ¬ (a :: as = c :: c2 :: rest) := by intro hh; cases hh; omega
        simp [this]
      · rw [if_neg h1]
        by_cases h2 : c < a
        · rw [if_pos h2]
          have : ¬ (a :: as = c :: c2 :: rest) := by intro hh; cases hh; omega
          simp [this]
        · have hac : a = c := by omega
          rw [if_neg h2]
          subst hac
          by_cases h3 : as = []
          · subst h3
            rw [if_pos rfl, and_eos_of_lt hc]
            have : ¬ ([a] = a :: c2 :: rest) := by intro hh; cases hh
            simp [this]
            intro hh
            exact absurd hh.symm (by norm_num [EOS])
          · rw [if_neg h3]
            rw [chainW_find (c2 :: rest) as (smallW_tail hs) (by simp)]
            have : (a :: as = a :: c2 :: rest) ↔ (as = c2 :: rest) := by
              constructor
              · intro hh; exact (List.cons.inj hh).2
              · intro hh; rw [hh]
            simp [this]

theorem chainW_count : ∀ (w : List Nat), SmallW w → w ≠ [] →
    iCount (chainW w) = 1
  | [], _, h => absurd rfl h
  | [c], hs, _ => by
    have hc : c < EOS := smallW_head hs
    simp [chainW, iCount, or_eos_and_eos]
  | c :: c2 :: rest, hs, _ => by
    have hc : c < EOS := smallW_head hs
    simp only [chainW, iCount]
    rw [chainW_count (c2 :: rest) (smallW_tail hs) (by simp)]
    rw [and_eos_of_lt hc]
    simp
    intro hh
    exact absurd hh.symm (by norm_num [EOS])

theorem goodV_of_small {c : Nat} (h : c < CP_MIN_SURROGATE) : goodV c = true := by
  have hc : c < EOS := lt_trans h surrogate_lt_eos
  simp only [goodV, Bool.and_eq_true, Bool.or_eq_true, decide_eq_true_eq]
  rw [and_cpmask_of_lt hc]
  exact ⟨h, Or.inl rfl⟩

theorem goodV_of_small_eos {c : Nat} (h : c < CP_MIN_SURROGATE) :
    goodV (c ||| EOS) = true := by
  have hc : c < EOS := lt_trans h surrogate_lt_eos
  simp only [goodV, Bool.and_eq_true, Bool.or_eq_true, decide_eq_true_eq]
  rw [or_eos_and_cpmask hc]
  exact ⟨h, Or.inr rfl⟩

theorem chainW_goodT : ∀ (w : List Nat), SmallW w → goodT (chainW w) = true
  | [], _ => rfl
  | [c], hs => by
    simp only [chainW, goodT, Bool.and_eq_true]
    refine ⟨⟨⟨goodV_of_small_eos (hs c (by simp)), ?_⟩, ?_⟩, ?_⟩ <;> trivial
  | c :: c2 :: rest, hs => by
    simp only [chainW, goodT, Bool.and_eq_true]
    refine ⟨⟨⟨goodV_of_small (hs c (by simp)), ?_⟩,
      chainW_goodT (c2 :: rest) (smallW_tail hs)⟩, ?_⟩ <;> trivial

theorem chainW_ordB : ∀ (w : List Nat) (lo hi : Option Nat), SmallW w →
    w ≠ [] → hdLoB lo (w.headD 0) = true → hdHiB hi (w.headD 0) = true →
    ordB lo hi (chainW w) = true
  | [], _, _, _, h, _, _ => absurd rfl h
  | [c], lo, hi, hs, _, hlo, hhi => by
    have hc : c < EOS := smallW_head hs
    rw [show chainW [c] = .nd (c ||| EOS) .nil .nil .nil from rfl, ordB_node,
      or_eos_and_cpmask hc]
    exact ⟨hlo, hhi, rfl, rfl, rfl⟩
  | c :: c2 :: rest, lo, hi, hs, _, hlo, hhi => by
    have hc : c < EOS := smallW_head hs
    rw [show chainW (c :: c2 :: rest) = .nd c .nil (chainW (c2 :: rest)) .nil
      from rfl, ordB_node, and_cpmask_of_lt hc]
    refine ⟨hlo, hhi, rfl, rfl, ?_⟩
    exact chainW_ordB (c2 :: rest) none none (smallW_tail hs) (by simp) rfl rfl

theorem goodT_node {v : Nat} {l e g : ITree} :
    goodT (.nd v l e g) = true ↔
      goodV v = true ∧ goodT l = true ∧ goodT e = true ∧ goodT g = true := by
  simp only [goodT, Bool.and_eq_true]
  constructor
  · rintro ⟨⟨⟨h1, h2⟩, h3⟩, h4⟩; exact ⟨h1, h2, h3, h4⟩
  · rintro ⟨h1, h2, h3, h4⟩; exact ⟨⟨⟨h1, h2⟩, h3⟩, h4⟩

theorem iInsW_find : ∀ (T : ITree) (w x : List Nat), goodT T = true →
    SmallW w → w ≠ [] →
    iFind (iInsW T w) x = (decide (x = w) || iFind T x)
  | .nil, w, x, _, hs, hw => by
    rw [show iInsW .nil w = chainW w from rfl, chainW_find w x hs hw]
    simp [iFind]
  | .nd v l e g, [], x, _, _, hw => absurd rfl hw
  | .nd v l e g, c :: rest, x, hg, hs, _ => by
    rw [goodT_node] at hg
    obtain ⟨gv, gl, ge, gg⟩ := hg
    simp only [iInsW]
    by_cases h1 : c < v &&& CP_MASK
    · rw [if_pos h1]
      cases x with
      | nil => simp [iFind]
      | cons a as =>
        simp only [iFind]
        by_cases ha1 : a < v &&& CP_MASK
        · rw [if_pos ha1, if_pos ha1,
            iInsW_find l (c :: rest) (a :: as) gl hs (by simp)]
        · rw [if_neg ha1, if_neg ha1]
          have hne : ¬ (a :: as = c :: rest) := by
            intro hh; cases hh; omega
          simp only [decide_eq_false hne, Bool.false_or]
    · rw [if_neg h1]
      by_cases h2 : v &&& CP_MASK < c
      · rw [if_pos h2]
        cases x with
        | nil => simp [iFind]
        | cons a as =>
          simp only [iFind]
          by_cases ha1 : a < v &&& CP_MASK
          · have hne : ¬ (a :: as = c :: rest) := by
              intro hh; cases hh; omega
            rw [if_pos ha1, if_pos ha1]
            simp only [decide_eq_false hne, Bool.false_or]
          · rw [if_neg ha1, if_neg ha1]
            by_cases ha2 : v &&& CP_MASK < a
            · rw [if_pos ha2, if_pos ha2,
                iInsW_find g (c :: rest) (a :: as) gg hs (by simp)]
            · have hne : ¬ (a :: as = c :: rest) := by
                intro hh; cases hh; omega
              rw [if_neg ha2, if_neg ha2]
              simp only [decide_eq_false hne, Bool.false_or]
      · have hc : c = v &&& CP_MASK := by omega
        rw [if_neg h2]
        by_cases h3 : rest = []
        · subst h3
          rw [if_pos rfl]
          obtain ⟨gv2, hmask⟩ := goodV_or_eos gv
          cases x with
          | nil => simp [iFind]
          | cons a as =>
            simp only [iFind, hmask]
            by_cases ha1 : a < v &&& CP_MASK
            · have hne : ¬ (a :: as = [c]) := by intro hh; cases hh; omega
              rw [if_pos ha1, if_pos ha1]
              simp only [decide_eq_false hne, Bool.false_or]
            · rw [if_neg ha1, if_neg ha1]
              by_cases ha2 : v &&& CP_MASK < a
              · have hne : ¬ (a :: as = [c]) := by intro hh; cases hh; omega
                rw [if_pos ha2, if_pos ha2]
                simp only [decide_eq_false hne, Bool.false_or]
              · have hac : a = v &&& CP_MASK := by omega
                rw [if_neg ha2, if_neg ha2]
                by_cases ha3 : as = []
                · subst ha3
                  rw [if_pos rfl, if_pos rfl, or_eos_and_eos]
                  have heq : a :: ([] : List Nat) = [c] := by
                    rw [hac, hc]
                  simp [heq]
                · rw [if_neg ha3, if_neg ha3]
                  have hne : ¬ (a :: as = [c]) := by
                    intro hh; cases hh; exact ha3 rfl
                  simp only [decide_eq_false hne, Bool.false_or]
        · rw [if_neg h3]
          cases x with
          | nil => simp [iFind]
          | cons a as =>
            simp only [iFind]
            by_cases ha1 : a < v &&& CP_MASK
            · have hne : ¬ (a :: as = c :: rest) := by
                intro hh; cases hh; omega
              rw [if_pos ha1, if_pos ha1]
              simp only [decide_eq_false hne, Bool.false_or]
            · rw [if_neg ha1, if_neg ha1]
              by_cases ha2 : v &&& CP_MASK < a
              · have hne : ¬ (a :: as = c :: rest) := by
                  intro hh; cases hh; omega
                rw [if_pos ha2, if_pos ha2]
                simp only [decide_eq_false hne, Bool.false_or]
              · have hac : a = v &&& CP_MASK := by omega
                rw [if_neg ha2, if_neg ha2]
                by_cases ha3 : as = []
                · have hne : ¬ (a :: as = c :: rest) := by
                    intro hh; cases hh; exact h3 ha3
                  rw [if_pos ha3, if_pos ha3]
                  simp only [decide_eq_false hne, Bool.false_or]
                · rw [if_neg ha3, if_neg ha3,
                    iInsW_find e rest as ge (smallW_tail hs) h3]
                  have : (a :: as = c :: rest) ↔ (as = rest) := by
                    constructor
                    · intro hh; exact (List.cons.inj hh).2
                    · intro hh; rw [hh, hac, hc]
                  by_cases hfin : as = rest
                  · have heq : a :: as = c :: rest := by rw [hac, hc, hfin]
                    rw [decide_eq_true heq, decide_eq_true hfin]
                  · simp only [decide_eq_false hfin,
                      decide_eq_false (fun hh => hfin (this.mp hh)), Bool.false_or]

theorem iInsW_count : ∀ (T : ITree) (w : List Nat), goodT T = true →
    SmallW w → w ≠ [] →
    iCount (iInsW T w) = iCount T + (if iFind T w = true then 0 else 1)
  | .nil, w, _, hs, hw => by
    rw [show iInsW .nil w = chainW w from rfl, chainW_count w hs hw]
    simp [iFind, iCount]
  | .nd v l e g, [], _, _, hw => absurd rfl hw
  | .nd v l e g, c :: rest, hg, hs, _ => by
    rw [goodT_node] at hg
    obtain ⟨gv, gl, ge, gg⟩ := hg
    simp only [iInsW]
    by_cases h1 : c < v &&& CP_MASK
    · have hf : iFind (ITree.nd v l e g) (c :: rest) = iFind l (c :: rest) := by
        simp only [iFind]; rw [if_pos h1]
      rw [if_pos h1, hf]
      simp only [iCount]
      rw [iInsW_count l (c :: rest) gl hs (by simp)]
      split <;> omega
    · rw [if_neg h1]
      by_cases h2 : v &&& CP_MASK < c
      · have hf : iFind (ITree.nd v l e g) (c :: rest) = iFind g (c :: rest) := by
          simp only [iFind]; rw [if_neg h1, if_pos h2]
        rw [if_pos h2, hf]
        simp only [iCount]
        rw [iInsW_count g (c :: rest) gg hs (by simp)]
        split <;> omega
      · rw [if_neg h2]
        by_cases h3 : rest = []
        · subst h3
          have hf : iFind (ITree.nd v l e g) [c] = ((v &&& EOS) == EOS) := by
            simp only [iFind]; rw [if_neg h1, if_neg h2]; simp
          rw [if_pos rfl, hf]
          simp only [iCount, or_eos_and_eos]
          rcases Bool.eq_false_or_eq_true ((v &&& EOS) == EOS) with hb | hb <;>
            rw [hb] <;> simp
        · have hf : iFind (ITree.nd v l e g) (c :: rest) = iFind e rest := by
            simp only [iFind]; rw [if_neg h1, if_neg h2, if_neg h3]
          rw [if_neg h3, hf]
          simp only [iCount]
          rw [iInsW_count e rest ge (smallW_tail hs) h3]
          split <;> omega

theorem iInsW_goodT : ∀ (T : ITree) (w : List Nat), goodT T = true →
    SmallW w → w ≠ [] → goodT (iInsW T w) = true
  | .nil, w, _, hs, _ => chainW_goodT w hs
  | .nd v l e g, [], hg, _, hw => absurd rfl hw
  | .nd v l e g, c :: rest, hg, hs, _ => by
    rw [goodT_node] at hg
    obtain ⟨gv, gl, ge, gg⟩ := hg
    simp only [iInsW]
    by_cases h1 : c < v &&& CP_MASK
    · rw [if_pos h1, goodT_node]
      exact ⟨gv, iInsW_goodT l (c :: rest) gl hs (by simp), ge, gg⟩
    · rw [if_neg h1]
      by_cases h2 : v &&& CP_MASK < c
      · rw [if_pos h2, goodT_node]
        exact ⟨gv, gl, ge, iInsW_goodT g (c :: rest) gg hs (by simp)⟩
      · rw [if_neg h2]
        by_cases h3 : rest = []
        · subst h3
          rw [if_pos rfl, goodT_node]
          exact ⟨(goodV_or_eos gv).1, gl, ge, gg⟩
        · rw [if_neg h3, goodT_node]
          exact ⟨gv, gl, iInsW_goodT e rest ge (smallW_tail hs) h3, gg⟩

theorem iInsW_ordB : ∀ (T : ITree) (lo hi : Option Nat) (c : Nat)
    (rest : List Nat), goodT T = true → ordB lo hi T = true →
    SmallW (c :: rest) → hdLoB lo c = true → hdHiB hi c = true →
    ordB lo hi (iInsW T (c :: rest)) = true
  | .nil, lo, hi, c, rest, _, _, hs, hlo, hhi =>
    chainW_ordB (c :: rest) lo hi hs (by simp) hlo hhi
  | .nd v l e g, lo, hi, c, rest, hgt, ho, hs, hlo, hhi => by
    rw [goodT_node] at hgt
    obtain ⟨gv, gl, ge, gg⟩ := hgt
    rw [ordB_node] at ho
    obtain ⟨olo, ohi, ol, og, oe⟩ := ho
    simp only [iInsW]
    by_cases h1 : c < v &&& CP_MASK
    · rw [if_pos h1, ordB_node]
      exact ⟨olo, ohi,
        iInsW_ordB l lo _ c rest gl ol hs hlo (by simp [hdHiB, h1]), og, oe⟩
    · rw [if_neg h1]
      by_cases h2 : v &&& CP_MASK < c
      · rw [if_pos h2, ordB_node]
        exact ⟨olo, ohi, ol,
          iInsW_ordB g _ hi c rest gg og hs (by simp [hdLoB, h2]) hhi, oe⟩
      · rw [if_neg h2]
        by_cases h3 : rest = []
        · subst h3
          rw [if_pos rfl, ordB_node, (goodV_or_eos gv).2]
          exact ⟨olo, ohi, ol, og, oe⟩
        · rw [if_neg h3, ordB_node]
          refine ⟨olo, ohi, ol, og, ?_⟩
          cases rest with
          | nil => exact absurd rfl h3
          | cons c2 r2 =>
            exact iInsW_ordB e none none c2 r2 ge oe
              (smallW_tail hs) rfl rfl

theorem iDelW_red_l {v : Nat} {l e g : ITree} {c : Nat} {rest : List Nat}
    (h1 : c < v &&& CP_MASK) :
    iDelW (.nd v l e g) (c :: rest) =
      ((iDelW l (c :: rest)).1, .nd v (iDelW l (c :: rest)).2 e g) := by
  simp [iDelW, h1]

theorem iDelW_red_g {v : Nat} {l e g : ITree} {c : Nat} {rest : List Nat}
    (h1 : ¬ c < v &&& CP_MASK) (h2 : v &&& CP_MASK < c) :
    iDelW (.nd v l e g) (c :: rest) =
      ((iDelW g (c :: rest)).1, .nd v l e (iDelW g (c :: rest)).2) := by
  simp [iDelW, h1, h2]

theorem iDelW_red_e {v : Nat} {l e g : ITree} {c : Nat} {rest : List Nat}
    (h1 : ¬ c < v &&& CP_MASK) (h2 : ¬ v &&& CP_MASK < c) (h3 : rest ≠ []) :
    iDelW (.nd v l e g) (c :: rest) =
      ((iDelW e rest).1, .nd v l (iDelW e rest).2 g) := by
  simp [iDelW, h1, h2, h3]

theorem iDelW_red_hit {v : Nat} {l e g : ITree} {c : Nat}
    (h1 : ¬ c < v &&& CP_MASK) (h2 : ¬ v &&& CP_MASK < c)
    (hb : ((v &&& EOS) == EOS) = true) :
    iDelW (.nd v l e g) [c] = (true, .nd (v &&& CP_MASK) l e g) := by
  simp [iDelW, h1, h2, hb]

theorem iDelW_red_miss {v : Nat} {l e g : ITree} {c : Nat}
    (h1 : ¬ c < v &&& CP_MASK) (h2 : ¬ v &&& CP_MASK < c)
    (hb : ((v &&& EOS) == EOS) = false) :
    iDelW (.nd v l e g) [c] = (false, .nd v l e g) := by
  simp [iDelW, h1, h2, hb]

theorem iFind_red {v : Nat} {l e g : ITree} {c : Nat} {rest : List Nat} :
    iFind (.nd v l e g) (c :: rest) =
      (if c < v &&& CP_MASK then iFind l (c :: rest)
       else if v &&& CP_MASK < c then iFind g (c :: rest)
       else if rest = [] then (v &&& EOS) == EOS
       else iFind e rest) := rfl

/-!  Well-formed array facts: fuel sufficiency and framing of walks. -/

theorem mem_alignedIdxs {len i : Nat} :
    i ∈ alignedIdxs len ↔ i % 4 = 0 ∧ i < len := by
  simp only [alignedIdxs, List.mem_map, List.mem_range]
  constructor
  · rintro ⟨k, hk, rfl⟩
    omega
  · rintro ⟨h4, hlt⟩
    exact ⟨i / 4, by omega, by omega⟩

theorem treeOk_parts {tr : List Nat} (h : treeOk tr = true) :
    tr.length % 4 = 0 ∧ tr.length ≤ NODE_CEILING ∧
      ∀ i, i % 4 = 0 → i < tr.length → blockOk tr i = true := by
  simp only [treeOk, Bool.and_eq_true, List.all_eq_true, decide_eq_true_eq,
    beq_iff_eq] at h
  obtain ⟨⟨h1, h2⟩, h3⟩ := h
  exact ⟨h1, h2, fun i h4 hlt => h3 i (mem_alignedIdxs.mpr ⟨h4, hlt⟩)⟩

theorem treeOk_intro {tr : List Nat} (h1 : tr.length % 4 = 0)
    (h2 : tr.length ≤ NODE_CEILING)
    (h3 : ∀ i, i % 4 = 0 → i < tr.length → blockOk tr i = true) :
    treeOk tr = true := by
  simp only [treeOk, Bool.and_eq_true, List.all_eq_true, decide_eq_true_eq,
    beq_iff_eq]
  exact ⟨⟨h1, h2⟩, fun i hi => h3 i (mem_alignedIdxs.mp hi).1 (mem_alignedIdxs.mp hi).2⟩

theorem ptrOk_elim {tr : List Nat} {i p : Nat} (h : ptrOk tr i p = true) :
    p = NUL ∨ (i < p ∧ p < tr.length ∧ p % 4 = 0) := by
  simp only [ptrOk, Bool.or_eq_true, Bool.and_eq_true, decide_eq_true_eq,
    beq_iff_eq] at h
  tauto

theorem ptrOk_intro {tr : List Nat} {i p : Nat}
    (h : p = NUL ∨ (i < p ∧ p < tr.length ∧ p % 4 = 0)) : ptrOk tr i p = true := by
  simp only [ptrOk, Bool.or_eq_true, Bool.and_eq_true, decide_eq_true_eq,
    beq_iff_eq]
  tauto

theorem blockOk_parts {tr : List Nat} {i : Nat} (h : blockOk tr i = true) :
    goodV (tval tr i) = true ∧ ptrOk tr i (tval tr (i + 1)) = true ∧
      ptrOk tr i (tval tr (i + 2)) = true ∧ ptrOk tr i (tval tr (i + 3)) = true := by
  simp only [blockOk, Bool.and_eq_true] at h
  exact ⟨h.1.1.1, h.1.1.2, h.1.2, h.2⟩

theorem blockOk_intro {tr : List Nat} {i : Nat} (h0 : goodV (tval tr i) = true)
    (h1 : ptrOk tr i (tval tr (i + 1)) = true)
    (h2 : ptrOk tr i (tval tr (i + 2)) = true)
    (h3 : ptrOk tr i (tval tr (i + 3)) = true) : blockOk tr i = true := by
  simp only [blockOk, Bool.and_eq_true]
  exact ⟨⟨⟨h0, h1⟩, h2⟩, h3⟩

theorem ceiling_lt_nul : NODE_CEILING < NUL := by norm_num [NODE_CEILING, NUL]

theorem ceiling_mod4 : NODE_CEILING % 4 = 0 := by norm_num [NODE_CEILING, NUL]

theorem decode_nul {tr : List Nat} (h : tr.length ≤ NUL) :
    ∀ f, decode tr f NUL = .nil := by
  intro f
  cases f with
  | zero => rfl
  | succ f => simp [decode, h]

theorem reach_nul {tr : List Nat} (h : tr.length ≤ NUL) :
    ∀ f, reachL tr f NUL = [] := by
  intro f
  cases f with
  | zero => rfl
  | succ f => simp [reachL, h]

theorem decode_big {tr : List Nat} {node : Nat} (h : tr.length ≤ node) :
    ∀ f, decode tr f node = .nil := by
  intro f
  cases f with
  | zero => rfl
  | succ f => simp [decode, h]

theorem reach_big {tr : List Nat} {node : Nat} (h : tr.length ≤ node) :
    ∀ f, reachL tr f node = [] := by
  intro f
  cases f with
  | zero => rfl
  | succ f => simp [reachL, h]

theorem decode_stable {tr : List Nat} (hok : treeOk tr = true) :
    ∀ (f1 f2 node : Nat), (node % 4 = 0 ∨ tr.length ≤ node) →
      (tr.length - node) / 4 < f1 → (tr.length - node) / 4 < f2 →
      decode tr f1 node = decode tr f2 node := by
  obtain ⟨hm4, hceil, hblocks⟩ := treeOk_parts hok
  have hnul : tr.length ≤ NUL := le_of_lt (lt_of_le_of_lt hceil ceiling_lt_nul)
  intro f1
  induction f1 with
  | zero => intro f2 node _ h1 _; omega
  | succ f1 ih =>
    intro f2 node hal h1 h2
    by_cases hbig : tr.length ≤ node
    · rw [decode_big hbig, decode_big hbig]
    · push_neg at hbig
      have hal4 : node % 4 = 0 := by rcases hal with h | h; exact h; omega
      cases f2 with
      | zero => omega
      | succ f2 =>
        simp only [decode, if_neg (by omega : ¬ tr.length ≤ node)]
        obtain ⟨_, hp1, hp2, hp3⟩ := blockOk_parts (hblocks node hal4 hbig)
        have hchild : ∀ p, (p = NUL ∨ (node < p ∧ p < tr.length ∧ p % 4 = 0)) →
            decode tr f1 p = decode tr f2 p := by
          intro p hp
          rcases hp with rfl | ⟨hgt, hlt, hp4⟩
          · rw [decode_nul hnul, decode_nul hnul]
          · exact ih f2 p (Or.inl hp4) (by omega) (by omega)
        rw [hchild _ (ptrOk_elim hp1), hchild _ (ptrOk_elim hp2),
          hchild _ (ptrOk_elim hp3)]

theorem reach_stable {tr : List Nat} (hok : treeOk tr = true) :
    ∀ (f1 f2 node : Nat), (node % 4 = 0 ∨ tr.length ≤ node) →
      (tr.length - node) / 4 < f1 → (tr.length - node) / 4 < f2 →
      reachL tr f1 node = reachL tr f2 node := by
  obtain ⟨hm4, hceil, hblocks⟩ := treeOk_parts hok
  have hnul : tr.length ≤ NUL := le_of_lt (lt_of_le_of_lt hceil ceiling_lt_nul)
  intro f1
  induction f1 with
  | zero => intro f2 node _ h1 _; omega
  | succ f1 ih =>
    intro f2 node hal h1 h2
    by_cases hbig : tr.length ≤ node
    · rw [reach_big hbig, reach_big hbig]
    · push_neg at hbig
      have hal4 : node % 4 = 0 := by rcases hal with h | h; exact h; omega
      cases f2 with
      | zero => omega
      | succ f2 =>
        simp only [reachL, if_neg (by omega : ¬ tr.length ≤ node)]
        obtain ⟨_, hp1, hp2, hp3⟩ := blockOk_parts (hblocks node hal4 hbig)
        have hchild : ∀ p, (p = NUL ∨ (node < p ∧ p < tr.length ∧ p % 4 = 0)) →
            reachL tr f1 p = reachL tr f2 p := by
          intro p hp
          rcases hp with rfl | ⟨hgt, hlt, hp4⟩
          · rw [reach_nul hnul, reach_nul hnul]
          · exact ih f2 p (Or.inl hp4) (by omega) (by omega)
        rw [hchild _ (ptrOk_elim hp1), hchild _ (ptrOk_elim hp2),
          hchild _ (ptrOk_elim hp3)]

theorem reach_range {tr : List Nat} (hok : treeOk tr = true) :
    ∀ (f node : Nat), (node % 4 = 0 ∨ tr.length ≤ node) →
      ∀ b ∈ reachL tr f node, node ≤ b ∧ b < tr.length ∧ b % 4 = 0 := by
  obtain ⟨hm4, hceil, hblocks⟩ := treeOk_parts hok
  have hnul : tr.length ≤ NUL := le_of_lt (lt_of_le_of_lt hceil ceiling_lt_nul)
  intro f
  induction f with
  | zero => intro node _ b hb; simp [reachL] at hb
  | succ f ih =>
    intro node hal b hb
    by_cases hbig : tr.length ≤ node
    · rw [reach_big hbig] at hb
      simp at hb
    · push_neg at hbig
      have hal4 : node % 4 = 0 := by rcases hal with h | h; exact h; omega
      simp only [reachL, if_neg (by omega : ¬ tr.length ≤ node), List.mem_cons,
        List.mem_append] at hb
      obtain ⟨_, hp1, hp2, hp3⟩ := blockOk_parts (hblocks node hal4 hbig)
      have hchild : ∀ p, (p = NUL ∨ (node < p ∧ p < tr.length ∧ p % 4 = 0)) →
          b ∈ reachL tr f p → node ≤ b ∧ b < tr.length ∧ b % 4 = 0 := by
        intro p hp hbp
        rcases hp with rfl | ⟨hgt, hlt, hp4⟩
        · rw [reach_nul hnul] at hbp; simp at hbp
        · have := ih p (Or.inl hp4) b hbp
          exact ⟨by omega, this.2.1, this.2.2⟩
      rcases hb with rfl | (hb | hb) | hb
      · exact ⟨le_refl _, hbig, hal4⟩
      · exact hchild _ (ptrOk_elim hp1) hb
      · exact hchild _ (ptrOk_elim hp2) hb
      · exact hchild _ (ptrOk_elim hp3) hb

theorem decode_congr {tr tr' : List Nat} (hok : treeOk tr = true)
    (hlen : tr.length ≤ tr'.length) (hnul : tr'.length ≤ NUL) :
    ∀ (f node : Nat), ((node % 4 = 0 ∧ node < tr.length) ∨ NUL ≤ node) →
      (∀ b ∈ reachL tr f node, ∀ k, k < 4 → tval tr' (b + k) = tval tr (b + k)) →
      decode tr' f node = decode tr f node := by
  obtain ⟨hm4, hceil, hblocks⟩ := treeOk_parts hok
  have hnul0 : tr.length ≤ NUL := le_of_lt (lt_of_le_of_lt hceil ceiling_lt_nul)
  intro f
  induction f with
  | zero => intro node _ _; rfl
  | succ f ih =>
    intro node hal hent
    rcases hal with ⟨hal4, hlt⟩ | hbig
    · have hmem : node ∈ reachL tr (f + 1) node := by
        simp [reachL, if_neg (by omega : ¬ tr.length ≤ node)]
      simp only [decode, if_neg (by omega : ¬ tr.length ≤ node),
        if_neg (by omega : ¬ tr'.length ≤ node)]
      have hv : ∀ k, k < 4 → tval tr' (node + k) = tval tr (node + k) :=
        hent node hmem
      have hv0 : tval tr' node = tval tr node := by
        have := hv 0 (by omega)
        simpa using this
      obtain ⟨_, hp1, hp2, hp3⟩ := blockOk_parts (hblocks node hal4 hlt)
      have hsub : ∀ p, (p = tval tr (node + 1) ∨ p = tval tr (node + 2) ∨
          p = tval tr (node + 3)) →
          ∀ b ∈ reachL tr f p, b ∈ reachL tr (f + 1) node := by
        intro p hp b hb
        simp only [reachL, if_neg (by omega : ¬ tr.length ≤ node), List.mem_cons,
          List.mem_append]
        rcases hp with rfl | rfl | rfl
        · exact Or.inr (Or.inl (Or.inl hb))
        · exact Or.inr (Or.inl (Or.inr hb))
        · exact Or.inr (Or.inr hb)
      have hchild : ∀ p, (p = NUL ∨ (node < p ∧ p < tr.length ∧ p % 4 = 0)) →
          (p = tval tr (node + 1) ∨ p = tval tr (node + 2) ∨
            p = tval tr (node + 3)) →
          decode tr' f p = decode tr f p := by
        intro p hp hwhich
        rcases hp with rfl | ⟨hgt, hplt, hp4⟩
        · rw [decode_nul hnul0, decode_nul hnul]
        · exact ih p (Or.inl ⟨hp4, hplt⟩)
            (fun b hb k hk => hent b (hsub p hwhich b hb) k hk)
      rw [hv0, hv 1 (by omega), hv 2 (by omega), hv 3 (by omega)]
      rw [hchild _ (ptrOk_elim hp1) (Or.inl rfl),
        hchild _ (ptrOk_elim hp2) (Or.inr (Or.inl rfl)),
        hchild _ (ptrOk_elim hp3) (Or.inr (Or.inr rfl))]
    · rw [decode_big (by omega), decode_big (by omega)]

theorem reach_congr {tr tr' : List Nat} (hok : treeOk tr = true)
    (hlen : tr.length ≤ tr'.length) (hnul : tr'.length ≤ NUL) :
    ∀ (f node : Nat), ((node % 4 = 0 ∧ node < tr.length) ∨ NUL ≤ node) →
      (∀ b ∈ reachL tr f node, ∀ k, k < 4 → tval tr' (b + k) = tval tr (b + k)) →
      reachL tr' f node = reachL tr f node := by
  obtain ⟨hm4, hceil, hblocks⟩ := treeOk_parts hok
  have hnul0 : tr.length ≤ NUL := le_of_lt (lt_of_le_of_lt hceil ceiling_lt_nul)
  intro f
  induction f with
  | zero => intro node _ _; rfl
  | succ f ih =>
    intro node hal hent
    rcases hal with ⟨hal4, hlt⟩ | hbig
    · have hmem : node ∈ reachL tr (f + 1) node := by
        simp [reachL, if_neg (by omega : ¬ tr.length ≤ node)]
      simp only [reachL, if_neg (by omega : ¬ tr.length ≤ node),
        if_neg (by omega : ¬ tr'.length ≤ node)]
      have hv : ∀ k, k < 4 → tval tr' (node + k) = tval tr (node + k) :=
        hent node hmem
      obtain ⟨_, hp1, hp2, hp3⟩ := blockOk_parts (hblocks node hal4 hlt)
      have hsub : ∀ p, (p = tval tr (node + 1) ∨ p = tval tr (node + 2) ∨
          p = tval tr (node + 3)) →
          ∀ b ∈ reachL tr f p, b ∈ reachL tr (f + 1) node := by
        intro p hp b hb
        simp only [reachL, if_neg (by omega : ¬ tr.length ≤ node), List.mem_cons,
          List.mem_append]
        rcases hp with rfl | rfl | rfl
        · exact Or.inr (Or.inl (Or.inl hb))
        · exact Or.inr (Or.inl (Or.inr hb))
        · exact Or.inr (Or.inr hb)
      have hchild : ∀ p, (p = NUL ∨ (node < p ∧ p < tr.length ∧ p % 4 = 0)) →
          (p = tval tr (node + 1) ∨ p = tval tr (node + 2) ∨
            p = tval tr (node + 3)) →
          reachL tr' f p = reachL tr f p := by
        intro p hp hwhich
        rcases hp with rfl | ⟨hgt, hplt, hp4⟩
        · rw [reach_nul hnul0, reach_nul hnul]
        · exact ih p (Or.inl ⟨hp4, hplt⟩)
            (fun b hb k hk => hent b (hsub p hwhich b hb) k hk)
      rw [hv 1 (by omega), hv 2 (by omega), hv 3 (by omega)]
      rw [hchild _ (ptrOk_elim hp1) (Or.inl rfl),
        hchild _ (ptrOk_elim hp2) (Or.inr (Or.inl rfl)),
        hchild _ (ptrOk_elim hp3) (Or.inr (Or.inr rfl))]
    · rw [reach_big (by omega), reach_big (by omega)]

theorem decN_nul {tr : List Nat} (h : tr.length ≤ NUL) : decN tr NUL = .nil :=
  decode_nul h _

theorem decN_big {tr : List Nat} {node : Nat} (h : tr.length ≤ node) :
    decN tr node = .nil := decode_big h _

theorem decN_unfold {tr : List Nat} {node : Nat} (hok : treeOk tr = true)
    (hal : node % 4 = 0) (hlt : node < tr.length) :
    decN tr node = .nd (tval tr node)
      (decN tr (tval tr (node + 1))) (decN tr (tval tr (node + 2)))
      (decN tr (tval tr (node + 3))) := by
  obtain ⟨hm4, hceil, hblocks⟩ := treeOk_parts hok
  have hnul : tr.length ≤ NUL := le_of_lt (lt_of_le_of_lt hceil ceiling_lt_nul)
  obtain ⟨F, hF, hFbig⟩ : ∃ F, (tr.length - node) / 4 + 1 = F + 1 ∧
      (tr.length - node) / 4 - 1 < F := ⟨(tr.length - node) / 4, rfl, by omega⟩
  rw [decN, hF]
  simp only [decode, if_neg (by omega : ¬ tr.length ≤ node)]
  obtain ⟨_, hp1, hp2, hp3⟩ := blockOk_parts (hblocks node hal hlt)
  have hchild : ∀ p, (p = NUL ∨ (node < p ∧ p < tr.length ∧ p % 4 = 0)) →
      decode tr F p = decN tr p := by
    intro p hp
    rcases hp with rfl | ⟨hgt, hplt, hp4⟩
    · rw [decode_nul hnul, decN_nul hnul]
    · exact decode_stable hok _ _ p (Or.inl hp4) (by omega) (by omega)
  rw [hchild _ (ptrOk_elim hp1), hchild _ (ptrOk_elim hp2),
    hchild _ (ptrOk_elim hp3)]

theorem reachN_nul {tr : List Nat} (h : tr.length ≤ NUL) : reachN tr NUL = [] :=
  reach_nul h _

theorem reachN_big {tr : List Nat} {node : Nat} (h : tr.length ≤ node) :
    reachN tr node = [] := reach_big h _

theorem reachN_unfold {tr : List Nat} {node : Nat} (hok : treeOk tr = true)
    (hal : node % 4 = 0) (hlt : node < tr.length) :
    reachN tr node = node :: (reachN tr (tval tr (node + 1)) ++
      reachN tr (tval tr (node + 2)) ++ reachN tr (tval tr (node + 3))) := by
  obtain ⟨hm4, hceil, hblocks⟩ := treeOk_parts hok
  have hnul : tr.length ≤ NUL := le_of_lt (lt_of_le_of_lt hceil ceiling_lt_nul)
  obtain ⟨F, hF, hFbig⟩ : ∃ F, (tr.length - node) / 4 + 1 = F + 1 ∧
      (tr.length - node) / 4 - 1 < F := ⟨(tr.length - node) / 4, rfl, by omega⟩
  rw [reachN, hF]
  simp only [reachL, if_neg (by omega : ¬ tr.length ≤ node)]
  obtain ⟨_, hp1, hp2, hp3⟩ := blockOk_parts (hblocks node hal hlt)
  have hchild : ∀ p, (p = NUL ∨ (node < p ∧ p < tr.length ∧ p % 4 = 0)) →
      reachL tr F p = reachN tr p := by
    intro p hp
    rcases hp with rfl | ⟨hgt, hplt, hp4⟩
    · rw [reach_nul hnul, reachN_nul hnul]
    · exact reach_stable hok _ _ p (Or.inl hp4) (by omega) (by omega)
  rw [hchild _ (ptrOk_elim hp1), hchild _ (ptrOk_elim hp2),
    hchild _ (ptrOk_elim hp3)]

theorem reachN_range {tr : List Nat} (hok : treeOk tr = true) {node : Nat}
    (hal : node % 4 = 0 ∨ tr.length ≤ node) :
    ∀ b ∈ reachN tr node, node ≤ b ∧ b < tr.length ∧ b % 4 = 0 :=
  reach_range hok _ node hal

theorem decode_goodT {tr : List Nat} (hok : treeOk tr = true) :
    ∀ (f node : Nat), (node % 4 = 0 ∨ tr.length ≤ node) →
      goodT (decode tr f node) = true := by
  obtain ⟨hm4, hceil, hblocks⟩ := treeOk_parts hok
  have hnul : tr.length ≤ NUL := le_of_lt (lt_of_le_of_lt hceil ceiling_lt_nul)
  intro f
  induction f with
  | zero => intro node _; rfl
  | succ f ih =>
    intro node hal
    by_cases hbig : tr.length ≤ node
    · rw [decode_big hbig]; rfl
    · push_neg at hbig
      have hal4 : node % 4 = 0 := by rcases hal with h | h; exact h; omega
      simp only [decode, if_neg (by omega : ¬ tr.length ≤ node)]
      rw [goodT_node]
      obtain ⟨hgv, hp1, hp2, hp3⟩ := blockOk_parts (hblocks node hal4 hbig)
      have hchild : ∀ p, (p = NUL ∨ (node < p ∧ p < tr.length ∧ p % 4 = 0)) →
          goodT (decode tr f p) = true := by
        intro p hp
        rcases hp with rfl | ⟨hgt, hplt, hp4⟩
        · rw [decode_nul hnul]; rfl
        · exact ih p (Or.inl hp4)
      exact ⟨hgv, hchild _ (ptrOk_elim hp1), hchild _ (ptrOk_elim hp2),
        hchild _ (ptrOk_elim hp3)⟩

theorem decN_goodT {tr : List Nat} (hok : treeOk tr = true) {node : Nat}
    (hal : node % 4 = 0 ∨ tr.length ≤ node) : goodT (decN tr node) = true :=
  decode_goodT hok _ node hal

/-!  Entry-level surgery lemmas. -/

theorem set_tval_self : ∀ (tr : List Nat) (i : Nat), tr.set i (tval tr i) = tr
  | [], _ => rfl
  | _ :: _, 0 => rfl
  | x :: xs, i + 1 => by
    simp only [List.set, tval, List.getD_cons_succ]
    rw [show List.getD xs i 0 = tval xs i from rfl, set_tval_self xs i]

theorem tval_set_eq {tr : List Nat} {i : Nat} (h : i < tr.length) (v : Nat) :
    tval (tr.set i v) i = v := by
  simp [tval, List.getD_eq_getElem?_getD, List.getElem?_set_self, h]

theorem tval_set_ne {tr : List Nat} {i j : Nat} (h : j ≠ i) (v : Nat) :
    tval (tr.set i v) j = tval tr j := by
  simp [tval, List.getD_eq_getElem?_getD, List.getElem?_set_ne (fun hh => h hh.symm)]

theorem tval_append_left {tr ext : List Nat} {j : Nat} (h : j < tr.length) :
    tval (tr ++ ext) j = tval tr j := by
  unfold tval
  rw [List.getD_eq_getElem?_getD, List.getD_eq_getElem?_getD,
    List.getElem?_append_left h]

theorem tval_append_right {tr ext : List Nat} {j : Nat} (h : tr.length ≤ j) :
    tval (tr ++ ext) j = tval ext (j - tr.length) := by
  simp [tval, List.getD_eq_getElem?_getD, List.getElem?_append_right h]

theorem chainBlocks_length : ∀ (base : Nat) (w : List Nat),
    (chainBlocks base w).length = 4 * w.length
  | _, [] => rfl
  | _, [_] => rfl
  | base, c :: c2 :: rest => by
    simp only [chainBlocks, List.length_append, List.length_cons,
      chainBlocks_length (base + 4) (c2 :: rest)]
    simp [List.length]
    omega

theorem chainBlocks_cons {base : Nat} {c c2 : Nat} {rest : List Nat} :
    chainBlocks base (c :: c2 :: rest) =
      [c, NUL, base + 4, NUL] ++ chainBlocks (base + 4) (c2 :: rest) := rfl

/-- Decoding the freshly pushed chain yields `chainW`. -/
theorem decode_chain : ∀ (w : List Nat) (tr : List Nat) (f : Nat),
    w.length ≤ f → tr.length % 4 = 0 →
    tr.length + 4 * w.length ≤ NUL →
    decode (tr ++ chainBlocks tr.length w) f tr.length = chainW w
  | [], tr, f, _, _, _ => by
    cases f with
    | zero => rfl
    | succ f => simp [decode, chainW, chainBlocks]
  | [c], tr, f, hf, h4, hnul => by
    cases f with
    | zero => simp at hf
    | succ f =>
      simp only [List.length_cons, List.length_nil] at hnul
      have hlen : (tr ++ chainBlocks tr.length [c]).length = tr.length + 4 := by
        simp [chainBlocks]
      simp only [decode, hlen]
      rw [if_neg (by omega)]
      have h0 : tval (tr ++ chainBlocks tr.length [c]) tr.length = c ||| EOS := by
        rw [tval_append_right (le_refl _)]
        simp [chainBlocks, tval]
      have hk : ∀ k, k ∈ [1, 2, 3] →
          tval (tr ++ chainBlocks tr.length [c]) (tr.length + k) = NUL := by
        intro k hk
        rw [tval_append_right (by omega)]
        fin_cases hk <;> simp [chainBlocks, tval]
      rw [h0]
      have h1 := hk 1 (by simp)
      have h2 := hk 2 (by simp)
      have h3 := hk 3 (by simp)
      rw [show tr.length + 1 + 1 = tr.length + 2 from by omega] at h2
      rw [show tr.length + 1 + 1 + 1 = tr.length + 3 from by omega] at h3
      rw [show tval (tr ++ chainBlocks tr.length [c]) (tr.length + 1) = NUL from h1,
        show tval (tr ++ chainBlocks tr.length [c]) (tr.length + 2) = NUL from h2,
        show tval (tr ++ chainBlocks tr.length [c]) (tr.length + 3) = NUL from h3]
      rw [decode_nul (by omega)]
      rfl
  | c :: c2 :: rest, tr, f, hf, h4, hnul => by
    cases f with
    | zero => simp at hf
    | succ f =>
      simp only [List.length_cons] at hnul
      have hcl : (chainBlocks tr.length (c :: c2 :: rest)).length =
          4 * (rest.length + 2) := by
        rw [chainBlocks_length]
        simp [List.length]
      have hlen : (tr ++ chainBlocks tr.length (c :: c2 :: rest)).length =
          tr.length + 4 * (rest.length + 2) := by
        simp [hcl]
      simp only [decode]
      rw [if_neg (by omega)]
      have hassoc : tr ++ chainBlocks tr.length (c :: c2 :: rest) =
          (tr ++ [c, NUL, tr.length + 4, NUL]) ++
            chainBlocks (tr.length + 4) (c2 :: rest) := by
        rw [chainBlocks_cons, List.append_assoc]
      have h0 : tval (tr ++ chainBlocks tr.length (c :: c2 :: rest)) tr.length = c := by
        rw [tval_append_right (le_refl _)]
        simp [chainBlocks_cons, tval]
      have h1 : tval (tr ++ chainBlocks tr.length (c :: c2 :: rest))
          (tr.length + 1) = NUL := by
        rw [tval_append_right (by omega)]
        simp [chainBlocks_cons, tval]
      have h2 : tval (tr ++ chainBlocks tr.length (c :: c2 :: rest))
          (tr.length + 2) = tr.length + 4 := by
        rw [tval_append_right (by omega)]
        simp [chainBlocks_cons, tval]
      have h3 : tval (tr ++ chainBlocks tr.length (c :: c2 :: rest))
          (tr.length + 3) = NUL := by
        rw [tval_append_right (by omega)]
        simp [chainBlocks_cons, tval]
      rw [h0, h1, h2, h3]
      rw [decode_nul (by omega)]
      have hlen2 : (tr ++ [c, NUL, tr.length + 4, NUL]).length = tr.length + 4 := by
        simp
      have hrec := decode_chain (c2 :: rest) (tr ++ [c, NUL, tr.length + 4, NUL]) f
        (by simp at hf ⊢; omega) (by simp; omega) (by simp [List.length]; omega)
      rw [hlen2, ← hassoc] at hrec
      rw [hrec]
      rfl

theorem chainW_cons {c c2 : Nat} {rest : List Nat} :
    chainW (c :: c2 :: rest) = .nd c .nil (chainW (c2 :: rest)) .nil := rfl

/-- The reach set of the freshly pushed chain. -/
theorem reach_chain : ∀ (w : List Nat) (tr : List Nat) (f : Nat),
    w.length ≤ f → tr.length % 4 = 0 →
    tr.length + 4 * w.length ≤ NUL →
    reachL (tr ++ chainBlocks tr.length w) f tr.length =
      (List.range w.length).map (fun k => tr.length + 4 * k)
  | [], tr, f, _, _, _ => by
    cases f with
    | zero => rfl
    | succ f => simp [reachL, chainBlocks]
  | [c], tr, f, hf, h4, hnul => by
    cases f with
    | zero => simp at hf
    | succ f =>
      simp only [List.length_cons, List.length_nil] at hnul
      have hlen : (tr ++ chainBlocks tr.length [c]).length = tr.length + 4 := by
        simp [chainBlocks]
      simp only [reachL, hlen]
      rw [if_neg (by omega)]
      have h1 : tval (tr ++ chainBlocks tr.length [c]) (tr.length + 1) = NUL := by
        rw [tval_append_right (by omega)]; simp [chainBlocks, tval]
      have h2 : tval (tr ++ chainBlocks tr.length [c]) (tr.length + 2) = NUL := by
        rw [tval_append_right (by omega)]; simp [chainBlocks, tval]
      have h3 : tval (tr ++ chainBlocks tr.length [c]) (tr.length + 3) = NUL := by
        rw [tval_append_right (by omega)]; simp [chainBlocks, tval]
      rw [h1, h2, h3, reach_nul (by omega)]
      simp [List.range_succ]
  | c :: c2 :: rest, tr, f, hf, h4, hnul => by
    cases f with
    | zero => simp at hf
    | succ f =>
      simp only [List.length_cons] at hnul
      have hcl : (chainBlocks tr.length (c :: c2 :: rest)).length =
          4 * (rest.length + 2) := by
        rw [chainBlocks_length]; simp [List.length]
      have hlen : (tr ++ chainBlocks tr.length (c :: c2 :: rest)).length =
          tr.length + 4 * (rest.length + 2) := by
        simp [hcl]
      simp only [reachL]
      rw [if_neg (by omega)]
      have hassoc : tr ++ chainBlocks tr.length (c :: c2 :: rest) =
          (tr ++ [c, NUL, tr.length + 4, NUL]) ++
            chainBlocks (tr.length + 4) (c2 :: rest) := by
        rw [chainBlocks_cons, List.append_assoc]
      have h1 : tval (tr ++ chainBlocks tr.length (c :: c2 :: rest))
          (tr.length + 1) = NUL := by
        rw [tval_append_right (by omega)]; simp [chainBlocks_cons, tval]
      have h2 : tval (tr ++ chainBlocks tr.length (c :: c2 :: rest))
          (tr.length + 2) = tr.length + 4 := by
        rw [tval_append_right (by omega)]; simp [chainBlocks_cons, tval]
      have h3 : tval (tr ++ chainBlocks tr.length (c :: c2 :: rest))
          (tr.length + 3) = NUL := by
        rw [tval_append_right (by omega)]; simp [chainBlocks_cons, tval]
      rw [h1, h2, h3, reach_nul (by omega)]
      have hlen2 : (tr ++ [c, NUL, tr.length + 4, NUL]).length = tr.length + 4 := by
        simp
      have hrec := reach_chain (c2 :: rest) (tr ++ [c, NUL, tr.length + 4, NUL]) f
        (by simp at hf ⊢; omega) (by simp; omega) (by simp [List.length]; omega)
      rw [hlen2, ← hassoc] at hrec
      rw [hrec]
      simp only [List.length_cons, List.range_succ_eq_map, List.map_cons,
        List.map_map]
      simp [Function.comp_def]
      intro a ha
      omega

/-!  Reductions of `_add` to `addStep`, and well-formedness preservation of
the three kinds of single-entry surgery `_add` performs. -/

theorem _add_unfold (t : TernaryStringSet) (fuel node : Nat) (s : JsStr)
    (i c : Nat) :
    _add t (fuel + 1) node s i c =
      if t._tree.length ≤ node then
        if NODE_CEILING ≤ t._tree.length then (none, t)
        else addStep { t with _tree := t._tree ++ [c, NUL, NUL, NUL] }
          t._tree.length fuel s i c
      else addStep t node fuel s i c := by
  by_cases h1 : t._tree.length ≤ node
  · by_cases h2 : NODE_CEILING ≤ t._tree.length
    · simp [_add, addStep, h1, h2]
    · simp [_add, addStep, h1, h2]
  · simp [_add, addStep, h1]

theorem ptrOk_mono {tr tr' : List Nat} {i p : Nat} (hlen : tr.length ≤ tr'.length)
    (h : ptrOk tr i p = true) : ptrOk tr' i p = true := by
  rcases ptrOk_elim h with rfl | ⟨h1, h2, h3⟩
  · exact ptrOk_intro (Or.inl rfl)
  · exact ptrOk_intro (Or.inr ⟨h1, by omega, h3⟩)

theorem blockOk_mono {tr tr' : List Nat} {i : Nat}
    (hlen : tr.length ≤ tr'.length)
    (hent : ∀ k, k < 4 → tval tr' (i + k) = tval tr (i + k))
    (hb : blockOk tr i = true) : blockOk tr' i = true := by
  obtain ⟨h0, h1, h2, h3⟩ := blockOk_parts hb
  have e0 := hent 0 (by omega)
  rw [show i + 0 = i from rfl] at e0
  apply blockOk_intro
  · rw [e0]; exact h0
  · rw [hent 1 (by omega)]; exact ptrOk_mono hlen h1
  · rw [hent 2 (by omega)]; exact ptrOk_mono hlen h2
  · rw [hent 3 (by omega)]; exact ptrOk_mono hlen h3

theorem treeOk_set_val {tr : List Nat} {p v : Nat} (hok : treeOk tr = true)
    (hp4 : p % 4 = 0) (hplt : p < tr.length) (hv : goodV v = true) :
    treeOk (tr.set p v) = true := by
  obtain ⟨hm4, hceil, hblocks⟩ := treeOk_parts hok
  have hlen : (tr.set p v).length = tr.length := by simp
  apply treeOk_intro (by rw [hlen]; exact hm4) (by rw [hlen]; exact hceil)
  intro i hi4 hilt
  rw [hlen] at hilt
  obtain ⟨g0, g1, g2, g3⟩ := blockOk_parts (hblocks i hi4 hilt)
  by_cases hip : i = p
  · subst hip
    apply blockOk_intro
    · rw [tval_set_eq hplt]; exact hv
    · rw [tval_set_ne (by omega)]; exact ptrOk_mono (le_of_eq hlen.symm) g1
    · rw [tval_set_ne (by omega)]; exact ptrOk_mono (le_of_eq hlen.symm) g2
    · rw [tval_set_ne (by omega)]; exact ptrOk_mono (le_of_eq hlen.symm) g3
  · apply blockOk_mono (le_of_eq hlen.symm) _ (hblocks i hi4 hilt)
    intro k hk
    exact tval_set_ne (by omega) v

theorem treeOk_set_ptr {tr : List Nat} {p k q : Nat} (hok : treeOk tr = true)
    (hp4 : p % 4 = 0) (hplt : p < tr.length) (hk1 : 1 ≤ k) (hk3 : k ≤ 3)
    (hq : q = NUL ∨ (p < q ∧ q < tr.length ∧ q % 4 = 0)) :
    treeOk (tr.set (p + k) q) = true := by
  obtain ⟨hm4, hceil, hblocks⟩ := treeOk_parts hok
  have hlen : (tr.set (p + k) q).length = tr.length := by simp
  apply treeOk_intro (by rw [hlen]; exact hm4) (by rw [hlen]; exact hceil)
  intro i hi4 hilt
  rw [hlen] at hilt
  obtain ⟨g0, g1, g2, g3⟩ := blockOk_parts (hblocks i hi4 hilt)
  by_cases hip : i = p
  · subst hip
    apply blockOk_intro
    · rw [tval_set_ne (by omega)]; exact g0
    · by_cases h1 : k = 1
      · subst h1
        rw [tval_set_eq (by omega)]
        apply ptrOk_intro
        rcases hq with rfl | ⟨a, b, c2⟩
        · exact Or.inl rfl
        · exact Or.inr ⟨a, by omega, c2⟩
      · rw [tval_set_ne (by omega)]; exact ptrOk_mono (le_of_eq hlen.symm) g1
    · by_cases h2 : k = 2
      · subst h2
        rw [tval_set_eq (by omega)]
        apply ptrOk_intro
        rcases hq with rfl | ⟨a, b, c2⟩
        · exact Or.inl rfl
        · exact Or.inr ⟨a, by omega, c2⟩
      · rw [tval_set_ne (by omega)]; exact ptrOk_mono (le_of_eq hlen.symm) g2
    · by_cases h3 : k = 3
      · subst h3
        rw [tval_set_eq (by omega)]
        apply ptrOk_intro
        rcases hq with rfl | ⟨a, b, c2⟩
        · exact Or.inl rfl
        · exact Or.inr ⟨a, by omega, c2⟩
      · rw [tval_set_ne (by omega)]; exact ptrOk_mono (le_of_eq hlen.symm) g3
  · apply blockOk_mono (le_of_eq hlen.symm) _ (hblocks i hi4 hilt)
    intro j hj
    exact tval_set_ne (by omega) q

theorem treeOk_append_block {tr : List Nat} {v : Nat} (hok : treeOk tr = true)
    (hv : goodV v = true) (hroom : tr.length + 4 ≤ NODE_CEILING) :
    treeOk (tr ++ [v, NUL, NUL, NUL]) = true := by
  obtain ⟨hm4, hceil, hblocks⟩ := treeOk_parts hok
  have hlen : (tr ++ [v, NUL, NUL, NUL]).length = tr.length + 4 := by simp
  apply treeOk_intro (by rw [hlen]; omega) (by rw [hlen]; omega)
  intro i hi4 hilt
  rw [hlen] at hilt
  by_cases hold : i < tr.length
  · apply blockOk_mono (by rw [hlen]; omega) _ (hblocks i hi4 hold)
    intro k hk
    exact tval_append_left (by omega)
  · have hieq : i = tr.length := by omega
    subst hieq
    have e0 : tval (tr ++ [v, NUL, NUL, NUL]) tr.length = v := by
      rw [tval_append_right (le_refl _)]; simp [tval]
    have e1 : tval (tr ++ [v, NUL, NUL, NUL]) (tr.length + 1) = NUL := by
      rw [tval_append_right (by omega)]; simp [tval]
    have e2 : tval (tr ++ [v, NUL, NUL, NUL]) (tr.length + 2) = NUL := by
      rw [tval_append_right (by omega)]; simp [tval]
    have e3 : tval (tr ++ [v, NUL, NUL, NUL]) (tr.length + 3) = NUL := by
      rw [tval_append_right (by omega)]; simp [tval]
    apply blockOk_intro
    · rw [e0]; exact hv
    · rw [e1]; exact ptrOk_intro (Or.inl rfl)
    · rw [e2]; exact ptrOk_intro (Or.inl rfl)
    · rw [e3]; exact ptrOk_intro (Or.inl rfl)

/-- Canonical-fuel frame lemma: if no entry of a reachable block changed,
the decoded subtree is unchanged (lengths may differ). -/
theorem decN_congr {tr tr' : List Nat} {node : Nat} (hok : treeOk tr = true)
    (hlen : tr.length ≤ tr'.length) (hnul : tr'.length ≤ NUL)
    (hal : (node % 4 = 0 ∧ node < tr.length) ∨ NUL ≤ node)
    (hent : ∀ b ∈ reachN tr node, ∀ k, k < 4 → tval tr' (b + k) = tval tr (b + k)) :
    decN tr' node = decN tr node := by
  have hpos : node % 4 = 0 ∨ tr.length ≤ node := by
    rcases hal with ⟨h1, _⟩ | h1
    · exact Or.inl h1
    · right
      have := lt_of_le_of_lt (treeOk_parts hok).2.1 ceiling_lt_nul
      omega
  have hF1 : reachL tr ((tr'.length - node) / 4 + 1) node = reachN tr node :=
    reach_stable hok _ _ node hpos (by omega) (by omega)
  have h1 : decN tr' node = decode tr' ((tr'.length - node) / 4 + 1) node := rfl
  rw [h1, decode_congr hok hlen hnul _ node hal (by rw [hF1]; exact hent)]
  exact decode_stable hok _ _ node hpos (by omega) (by omega)

theorem reachN_congr {tr tr' : List Nat} {node : Nat} (hok : treeOk tr = true)
    (hlen : tr.length ≤ tr'.length) (hnul : tr'.length ≤ NUL)
    (hal : (node % 4 = 0 ∧ node < tr.length) ∨ NUL ≤ node)
    (hent : ∀ b ∈ reachN tr node, ∀ k, k < 4 → tval tr' (b + k) = tval tr (b + k)) :
    reachN tr' node = reachN tr node := by
  have hpos : node % 4 = 0 ∨ tr.length ≤ node := by
    rcases hal with ⟨h1, _⟩ | h1
    · exact Or.inl h1
    · right
      have := lt_of_le_of_lt (treeOk_parts hok).2.1 ceiling_lt_nul
      omega
  have hF1 : reachL tr ((tr'.length - node) / 4 + 1) node = reachN tr node :=
    reach_stable hok _ _ node hpos (by omega) (by omega)
  have h1 : reachN tr' node = reachL tr' ((tr'.length - node) / 4 + 1) node := rfl
  rw [h1, reach_congr hok hlen hnul _ node hal (by rw [hF1]; exact hent)]
  exact reach_stable hok _ _ node hpos (by omega) (by omega)

theorem getD_mem_of_lt {s : JsStr} {i : Nat} (h : i < s.length) :
    s.getD i 0 ∈ s := by
  rw [List.getD_eq_getElem s 0 h]
  exact List.getElem_mem h

theorem drop_cons_getD {s : JsStr} {i : Nat} (h : i < s.length) :
    s.drop i = s.getD i 0 :: s.drop (i + 1) := by
  rw [List.getD_eq_getElem s 0 h]
  exact List.drop_eq_getElem_cons h

/-- On a node at or past the end of the array, `_add` appends exactly the
fresh chain encoding the remaining code-point suffix and bumps the size. -/
theorem add_sync_big : ∀ (fuel : Nat) (t : TernaryStringSet) (node i : Nat)
    (s : JsStr), treeOk t._tree = true → t._tree.length ≤ node → SmallW s →
    i < s.length → s.length - i ≤ fuel →
    t._tree.length + 4 * (s.length - i) ≤ NODE_CEILING →
    _add t fuel node s i (s.getD i 0) =
      (some t._tree.length,
        { t with _tree := t._tree ++ chainBlocks t._tree.length (s.drop i),
                 _size := t._size + 1 }) ∧
      treeOk (t._tree ++ chainBlocks t._tree.length (s.drop i)) = true
  | 0, t, node, i, s => by
    intro _ _ _ hi hf _
    omega
  | fuel + 1, t, node, i, s => by
    intro hok hbig hs hi hf hroom
    have hcn := ceiling_lt_nul
    have hcs : s.getD i 0 < CP_MIN_SURROGATE := hs _ (getD_mem_of_lt hi)
    have hce : s.getD i 0 < EOS := lt_trans hcs surrogate_lt_eos
    rw [_add_unfold, if_pos hbig, if_neg (by omega)]
    simp only [addStep]
    have e0 : tval (t._tree ++ [s.getD i 0, NUL, NUL, NUL]) t._tree.length
        = s.getD i 0 := by
      rw [tval_append_right (le_refl _)]
      simp [tval]
    have e2 : tval (t._tree ++ [s.getD i 0, NUL, NUL, NUL]) (t._tree.length + 2)
        = NUL := by
      rw [tval_append_right (by omega)]
      simp [tval]
    rw [e0, and_cpmask_of_lt hce]
    rw [if_neg (lt_irrefl (s.getD i 0)), if_neg (lt_irrefl (s.getD i 0))]
    simp only [if_neg (show ¬ CP_MIN_SURROGATE ≤ s.getD i 0 from by omega)]
    have hok0 : treeOk (t._tree ++ [s.getD i 0, NUL, NUL, NUL]) = true :=
      treeOk_append_block hok (goodV_of_small hcs) (by omega)
    by_cases hterm : s.length ≤ i + 1
    · rw [if_pos hterm]
      have hdrop : s.drop i = [s.getD i 0] := by
        rw [drop_cons_getD hi, List.drop_eq_nil_of_le (by omega)]
      rw [and_eos_of_lt hce]
      rw [if_pos (by rfl)]
      constructor
      · rw [hdrop]
        show _ = (_, _)
        rw [List.set_append_right _ _ (le_refl _), Nat.sub_self]
        rfl
      · rw [hdrop]
        exact treeOk_append_block hok (goodV_of_small_eos hcs) (by omega)
    · rw [if_neg hterm, e2]
      have hih := add_sync_big fuel
        { t with _tree := t._tree ++ [s.getD i 0, NUL, NUL, NUL] } NUL (i + 1) s
        hok0 (by simp; omega) hs (by omega) (by omega) (by simp; omega)
      obtain ⟨ihq, ihok⟩ := hih
      simp only at ihq ihok
      have hlen4 : (t._tree ++ [s.getD i 0, NUL, NUL, NUL]).length =
          t._tree.length + 4 := by simp
      rw [hlen4] at ihq ihok
      rw [ihq]
      have hdropi : s.drop i = s.getD i 0 :: s.drop (i + 1) := drop_cons_getD hi
      have hdrop1 : s.drop (i + 1) = s.getD (i + 1) 0 :: s.drop (i + 2) :=
        drop_cons_getD (by omega)
      have hchain : chainBlocks t._tree.length (s.drop i) =
          [s.getD i 0, NUL, t._tree.length + 4, NUL] ++
            chainBlocks (t._tree.length + 4) (s.drop (i + 1)) := by
        rw [hdropi, hdrop1, chainBlocks_cons, ← hdrop1]
      have hclen : (chainBlocks (t._tree.length + 4) (s.drop (i + 1))).length =
          4 * (s.drop (i + 1)).length := chainBlocks_length _ _
      have hdlen : (s.drop (i + 1)).length = s.length - (i + 1) :=
        List.length_drop _ _
      have hlist : ((t._tree ++ [s.getD i 0, NUL, NUL, NUL]) ++
            chainBlocks (t._tree.length + 4) (s.drop (i + 1))).set
            (t._tree.length + 2) (t._tree.length + 4) =
          t._tree ++ chainBlocks t._tree.length (s.drop i) := by
        rw [hchain, List.append_assoc]
        rw [List.set_append_right _ _ (by omega)]
        have : t._tree.length + 2 - t._tree.length = 2 := by omega
        rw [this]
        rw [List.set_append_left _ _ (by simp)]
        rfl
      constructor
      · show (_, _) = (_, _)
        rw [hlist]
      · rw [← hlist]
        have hm4 := (treeOk_parts hok).1
        have hXlen : ((t._tree ++ [s.getD i 0, NUL, NUL, NUL]) ++
            chainBlocks (t._tree.length + 4) (s.drop (i + 1))).length =
            t._tree.length + 4 + 4 * (s.length - (i + 1)) := by
          simp [hclen, hdlen]
          omega
        apply treeOk_set_ptr ihok hm4 (by rw [hXlen]; omega) (by omega) (by omega)
        exact Or.inr ⟨by omega, by rw [hXlen]; omega, by omega⟩

theorem SmallW_drop {s : JsStr} (hs : SmallW s) (i : Nat) : SmallW (s.drop i) :=
  fun c hc => hs c (List.mem_of_mem_drop hc)

/-- Any successful-`_add` shape leaves every entry of an old block untouched
when the block is not reachable from the call node. -/
theorem addShape_frame {t t2 : TernaryStringSet} {node i : Nat} {s : JsStr}
    (hsh : addShape t node i s t2) :
    ∀ j, j < t._tree.length →
      (∀ b ∈ reachN t._tree node, ∀ k, k < 4 → j ≠ b + k) →
      tval t2._tree j = tval t._tree j := by
  intro j hj hcrit
  rcases hsh with rfl | ⟨p, hp, _, rfl⟩ | ⟨_, rfl⟩ |
    ⟨p, k, w2, hp, hk1, hk3, _, _, _, _, rfl⟩
  · rfl
  · exact tval_set_ne (by have := hcrit p hp 0 (by omega); omega) _
  · exact tval_append_left hj
  · rw [tval_set_ne (by have := hcrit p hp k (by omega); omega) _]
    exact tval_append_left hj

theorem nodup_unpack {x : Nat} {A B C : List Nat}
    (h : (x :: (A ++ B ++ C)).Nodup) :
    A.Nodup ∧ B.Nodup ∧ C.Nodup ∧ x ∉ A ∧ x ∉ B ∧ x ∉ C ∧
      (∀ b ∈ A, b ∉ B) ∧ (∀ b ∈ A, b ∉ C) ∧ (∀ b ∈ B, b ∉ C) := by
  rcases List.nodup_cons.mp h with ⟨hx, hr⟩
  simp only [List.mem_append] at hx
  push_neg at hx
  rcases List.nodup_append.mp hr with ⟨hab, hC, habC⟩
  rcases List.nodup_append.mp hab with ⟨hA, hB, hAB⟩
  refine ⟨hA, hB, hC, hx.1.1, hx.1.2, hx.2, hAB, ?_, ?_⟩
  · intro b hb
    exact habC (List.mem_append.mpr (Or.inl hb))
  · intro b hb
    exact habC (List.mem_append.mpr (Or.inr hb))

theorem nodup_pack {x : Nat} {A B C : List Nat}
    (hA : A.Nodup) (hB : B.Nodup) (hC : C.Nodup)
    (hxA : x ∉ A) (hxB : x ∉ B) (hxC : x ∉ C)
    (hAB : ∀ b ∈ A, b ∉ B) (hAC : ∀ b ∈ A, b ∉ C) (hBC : ∀ b ∈ B, b ∉ C) :
    (x :: (A ++ B ++ C)).Nodup := by
  rw [List.nodup_cons]
  constructor
  · simp only [List.mem_append]
    push_neg
    exact ⟨⟨hxA, hxB⟩, hxC⟩
  · rw [List.nodup_append]
    refine ⟨List.nodup_append.mpr ⟨hA, hB, hAB⟩, hC, ?_⟩
    intro b hb
    rcases List.mem_append.mp hb with h1 | h1
    · exact hAC b h1
    · exact hBC b h1

/-- Frame transfer to a subtree disjoint from the modified one: decode and
reach sets are unchanged. -/
theorem sibling_congr {t t2 : TernaryStringSet} {node i q : Nat} {s : JsStr}
    (hok : treeOk t._tree = true)
    (hsh : addShape t node i s t2)
    (hlen : t._tree.length ≤ t2._tree.length) (hnul : t2._tree.length ≤ NUL)
    (hq : (q % 4 = 0 ∧ q < t._tree.length) ∨ NUL ≤ q)
    (hdisj : ∀ b ∈ reachN t._tree q, b ∉ reachN t._tree node)
    (hpos : node % 4 = 0 ∨ t._tree.length ≤ node) :
    decN t2._tree q = decN t._tree q ∧ reachN t2._tree q = reachN t._tree q := by
  obtain ⟨hm4, hceil, _⟩ := treeOk_parts hok
  have hcn := ceiling_lt_nul
  have hqpos : q % 4 = 0 ∨ t._tree.length ≤ q := by
    rcases hq with ⟨a, _⟩ | a
    · exact Or.inl a
    · right; omega
  have hent : ∀ b ∈ reachN t._tree q, ∀ k, k < 4 →
      tval t2._tree (b + k) = tval t._tree (b + k) := by
    intro b hb k hk
    obtain ⟨hb1, hb2, hb3⟩ := reachN_range hok hqpos b hb
    apply addShape_frame hsh
    · omega
    · intro b2 hb2m k2 hk2
      obtain ⟨hc1, hc2, hc3⟩ := reachN_range hok hpos b2 hb2m
      have hne : b ≠ b2 := fun he => (hdisj b hb) (he ▸ hb2m)
      omega
  exact ⟨decN_congr hok hlen hnul hq hent, reachN_congr hok hlen hnul hq hent⟩

/-- The conclusions of `_add` in the fresh-chain case. -/
theorem add_big_out {t : TernaryStringSet} {node i : Nat} {s : JsStr}
    (hok : treeOk t._tree = true) (hbig : t._tree.length ≤ node)
    (hs : SmallW s) (hi : i < s.length)
    (hroom : t._tree.length + 4 * (s.length - i) ≤ NODE_CEILING)
    (hok2 : treeOk (t._tree ++ chainBlocks t._tree.length (s.drop i)) = true) :
    addOut t node i s t._tree.length
      { t with _tree := t._tree ++ chainBlocks t._tree.length (s.drop i),
               _size := t._size + 1 } := by
  obtain ⟨hm4, hceil, _⟩ := treeOk_parts hok
  have hcn := ceiling_lt_nul
  have hwlen : (s.drop i).length = s.length - i := List.length_drop _ _
  have hlen2 : (t._tree ++ chainBlocks t._tree.length (s.drop i)).length =
      t._tree.length + 4 * (s.length - i) := by
    rw [List.length_append, chainBlocks_length, hwlen]
  have hfnil : iFind (decN t._tree node) (s.drop i) = false := by
    rw [decN_big hbig]
    rfl
  have hdec : decN (t._tree ++ chainBlocks t._tree.length (s.drop i))
      t._tree.length = chainW (s.drop i) := by
    show decode _ _ _ = _
    apply decode_chain
    · rw [hlen2]
      omega
    · exact hm4
    · omega
  have hrch : reachN (t._tree ++ chainBlocks t._tree.length (s.drop i))
      t._tree.length =
      (List.range (s.length - i)).map (fun k => t._tree.length + 4 * k) := by
    show reachL _ _ _ = _
    rw [← hwlen]
    apply reach_chain
    · rw [hlen2, hwlen]
      omega
    · exact hm4
    · rw [hwlen]
      omega
  refine ⟨rfl, rfl, ?_, hok2, ?_, ?_, ?_, ?_, ?_, ?_, ?_⟩
  · rw [hfnil]
    simp
  · rw [if_neg (by omega)]
  · simp only [hlen2]
    omega
  · simp only [hlen2]
    omega
  · rw [hdec, decN_big hbig]
    rfl
  · intro b hb
    rw [hrch] at hb
    simp only [List.mem_map, List.mem_range] at hb
    obtain ⟨k, hk, rfl⟩ := hb
    right
    simp only [hlen2]
    omega
  · rw [hrch]
    apply List.Nodup.map
    · intro a b hab
      simp only at hab
      omega
    · exact List.nodup_range _
  · right; right; left
    exact ⟨hbig, rfl⟩

/-- Composing a successful recursive `_add` on an in-range `k`-th child:
the parent's pointer write-back is a no-op and every guarantee lifts. -/
theorem add_compose_inr {t t2 : TernaryStringSet} {node i i2 k r2 : Nat}
    {s : JsStr}
    (hok : treeOk t._tree = true)
    (hal : node % 4 = 0) (hlt : node < t._tree.length)
    (hnd : (reachN t._tree node).Nodup)
    (hk1 : 1 ≤ k) (hk3 : k ≤ 3)
    (hle : s.length - i2 ≤ s.length - i)
    (hq : node < tval t._tree (node + k) ∧
      tval t._tree (node + k) < t._tree.length ∧
      tval t._tree (node + k) % 4 = 0)
    (hout : addOut t (tval t._tree (node + k)) i2 s r2 t2)
    (hfind : iFind (decN t._tree node) (s.drop i) =
      iFind (decN t._tree (tval t._tree (node + k))) (s.drop i2))
    (hins : iInsW (decN t._tree node) (s.drop i) =
      replaceChild k (decN t._tree node)
        (iInsW (decN t._tree (tval t._tree (node + k))) (s.drop i2))) :
    addOut t node i s node { t2 with _tree := t2._tree.set (node + k) r2 } := by
  obtain ⟨hm4, hceil, hblocks⟩ := treeOk_parts hok
  have hcn := ceiling_lt_nul
  obtain ⟨gv, g1, g2, g3⟩ := blockOk_parts (hblocks node hal hlt)
  obtain ⟨he1, he2, hsz, htk, hr, hl1, hl2, hdc, hrs, hndp, hshp⟩ := hout
  obtain ⟨hqgt, hqlt, hqal⟩ := hq
  have hnul2 : t2._tree.length ≤ NUL := by
    have := (treeOk_parts htk).2.1
    omega
  have hru := reachN_unfold hok hal hlt
  have hndu := hnd
  rw [hru] at hndu
  obtain ⟨nd1, nd2, nd3, nn1, nn2, nn3, d12, d13, d23⟩ := nodup_unpack hndu
  have hmemnode : node ∈ reachN t._tree node := by
    rw [hru]
    exact List.mem_cons_self _ _
  have hmemch : ∀ j, 1 ≤ j → j ≤ 3 → ∀ b,
      b ∈ reachN t._tree (tval t._tree (node + j)) →
      b ∈ reachN t._tree node := by
    intro j hj1 hj3 b hb
    rw [hru]
    rcases (show j = 1 ∨ j = 2 ∨ j = 3 from by omega) with rfl | rfl | rfl <;>
      simp only [List.mem_cons, List.mem_append] <;> tauto
  have hgj : ∀ j, 1 ≤ j → j ≤ 3 →
      ptrOk t._tree node (tval t._tree (node + j)) = true := by
    intro j hj1 hj3
    rcases (show j = 1 ∨ j = 2 ∨ j = 3 from by omega) with rfl | rfl | rfl
    · exact g1
    · exact g2
    · exact g3
  have hbgt : ∀ j, 1 ≤ j → j ≤ 3 → ∀ b,
      b ∈ reachN t._tree (tval t._tree (node + j)) →
      node + 4 ≤ b ∧ b < t._tree.length ∧ b % 4 = 0 := by
    intro j hj1 hj3 b hb
    rcases ptrOk_elim (hgj j hj1 hj3) with hnl | ⟨a1, a2, a3⟩
    · rw [hnl, reachN_nul (by omega)] at hb
      simp at hb
    · obtain ⟨b1, b2, b3⟩ := reachN_range hok (Or.inl a3) b hb
      exact ⟨by omega, b2, b3⟩
  have hframe := addShape_frame hshp
  have hfkey : tval t2._tree (node + k) = tval t._tree (node + k) := by
    apply hframe _ (by omega)
    intro b hb k2 hk2
    obtain ⟨a1, _, _⟩ := hbgt k hk1 hk3 b hb
    omega
  have hr2 : r2 = tval t._tree (node + k) := by rw [hr, if_pos hqlt]
  have ht2eq : ({ t2 with _tree := t2._tree.set (node + k) r2 } :
      TernaryStringSet) = t2 := by
    rw [hr2, ← hfkey, set_tval_self]
  rw [ht2eq]
  have hent0 : ∀ j, j < 4 →
      tval t2._tree (node + j) = tval t._tree (node + j) := by
    intro j hj
    apply hframe _ (by omega)
    intro b hb k2 hk2
    obtain ⟨a1, _, _⟩ := hbgt k hk1 hk3 b hb
    omega
  have e0 : tval t2._tree node = tval t._tree node := by
    have := hent0 0 (by omega)
    rwa [Nat.add_zero] at this
  have hsib : ∀ j, 1 ≤ j → j ≤ 3 → j ≠ k →
      decN t2._tree (tval t._tree (node + j)) =
        decN t._tree (tval t._tree (node + j)) ∧
      reachN t2._tree (tval t._tree (node + j)) =
        reachN t._tree (tval t._tree (node + j)) := by
    intro j hj1 hj3 hjk
    have hqj : (tval t._tree (node + j) % 4 = 0 ∧
        tval t._tree (node + j) < t._tree.length) ∨
        NUL ≤ tval t._tree (node + j) := by
      rcases ptrOk_elim (hgj j hj1 hj3) with h | ⟨_, a, b⟩
      · right; omega
      · exact Or.inl ⟨b, a⟩
    apply sibling_congr hok hshp hl1 hnul2 hqj _ (Or.inl hqal)
    intro b hb
    rcases (show j = 1 ∨ j = 2 ∨ j = 3 from by omega) with rfl | rfl | rfl <;>
      rcases (show k = 1 ∨ k = 2 ∨ k = 3 from by omega) with rfl | rfl | rfl
    · exact absurd rfl hjk
    · exact d12 b hb
    · exact d13 b hb
    · intro hbk; exact d12 b hbk hb
    · exact absurd rfl hjk
    · exact d23 b hb
    · intro hbk; exact d13 b hbk hb
    · intro hbk; exact d23 b hbk hb
    · exact absurd rfl hjk
  have hdck : decN t2._tree (tval t._tree (node + k)) =
      iInsW (decN t._tree (tval t._tree (node + k))) (s.drop i2) := by
    have h := hdc
    rw [hr2] at h
    exact h
  have hchar : ∀ j, 1 ≤ j → j ≤ 3 → ∀ b,
      b ∈ reachN t2._tree (tval t._tree (node + j)) →
      (b ∈ reachN t._tree (tval t._tree (node + j)) ∧ b < t._tree.length) ∨
        (j = k ∧ t._tree.length ≤ b ∧ b < t2._tree.length) := by
    intro j hj1 hj3 b hb
    by_cases hjk : j = k
    · subst hjk
      rcases hrs b (by rw [hr2]; exact hb) with old | fresh
      · exact Or.inl ⟨old, (hbgt j hj1 hj3 b old).2.1⟩
      · exact Or.inr ⟨rfl, fresh⟩
    · rw [(hsib j hj1 hj3 hjk).2] at hb
      exact Or.inl ⟨hb, (hbgt j hj1 hj3 b hb).2.1⟩
  have hndj : ∀ j, 1 ≤ j → j ≤ 3 →
      (reachN t2._tree (tval t._tree (node + j))).Nodup := by
    intro j hj1 hj3
    by_cases hjk : j = k
    · subst hjk
      rw [← hr2]
      exact hndp
    · rw [(hsib j hj1 hj3 hjk).2]
      rcases (show j = 1 ∨ j = 2 ∨ j = 3 from by omega) with rfl | rfl | rfl
      · exact nd1
      · exact nd2
      · exact nd3
  have hdisj2 : ∀ j j2, 1 ≤ j → j ≤ 3 → 1 ≤ j2 → j2 ≤ 3 → j ≠ j2 →
      ∀ b, b ∈ reachN t2._tree (tval t._tree (node + j)) →
        b ∉ reachN t2._tree (tval t._tree (node + j2)) := by
    intro j j2 hj1 hj3 hj21 hj23 hne b hb hb2
    rcases hchar j hj1 hj3 b hb with ⟨old, hbl⟩ | ⟨rfl, fr1, _⟩
    · rcases hchar j2 hj21 hj23 b hb2 with ⟨old2, _⟩ | ⟨rfl, fr2, _⟩
      · -- both old: pairwise disjointness of the original subtrees
        rcases (show j = 1 ∨ j = 2 ∨ j = 3 from by omega) with rfl | rfl | rfl <;>
          rcases (show j2 = 1 ∨ j2 = 2 ∨ j2 = 3 from by omega) with rfl | rfl | rfl
        · exact absurd rfl hne
        · exact d12 b old old2
        · exact d13 b old old2
        · exact d12 b old2 old
        · exact absurd rfl hne
        · exact d23 b old old2
        · exact d13 b old2 old
        · exact d23 b old2 old
        · exact absurd rfl hne
      · omega
    · rcases hchar j2 hj21 hj23 b hb2 with ⟨old2, hbl2⟩ | ⟨rfl, _, _⟩
      · omega
      · exact absurd rfl hne
  refine ⟨he1, he2, ?_, htk, ?_, hl1, by omega, ?_, ?_, ?_, ?_⟩
  · rw [hfind]
    exact hsz
  · rw [if_pos hlt]
  · -- decoded subtree refines the pure insertion
    rw [hins, decN_unfold htk hal (by omega), decN_unfold hok hal hlt]
    rw [e0, hent0 1 (by omega), hent0 2 (by omega), hent0 3 (by omega)]
    rcases (show k = 1 ∨ k = 2 ∨ k = 3 from by omega) with rfl | rfl | rfl
    · rw [hdck, (hsib 2 (by omega) (by omega) (by omega)).1,
        (hsib 3 (by omega) (by omega) (by omega)).1]
      rfl
    · rw [hdck, (hsib 1 (by omega) (by omega) (by omega)).1,
        (hsib 3 (by omega) (by omega) (by omega)).1]
      rfl
    · rw [hdck, (hsib 1 (by omega) (by omega) (by omega)).1,
        (hsib 2 (by omega) (by omega) (by omega)).1]
      rfl
  · -- reach subset
    intro b hb
    rw [reachN_unfold htk hal (by omega), hent0 1 (by omega),
      hent0 2 (by omega), hent0 3 (by omega)] at hb
    have hlift : ∀ j, 1 ≤ j → j ≤ 3 →
        b ∈ reachN t2._tree (tval t._tree (node + j)) →
        b ∈ reachN t._tree node ∨
          (t._tree.length ≤ b ∧ b < t2._tree.length) := by
      intro j hj1 hj3 hbj
      rcases hchar j hj1 hj3 b hbj with ⟨old, _⟩ | ⟨_, fr⟩
      · exact Or.inl (hmemch j hj1 hj3 b old)
      · exact Or.inr fr
    rcases List.mem_cons.mp hb with rfl | hb2
    · exact Or.inl hmemnode
    rcases List.mem_append.mp hb2 with hb3 | hbg
    · rcases List.mem_append.mp hb3 with hbl | hbe
      · exact hlift 1 (by omega) (by omega) hbl
      · exact hlift 2 (by omega) (by omega) hbe
    · exact hlift 3 (by omega) (by omega) hbg
  · -- no duplicate reachable nodes
    rw [reachN_unfold htk hal (by omega), hent0 1 (by omega),
      hent0 2 (by omega), hent0 3 (by omega)]
    have hnomem : ∀ j, 1 ≤ j → j ≤ 3 →
        node ∉ reachN t2._tree (tval t._tree (node + j)) := by
      intro j hj1 hj3 hmem
      rcases hchar j hj1 hj3 node hmem with ⟨old, _⟩ | ⟨_, fr, _⟩
      · have := (hbgt j hj1 hj3 node old).1
        omega
      · omega
    exact nodup_pack (hndj 1 (by omega) (by omega)) (hndj 2 (by omega) (by omega))
      (hndj 3 (by omega) (by omega)) (hnomem 1 (by omega) (by omega))
      (hnomem 2 (by omega) (by omega)) (hnomem 3 (by omega) (by omega))
      (hdisj2 1 2 (by omega) (by omega) (by omega) (by omega) (by omega))
      (hdisj2 1 3 (by omega) (by omega) (by omega) (by omega) (by omega))
      (hdisj2 2 3 (by omega) (by omega) (by omega) (by omega) (by omega))
  · -- the array shape lifts
    rcases hshp with hA | ⟨p, hp, heos, heq⟩ | ⟨hCbig, _⟩ |
      ⟨p, k2, w2, hp, a1, a2, a3, a4, a5, a6, heq⟩
    · exact Or.inl hA
    · exact Or.inr (Or.inl ⟨p, hmemch k hk1 hk3 p hp, heos, heq⟩)
    · omega
    · exact Or.inr (Or.inr (Or.inr ⟨p, k2, w2, hmemch k hk1 hk3 p hp, a1, a2,
        a3, a4, a5, by omega, heq⟩))

/-- Composing `_add` with a recursive call on a NUL `k`-th child pointer:
the fresh chain is appended and grafted onto that pointer. -/
theorem add_compose_nul {t : TernaryStringSet} {node i i2 k : Nat} {s : JsStr}
    (hok : treeOk t._tree = true)
    (hal : node % 4 = 0) (hlt : node < t._tree.length)
    (hnd : (reachN t._tree node).Nodup)
    (hk1 : 1 ≤ k) (hk3 : k ≤ 3)
    (hs : SmallW s)
    (hi2 : i2 < s.length)
    (hle : s.length - i2 ≤ s.length - i)
    (hqnul : tval t._tree (node + k) = NUL)
    (hok2 : treeOk (t._tree ++ chainBlocks t._tree.length (s.drop i2)) = true)
    (hfind : iFind (decN t._tree node) (s.drop i) =
      iFind (decN t._tree NUL) (s.drop i2))
    (hins : iInsW (decN t._tree node) (s.drop i) =
      replaceChild k (decN t._tree node)
        (iInsW (decN t._tree NUL) (s.drop i2))) :
    addOut t node i s node
      { t with
        _tree := (t._tree ++ chainBlocks t._tree.length (s.drop i2)).set
          (node + k) t._tree.length,
        _size := t._size + 1 } := by
  obtain ⟨hm4, hceil, hblocks⟩ := treeOk_parts hok
  have hcn := ceiling_lt_nul
  obtain ⟨gv, g1, g2, g3⟩ := blockOk_parts (hblocks node hal hlt)
  have hru := reachN_unfold hok hal hlt
  have hndu := hnd
  rw [hru] at hndu
  obtain ⟨nd1, nd2, nd3, nn1, nn2, nn3, d12, d13, d23⟩ := nodup_unpack hndu
  have hmemnode : node ∈ reachN t._tree node := by
    rw [hru]
    exact List.mem_cons_self _ _
  have hmemch : ∀ j, 1 ≤ j → j ≤ 3 → ∀ b,
      b ∈ reachN t._tree (tval t._tree (node + j)) →
      b ∈ reachN t._tree node := by
    intro j hj1 hj3 b hb
    rw [hru]
    rcases (show j = 1 ∨ j = 2 ∨ j = 3 from by omega) with rfl | rfl | rfl <;>
      simp only [List.mem_cons, List.mem_append] <;> tauto
  have hgj : ∀ j, 1 ≤ j → j ≤ 3 →
      ptrOk t._tree node (tval t._tree (node + j)) = true := by
    intro j hj1 hj3
    rcases (show j = 1 ∨ j = 2 ∨ j = 3 from by omega) with rfl | rfl | rfl
    · exact g1
    · exact g2
    · exact g3
  have hbgt : ∀ j, 1 ≤ j → j ≤ 3 → ∀ b,
      b ∈ reachN t._tree (tval t._tree (node + j)) →
      node + 4 ≤ b ∧ b < t._tree.length ∧ b % 4 = 0 := by
    intro j hj1 hj3 b hb
    rcases ptrOk_elim (hgj j hj1 hj3) with hnl | ⟨a1, a2, a3⟩
    · rw [hnl, reachN_nul (by omega)] at hb
      simp at hb
    · obtain ⟨b1, b2, b3⟩ := reachN_range hok (Or.inl a3) b hb
      exact ⟨by omega, b2, b3⟩
  have hwlen : (s.drop i2).length = s.length - i2 := List.length_drop _ _
  have hwne : s.drop i2 ≠ [] := by
    intro h
    have h0 := congrArg List.length h
    rw [hwlen] at h0
    simp at h0
    omega
  have hlen2 : (t._tree ++ chainBlocks t._tree.length (s.drop i2)).length =
      t._tree.length + 4 * (s.length - i2) := by
    rw [List.length_append, chainBlocks_length, hwlen]
  have hroom : t._tree.length + 4 * (s.length - i2) ≤ NODE_CEILING := by
    have := (treeOk_parts hok2).2.1
    omega
  have hlenset : ((t._tree ++ chainBlocks t._tree.length (s.drop i2)).set
      (node + k) t._tree.length).length =
      t._tree.length + 4 * (s.length - i2) := by
    rw [List.length_set, hlen2]
  have htk' : treeOk ((t._tree ++ chainBlocks t._tree.length (s.drop i2)).set
      (node + k) t._tree.length) = true := by
    apply treeOk_set_ptr hok2 hal (by rw [hlen2]; omega) hk1 hk3
    exact Or.inr ⟨hlt, by rw [hlen2]; omega, hm4⟩
  have hchdec : decN (t._tree ++ chainBlocks t._tree.length (s.drop i2))
      t._tree.length = chainW (s.drop i2) := by
    show decode _ _ _ = _
    apply decode_chain
    · rw [hlen2]
      omega
    · exact hm4
    · omega
  have hchreach : reachN (t._tree ++ chainBlocks t._tree.length (s.drop i2))
      t._tree.length =
      (List.range (s.length - i2)).map (fun k2 => t._tree.length + 4 * k2) := by
    show reachL _ _ _ = _
    rw [← hwlen]
    apply reach_chain
    · rw [hlen2, hwlen]
      omega
    · exact hm4
    · rw [hwlen]
      omega
  have hchent : ∀ b ∈ reachN (t._tree ++ chainBlocks t._tree.length (s.drop i2))
      t._tree.length, ∀ j2, j2 < 4 →
      tval ((t._tree ++ chainBlocks t._tree.length (s.drop i2)).set
        (node + k) t._tree.length) (b + j2) =
      tval (t._tree ++ chainBlocks t._tree.length (s.drop i2)) (b + j2) := by
    intro b hb j2 hj2
    rw [hchreach] at hb
    simp only [List.mem_map, List.mem_range] at hb
    obtain ⟨k2, _, rfl⟩ := hb
    exact tval_set_ne (by omega) _
  have hdecL : decN ((t._tree ++ chainBlocks t._tree.length (s.drop i2)).set
      (node + k) t._tree.length) t._tree.length = chainW (s.drop i2) := by
    rw [← hchdec]
    exact decN_congr hok2 (le_of_eq (by rw [List.length_set]))
      (by rw [hlenset]; omega) (Or.inl ⟨hm4, by rw [hlen2]; omega⟩) hchent
  have hreachL : reachN ((t._tree ++ chainBlocks t._tree.length (s.drop i2)).set
      (node + k) t._tree.length) t._tree.length =
      (List.range (s.length - i2)).map (fun k2 => t._tree.length + 4 * k2) := by
    rw [← hchreach]
    exact reachN_congr hok2 (le_of_eq (by rw [List.length_set]))
      (by rw [hlenset]; omega) (Or.inl ⟨hm4, by rw [hlen2]; omega⟩) hchent
  have heJ : ∀ j, j < 4 → j ≠ k →
      tval ((t._tree ++ chainBlocks t._tree.length (s.drop i2)).set
        (node + k) t._tree.length) (node + j) = tval t._tree (node + j) := by
    intro j hj hjk
    rw [tval_set_ne (by omega), tval_append_left (by omega)]
  have he0 : tval ((t._tree ++ chainBlocks t._tree.length (s.drop i2)).set
      (node + k) t._tree.length) node = tval t._tree node := by
    have := heJ 0 (by omega) (by omega)
    rwa [Nat.add_zero] at this
  have heK : tval ((t._tree ++ chainBlocks t._tree.length (s.drop i2)).set
      (node + k) t._tree.length) (node + k) = t._tree.length :=
    tval_set_eq (by rw [hlen2]; omega) _
  have hsib : ∀ j, 1 ≤ j → j ≤ 3 → j ≠ k →
      decN ((t._tree ++ chainBlocks t._tree.length (s.drop i2)).set
        (node + k) t._tree.length) (tval t._tree (node + j)) =
        decN t._tree (tval t._tree (node + j)) ∧
      reachN ((t._tree ++ chainBlocks t._tree.length (s.drop i2)).set
        (node + k) t._tree.length) (tval t._tree (node + j)) =
        reachN t._tree (tval t._tree (node + j)) := by
    intro j hj1 hj3 hjk
    have hqj : (tval t._tree (node + j) % 4 = 0 ∧
        tval t._tree (node + j) < t._tree.length) ∨
        NUL ≤ tval t._tree (node + j) := by
      rcases ptrOk_elim (hgj j hj1 hj3) with h | ⟨_, a, b⟩
      · right; omega
      · exact Or.inl ⟨b, a⟩
    have hent : ∀ b ∈ reachN t._tree (tval t._tree (node + j)), ∀ j2, j2 < 4 →
        tval ((t._tree ++ chainBlocks t._tree.length (s.drop i2)).set
          (node + k) t._tree.length) (b + j2) = tval t._tree (b + j2) := by
      intro b hb j2 hj2
      obtain ⟨a1, a2, a3⟩ := hbgt j hj1 hj3 b hb
      rw [tval_set_ne (by omega), tval_append_left (by omega)]
    exact ⟨decN_congr hok (by rw [hlenset]; omega) (by rw [hlenset]; omega)
      hqj hent,
      reachN_congr hok (by rw [hlenset]; omega) (by rw [hlenset]; omega)
      hqj hent⟩
  refine ⟨rfl, rfl, ?_, htk', ?_, ?_, ?_, ?_, ?_, ?_, ?_⟩
  · rw [hfind, decN_nul (by omega)]
    simp [iFind]
  · rw [if_pos hlt]
  · simp only [hlenset]
    omega
  · simp only [hlenset]
    omega
  · -- decoded subtree refines the pure insertion
    rw [hins, decN_unfold htk' hal (by rw [hlenset]; omega),
      decN_unfold hok hal hlt, he0]
    rcases (show k = 1 ∨ k = 2 ∨ k = 3 from by omega) with rfl | rfl | rfl
    · rw [heK, heJ 2 (by omega) (by omega), heJ 3 (by omega) (by omega),
        hdecL, (hsib 2 (by omega) (by omega) (by omega)).1,
        (hsib 3 (by omega) (by omega) (by omega)).1, decN_nul (by omega)]
      rfl
    · rw [heK, heJ 1 (by omega) (by omega), heJ 3 (by omega) (by omega),
        hdecL, (hsib 1 (by omega) (by omega) (by omega)).1,
        (hsib 3 (by omega) (by omega) (by omega)).1, decN_nul (by omega)]
      rfl
    · rw [heK, heJ 1 (by omega) (by omega), heJ 2 (by omega) (by omega),
        hdecL, (hsib 1 (by omega) (by omega) (by omega)).1,
        (hsib 2 (by omega) (by omega) (by omega)).1, decN_nul (by omega)]
      rfl
  · -- reach subset
    intro b hb
    have hfresh : ∀ b2, b2 ∈ reachN ((t._tree ++
        chainBlocks t._tree.length (s.drop i2)).set (node + k) t._tree.length)
        t._tree.length →
        t._tree.length ≤ b2 ∧ b2 < t._tree.length + 4 * (s.length - i2) := by
      intro b2 hb2
      rw [hreachL] at hb2
      simp only [List.mem_map, List.mem_range] at hb2
      obtain ⟨k2, hk2, rfl⟩ := hb2
      omega
    rw [reachN_unfold htk' hal (by rw [hlenset]; omega)] at hb
    simp only [hlenset]
    rcases (show k = 1 ∨ k = 2 ∨ k = 3 from by omega) with rfl | rfl | rfl
    · rw [heK, heJ 2 (by omega) (by omega), heJ 3 (by omega) (by omega),
        (hsib 2 (by omega) (by omega) (by omega)).2,
        (hsib 3 (by omega) (by omega) (by omega)).2] at hb
      rcases List.mem_cons.mp hb with rfl | hb2
      · exact Or.inl hmemnode
      rcases List.mem_append.mp hb2 with hb3 | hbg
      · rcases List.mem_append.mp hb3 with hbl | hbe
        · exact Or.inr (hfresh b hbl)
        · exact Or.inl (hmemch 2 (by omega) (by omega) b hbe)
      · exact Or.inl (hmemch 3 (by omega) (by omega) b hbg)
    · rw [heK, heJ 1 (by omega) (by omega), heJ 3 (by omega) (by omega),
        (hsib 1 (by omega) (by omega) (by omega)).2,
        (hsib 3 (by omega) (by omega) (by omega)).2] at hb
      rcases List.mem_cons.mp hb with rfl | hb2
      · exact Or.inl hmemnode
      rcases List.mem_append.mp hb2 with hb3 | hbg
      · rcases List.mem_append.mp hb3 with hbl | hbe
        · exact Or.inl (hmemch 1 (by omega) (by omega) b hbl)
        · exact Or.inr (hfresh b hbe)
      · exact Or.inl (hmemch 3 (by omega) (by omega) b hbg)
    · rw [heK, heJ 1 (by omega) (by omega), heJ 2 (by omega) (by omega),
        (hsib 1 (by omega) (by omega) (by omega)).2,
        (hsib 2 (by omega) (by omega) (by omega)).2] at hb
      rcases List.mem_cons.mp hb with rfl | hb2
      · exact Or.inl hmemnode
      rcases List.mem_append.mp hb2 with hb3 | hbg
      · rcases List.mem_append.mp hb3 with hbl | hbe
        · exact Or.inl (hmemch 1 (by omega) (by omega) b hbl)
        · exact Or.inl (hmemch 2 (by omega) (by omega) b hbe)
      · exact Or.inr (hfresh b hbg)
  · -- no duplicate reachable nodes
    have hndfresh : ((List.range (s.length - i2)).map
        (fun k2 => t._tree.length + 4 * k2)).Nodup := by
      apply List.Nodup.map
      · intro a b hab
        simp only at hab
        omega
      · exact List.nodup_range _
    have hmemfresh : ∀ b2 ∈ (List.range (s.length - i2)).map
        (fun k2 => t._tree.length + 4 * k2), t._tree.length ≤ b2 := by
      intro b2 hb2
      simp only [List.mem_map, List.mem_range] at hb2
      obtain ⟨k2, _, rfl⟩ := hb2
      omega
    rw [reachN_unfold htk' hal (by rw [hlenset]; omega)]
    rcases (show k = 1 ∨ k = 2 ∨ k = 3 from by omega) with rfl | rfl | rfl
    · rw [heK, heJ 2 (by omega) (by omega), heJ 3 (by omega) (by omega),
        hreachL, (hsib 2 (by omega) (by omega) (by omega)).2,
        (hsib 3 (by omega) (by omega) (by omega)).2]
      apply nodup_pack hndfresh nd2 nd3
      · intro hmem
        have := hmemfresh node hmem
        omega
      · exact nn2
      · exact nn3
      · intro b hb hb2
        have := hmemfresh b hb
        have := (hbgt 2 (by omega) (by omega) b hb2).2.1
        omega
      · intro b hb hb2
        have := hmemfresh b hb
        have := (hbgt 3 (by omega) (by omega) b hb2).2.1
        omega
      · exact d23
    · rw [heK, heJ 1 (by omega) (by omega), heJ 3 (by omega) (by omega),
        hreachL, (hsib 1 (by omega) (by omega) (by omega)).2,
        (hsib 3 (by omega) (by omega) (by omega)).2]
      apply nodup_pack nd1 hndfresh nd3 nn1
      · intro hmem
        have := hmemfresh node hmem
        omega
      · exact nn3
      · intro b hb hb2
        have := hmemfresh b hb2
        have := (hbgt 1 (by omega) (by omega) b hb).2.1
        omega
      · exact d13
      · intro b hb hb2
        have := hmemfresh b hb
        have := (hbgt 3 (by omega) (by omega) b hb2).2.1
        omega
    · rw [heK, heJ 1 (by omega) (by omega), heJ 2 (by omega) (by omega),
        hreachL, (hsib 1 (by omega) (by omega) (by omega)).2,
        (hsib 2 (by omega) (by omega) (by omega)).2]
      apply nodup_pack nd1 nd2 hndfresh nn1 nn2
      · intro hmem
        have := hmemfresh node hmem
        omega
      · exact d12
      · intro b hb hb2
        have := hmemfresh b hb2
        have := (hbgt 1 (by omega) (by omega) b hb).2.1
        omega
      · intro b hb hb2
        have := hmemfresh b hb2
        have := (hbgt 2 (by omega) (by omega) b hb).2.1
        omega
  · -- shape: graft
    right; right; right
    exact ⟨node, k, s.drop i2, hmemnode, hk1, hk3, hqnul, hwne,
      SmallW_drop hs i2, by rw [hwlen]; exact hle, rfl⟩

/-- `_add` terminal case on a node without the EOS bit: exactly that bit is
set and the size bumps. -/
theorem add_terminal_new_out {t : TernaryStringSet} {node i : Nat} {s : JsStr}
    (hok : treeOk t._tree = true) (hal : node % 4 = 0)
    (hlt : node < t._tree.length)
    (hnd : (reachN t._tree node).Nodup)
    (hi : i < s.length) (hterm : s.length ≤ i + 1)
    (hceq : (tval t._tree node) &&& CP_MASK = s.getD i 0)
    (heos : (tval t._tree node) &&& EOS = 0) :
    addOut t node i s node
      { t with
        _tree := t._tree.set node ((tval t._tree node) ||| EOS),
        _size := t._size + 1 } := by
  obtain ⟨hm4, hceil, hblocks⟩ := treeOk_parts hok
  have hcn := ceiling_lt_nul
  obtain ⟨gv, g1, g2, g3⟩ := blockOk_parts (hblocks node hal hlt)
  have hru := reachN_unfold hok hal hlt
  have hmemnode : node ∈ reachN t._tree node := by
    rw [hru]
    exact List.mem_cons_self _ _
  have hgj : ∀ j, 1 ≤ j → j ≤ 3 →
      ptrOk t._tree node (tval t._tree (node + j)) = true := by
    intro j hj1 hj3
    rcases (show j = 1 ∨ j = 2 ∨ j = 3 from by omega) with rfl | rfl | rfl
    · exact g1
    · exact g2
    · exact g3
  have hbgt : ∀ j, 1 ≤ j → j ≤ 3 → ∀ b,
      b ∈ reachN t._tree (tval t._tree (node + j)) →
      node + 4 ≤ b ∧ b < t._tree.length ∧ b % 4 = 0 := by
    intro j hj1 hj3 b hb
    rcases ptrOk_elim (hgj j hj1 hj3) with hnl | ⟨a1, a2, a3⟩
    · rw [hnl, reachN_nul (by omega)] at hb
      simp at hb
    · obtain ⟨b1, b2, b3⟩ := reachN_range hok (Or.inl a3) b hb
      exact ⟨by omega, b2, b3⟩
  have hdropone : s.drop i = [s.getD i 0] := by
    rw [drop_cons_getD hi, List.drop_eq_nil_of_le (by omega)]
  have hdecu := decN_unfold hok hal hlt
  have hlenset : (t._tree.set node ((tval t._tree node) ||| EOS)).length =
      t._tree.length := by simp
  have htk' : treeOk (t._tree.set node ((tval t._tree node) ||| EOS)) = true :=
    treeOk_set_val hok hal hlt (goodV_or_eos gv).1
  have hent : ∀ j, 1 ≤ j → j ≤ 3 →
      tval (t._tree.set node ((tval t._tree node) ||| EOS)) (node + j) =
        tval t._tree (node + j) := by
    intro j hj1 hj3
    exact tval_set_ne (by omega) _
  have hvset : tval (t._tree.set node ((tval t._tree node) ||| EOS)) node =
      (tval t._tree node) ||| EOS := tval_set_eq hlt _
  have hsib : ∀ j, 1 ≤ j → j ≤ 3 →
      decN (t._tree.set node ((tval t._tree node) ||| EOS))
        (tval t._tree (node + j)) = decN t._tree (tval t._tree (node + j)) ∧
      reachN (t._tree.set node ((tval t._tree node) ||| EOS))
        (tval t._tree (node + j)) = reachN t._tree (tval t._tree (node + j)) := by
    intro j hj1 hj3
    have hqj : (tval t._tree (node + j) % 4 = 0 ∧
        tval t._tree (node + j) < t._tree.length) ∨
        NUL ≤ tval t._tree (node + j) := by
      rcases ptrOk_elim (hgj j hj1 hj3) with h | ⟨_, a, b⟩
      · right; omega
      · exact Or.inl ⟨b, a⟩
    have hent2 : ∀ b ∈ reachN t._tree (tval t._tree (node + j)), ∀ j2, j2 < 4 →
        tval (t._tree.set node ((tval t._tree node) ||| EOS)) (b + j2) =
          tval t._tree (b + j2) := by
      intro b hb j2 hj2
      obtain ⟨a1, a2, a3⟩ := hbgt j hj1 hj3 b hb
      exact tval_set_ne (by omega) _
    exact ⟨decN_congr hok (le_of_eq hlenset.symm) (by rw [hlenset]; omega)
      hqj hent2,
      reachN_congr hok (le_of_eq hlenset.symm) (by rw [hlenset]; omega)
      hqj hent2⟩
  have hfind : iFind (decN t._tree node) (s.drop i) = false := by
    rw [hdecu, hdropone, iFind_red]
    rw [if_neg (by omega), if_neg (by omega), if_pos rfl, heos]
    rw [beq_eq_false_iff_ne]
    norm_num [EOS]
  refine ⟨rfl, rfl, ?_, htk', ?_, le_of_eq hlenset.symm, ?_, ?_, ?_, ?_, ?_⟩
  · rw [hfind]
    simp
  · rw [if_pos hlt]
  · simp only [hlenset]
    omega
  · rw [decN_unfold htk' hal (by rw [hlenset]; omega), hvset,
      hent 1 (by omega) (by omega), hent 2 (by omega) (by omega),
      hent 3 (by omega) (by omega),
      (hsib 1 (by omega) (by omega)).1, (hsib 2 (by omega) (by omega)).1,
      (hsib 3 (by omega) (by omega)).1, hdecu, hdropone]
    simp only [iInsW]
    rw [if_neg (by omega), if_neg (by omega), if_pos (by trivial)]
  · intro b hb
    rw [reachN_unfold htk' hal (by rw [hlenset]; omega),
      hent 1 (by omega) (by omega), hent 2 (by omega) (by omega),
      hent 3 (by omega) (by omega),
      (hsib 1 (by omega) (by omega)).2, (hsib 2 (by omega) (by omega)).2,
      (hsib 3 (by omega) (by omega)).2, ← hru] at hb
    exact Or.inl hb
  · rw [reachN_unfold htk' hal (by rw [hlenset]; omega),
      hent 1 (by omega) (by omega), hent 2 (by omega) (by omega),
      hent 3 (by omega) (by omega),
      (hsib 1 (by omega) (by omega)).2, (hsib 2 (by omega) (by omega)).2,
      (hsib 3 (by omega) (by omega)).2, ← hru]
    exact hnd
  · right; left
    exact ⟨node, hmemnode, heos, rfl⟩

/-- `_add` terminal case on a node that already carries the EOS bit: the
state is unchanged. -/
theorem add_terminal_found_out {t : TernaryStringSet} {node i : Nat}
    {s : JsStr}
    (hok : treeOk t._tree = true) (hal : node % 4 = 0)
    (hlt : node < t._tree.length)
    (hnd : (reachN t._tree node).Nodup)
    (hi : i < s.length) (hterm : s.length ≤ i + 1)
    (hceq : (tval t._tree node) &&& CP_MASK = s.getD i 0)
    (heos : ¬ (tval t._tree node) &&& EOS = 0) :
    addOut t node i s node t := by
  obtain ⟨hm4, hceil, hblocks⟩ := treeOk_parts hok
  obtain ⟨gv, g1, g2, g3⟩ := blockOk_parts (hblocks node hal hlt)
  have heos2 : (tval t._tree node) &&& EOS = EOS := by
    rcases goodV_cases gv with ⟨h0, _⟩ | ⟨h0, _⟩
    · exact absurd h0 heos
    · exact h0
  have hdropone : s.drop i = [s.getD i 0] := by
    rw [drop_cons_getD hi, List.drop_eq_nil_of_le (by omega)]
  have hdecu := decN_unfold hok hal hlt
  have hfind : iFind (decN t._tree node) (s.drop i) = true := by
    rw [hdecu, hdropone, iFind_red]
    rw [if_neg (by omega), if_neg (by omega), if_pos rfl, heos2]
    simp
  refine ⟨rfl, rfl, ?_, hok, ?_, le_refl _, by omega, ?_, ?_, hnd, Or.inl rfl⟩
  · rw [hfind]
    simp
  · rw [if_pos hlt]
  · conv_rhs => rw [hdecu, hdropone]
    simp only [iInsW]
    rw [if_neg (by omega), if_neg (by omega), if_pos (by trivial)]
    rw [goodV_eos_self gv (by rw [heos2]; exact beq_self_eq_true _)]
    exact hdecu
  · intro b hb
    exact Or.inl hb

/-- Full synchronisation theorem for `_add`: with enough fuel and room the
call succeeds and satisfies every `addOut` guarantee. -/
theorem add_sync : ∀ (fuel : Nat) (t : TernaryStringSet) (node i : Nat)
    (s : JsStr),
    treeOk t._tree = true →
    ((node % 4 = 0 ∧ node < t._tree.length) ∨ t._tree.length ≤ node) →
    (reachN t._tree node).Nodup →
    SmallW s → i < s.length →
    (t._tree.length - node) / 4 + (s.length - i) ≤ fuel →
    t._tree.length + 4 * (s.length - i) ≤ NODE_CEILING →
    ∃ r t2, _add t fuel node s i (s.getD i 0) = (some r, t2) ∧
      addOut t node i s r t2
  | 0, t, node, i, s => by
    intro _ _ _ _ hi hf _
    omega
  | fuel + 1, t, node, i, s => by
    intro hok hpos hnd hs hi hf hroom
    have hcn := ceiling_lt_nul
    obtain ⟨hm4, hceil, hblocks⟩ := treeOk_parts hok
    rcases hpos with ⟨hal, hlt⟩ | hbig
    swap
    · -- off the end: the fresh chain
      obtain ⟨beq, bok⟩ := add_sync_big (fuel + 1) t node i s hok hbig hs hi
        (by omega) hroom
      exact ⟨_, _, beq, add_big_out hok hbig hs hi hroom bok⟩
    · obtain ⟨gv, g1, g2, g3⟩ := blockOk_parts (hblocks node hal hlt)
      have hcs : s.getD i 0 < CP_MIN_SURROGATE := hs _ (getD_mem_of_lt hi)
      have hdropi : s.drop i = s.getD i 0 :: s.drop (i + 1) := drop_cons_getD hi
      have hdecu := decN_unfold hok hal hlt
      have hru := reachN_unfold hok hal hlt
      have hndu := hnd
      rw [hru] at hndu
      obtain ⟨nd1, nd2, nd3, nn1, nn2, nn3, d12, d13, d23⟩ := nodup_unpack hndu
      rw [_add_unfold, if_neg (by omega)]
      simp only [addStep]
      by_cases hlt1 : s.getD i 0 < (tval t._tree node) &&& CP_MASK
      · -- descend into the less-than child
        rw [if_pos hlt1]
        have hfind : iFind (decN t._tree node) (s.drop i) =
            iFind (decN t._tree (tval t._tree (node + 1))) (s.drop i) := by
          conv_lhs => rw [hdecu, hdropi]
          rw [iFind_red, if_pos hlt1, ← hdropi]
        have hins : iInsW (decN t._tree node) (s.drop i) =
            replaceChild 1 (decN t._tree node)
              (iInsW (decN t._tree (tval t._tree (node + 1))) (s.drop i)) := by
          rw [hdecu, hdropi]
          simp only [iInsW, replaceChild]
          rw [if_pos hlt1, ← hdropi]
        rcases ptrOk_elim g1 with hq | hqi
        · rw [hq]
          rw [hq] at hfind hins
          obtain ⟨beq, bok⟩ := add_sync_big fuel t NUL i s hok (by omega) hs hi
            (by omega) hroom
          simp only [beq]
          exact ⟨node, _, rfl, add_compose_nul hok hal hlt hnd (by omega)
            (by omega) hs hi (by omega) hq bok hfind hins⟩
        · obtain ⟨r2, t2, ceq, cout⟩ := add_sync fuel t
            (tval t._tree (node + 1)) i s hok (Or.inl ⟨hqi.2.2, hqi.2.1⟩) nd1
            hs hi (by omega) hroom
          simp only [ceq]
          exact ⟨node, _, rfl, add_compose_inr hok hal hlt hnd (by omega)
            (by omega) (by omega) hqi cout hfind hins⟩
      · rw [if_neg hlt1]
        by_cases hgt1 : (tval t._tree node) &&& CP_MASK < s.getD i 0
        · -- descend into the greater-than child
          rw [if_pos hgt1]
          have hfind : iFind (decN t._tree node) (s.drop i) =
              iFind (decN t._tree (tval t._tree (node + 3))) (s.drop i) := by
            conv_lhs => rw [hdecu, hdropi]
            rw [iFind_red, if_neg hlt1, if_pos hgt1, ← hdropi]
          have hins : iInsW (decN t._tree node) (s.drop i) =
              replaceChild 3 (decN t._tree node)
                (iInsW (decN t._tree (tval t._tree (node + 3))) (s.drop i)) := by
            rw [hdecu, hdropi]
            simp only [iInsW, replaceChild]
            rw [if_neg hlt1, if_pos hgt1, ← hdropi]
          rcases ptrOk_elim g3 with hq | hqi
          · rw [hq]
            rw [hq] at hfind hins
            obtain ⟨beq, bok⟩ := add_sync_big fuel t NUL i s hok (by omega) hs
              hi (by omega) hroom
            simp only [beq]
            exact ⟨node, _, rfl, add_compose_nul hok hal hlt hnd (by omega)
              (by omega) hs hi (by omega) hq bok hfind hins⟩
          · obtain ⟨r2, t2, ceq, cout⟩ := add_sync fuel t
              (tval t._tree (node + 3)) i s hok (Or.inl ⟨hqi.2.2, hqi.2.1⟩) nd3
              hs hi (by omega) hroom
            simp only [ceq]
            exact ⟨node, _, rfl, add_compose_inr hok hal hlt hnd (by omega)
              (by omega) (by omega) hqi cout hfind hins⟩
        · -- the code points match
          rw [if_neg hgt1]
          simp only [if_neg (show ¬ CP_MIN_SURROGATE ≤ s.getD i 0 from
            by omega)]
          by_cases hterm : s.length ≤ i + 1
          · -- terminal node
            rw [if_pos hterm]
            by_cases heos : (tval t._tree node) &&& EOS = 0
            · rw [if_pos (by rw [heos]; exact beq_self_eq_true _)]
              exact ⟨node, _, rfl, add_terminal_new_out hok hal hlt hnd hi
                hterm (by omega) heos⟩
            · rw [if_neg (by simp [heos])]
              exact ⟨node, _, rfl, add_terminal_found_out hok hal hlt hnd hi
                hterm (by omega) heos⟩
          · -- descend into the equal child on the next code point
            rw [if_neg hterm]
            have hrestne : s.drop (i + 1) ≠ [] := by
              intro h
              have h0 := congrArg List.length h
              rw [List.length_drop] at h0
              simp at h0
              omega
            have hfind : iFind (decN t._tree node) (s.drop i) =
                iFind (decN t._tree (tval t._tree (node + 2)))
                  (s.drop (i + 1)) := by
              conv_lhs => rw [hdecu, hdropi]
              rw [iFind_red, if_neg hlt1, if_neg hgt1, if_neg hrestne]
            have hins : iInsW (decN t._tree node) (s.drop i) =
                replaceChild 2 (decN t._tree node)
                  (iInsW (decN t._tree (tval t._tree (node + 2)))
                    (s.drop (i + 1))) := by
              rw [hdecu, hdropi]
              simp only [iInsW, replaceChild]
              rw [if_neg hlt1, if_neg hgt1, if_neg hrestne]
            rcases ptrOk_elim g2 with hq | hqi
            · rw [hq]
              rw [hq] at hfind hins
              obtain ⟨beq, bok⟩ := add_sync_big fuel t NUL (i + 1) s hok
                (by omega) hs (by omega) (by omega) (by omega)
              simp only [beq]
              exact ⟨node, _, rfl, add_compose_nul hok hal hlt hnd (by omega)
                (by omega) hs (by omega) (by omega) hq bok hfind hins⟩
            · obtain ⟨r2, t2, ceq, cout⟩ := add_sync fuel t
                (tval t._tree (node + 2)) (i + 1) s hok
                (Or.inl ⟨hqi.2.2, hqi.2.1⟩) nd2 hs (by omega) (by omega)
                (by omega)
              simp only [ceq]
              exact ⟨node, _, rfl, add_compose_inr hok hal hlt hnd (by omega)
                (by omega) (by omega) hqi cout hfind hins⟩

/-- The fuelless membership walk agrees with `iFind` on the dropped
suffix, for strings of BMP code points. -/
theorem iHas_iFind : ∀ (T : ITree) (s : JsStr) (i : Nat),
    SmallW s → i < s.length →
    iHas T s i (s.getD i 0) = iFind T (s.drop i)
  | .nil, _, _, _, _ => rfl
  | .nd v l e g, s, i, hs, hi => by
    have hcs : s.getD i 0 < CP_MIN_SURROGATE := hs _ (getD_mem_of_lt hi)
    rw [drop_cons_getD hi]
    simp only [iHas, iFind]
    rw [if_neg (show ¬ CP_MIN_SURROGATE ≤ s.getD i 0 from by omega)]
    by_cases h1 : s.getD i 0 < v &&& CP_MASK
    · rw [if_pos h1, if_pos h1, iHas_iFind l s i hs hi, drop_cons_getD hi]
    · rw [if_neg h1, if_neg h1]
      by_cases h2 : v &&& CP_MASK < s.getD i 0
      · rw [if_pos h2, if_pos h2, iHas_iFind g s i hs hi, drop_cons_getD hi]
      · rw [if_neg h2, if_neg h2]
        by_cases hterm : s.length ≤ i + 1
        · rw [if_pos hterm, if_pos (List.drop_eq_nil_of_le hterm)]
        · rw [if_neg hterm, if_neg (show s.drop (i + 1) ≠ [] from by
            intro h
            have h0 := congrArg List.length h
            rw [List.length_drop] at h0
            simp at h0
            omega)]
          exact iHas_iFind e s (i + 1) hs (by omega)

/-- `has` on a well-formed tree is `iFind` on the canonical decode. -/
theorem has_iFind {t : TernaryStringSet} {s : JsStr}
    (hok : treeOk t._tree = true) (hs : SmallW s) (hne : s ≠ []) :
    has t s = iFind (decN t._tree 0) s := by
  have hlen0 : ¬ s.length = 0 := by
    intro h
    exact hne (List.eq_nil_of_length_eq_zero h)
  rw [has, if_neg hlen0]
  rw [has_decode, iHas_iFind _ s 0 hs (by omega), List.drop_zero]
  have hstable : decode t._tree (wrapFuel t) 0 = decN t._tree 0 := by
    apply decode_stable hok _ _ 0 (Or.inl (by norm_num))
    · unfold wrapFuel
      omega
    · omega
  rw [hstable]

/-- The `add` wrapper on a well-formed non-compact state and a nonempty
BMP string: success, with the decoded tree refining the pure insertion. -/
theorem addM_ok (fuel : Nat) {t : TernaryStringSet} {s : JsStr}
    (hok : treeOk t._tree = true)
    (hnd : (reachN t._tree 0).Nodup)
    (hcompact : t._compact = false)
    (hs : SmallW s) (hne : s ≠ [])
    (hroom : t._tree.length + 4 * s.length ≤ NODE_CEILING) :
    ∃ t2, addM (fuel + 1) t s = (some (), t2) ∧
      t2._hasEmpty = t._hasEmpty ∧ t2._compact = t._compact ∧
      treeOk t2._tree = true ∧ (reachN t2._tree 0).Nodup ∧
      decN t2._tree 0 = iInsW (decN t._tree 0) s ∧
      t2._size = t._size + (if has t s = true then 0 else 1) ∧
      t2._tree.length ≤ t._tree.length + 4 * s.length ∧
      addShape t 0 0 s t2 := by
  have hlen0 : ¬ s.length = 0 := by
    intro h
    exact hne (List.eq_nil_of_length_eq_zero h)
  have hpos0 : (0 % 4 = 0 ∧ 0 < t._tree.length) ∨ t._tree.length ≤ 0 := by
    rcases Nat.eq_zero_or_pos t._tree.length with h | h
    · right
      omega
    · exact Or.inl ⟨by norm_num, h⟩
  obtain ⟨r, t2, aeq, aout⟩ := add_sync (t._tree.length + s.length + 4) t 0 0 s
    hok hpos0 hnd hs (by omega) (by omega) (by simpa using hroom)
  obtain ⟨ho1, ho2, ho3, ho4, ho5, ho6, ho7, ho8, ho9, ho10, ho11⟩ := aout
  rw [List.drop_zero] at ho3 ho8
  have hr0 : r = 0 := by
    rw [ho5]
    rcases Nat.eq_zero_or_pos t._tree.length with h | h
    · rw [h]
      simp
    · rw [if_pos h]
  subst hr0
  refine ⟨t2, ?_, ho1, ho2, ho4, ho10, ho8, ?_, by omega, ho11⟩
  · simp only [addM]
    rw [if_neg hlen0, hcompact]
    simp only [Bool.false_and]
    rw [show (if (false : Bool) = true then decompactM fuel t else (some (), t)) =
      (some (), t) from by simp]
    simp only [aeq]
  · rw [ho3, has_iFind hok hs hne]

/-- Full synchronisation theorem for `_delete`: the returned flag is the
pure membership test, and at most one end-of-string bit is cleared. -/
theorem delete_sync : ∀ (fuel : Nat) (t : TernaryStringSet) (node i : Nat)
    (s : JsStr),
    treeOk t._tree = true →
    ((node % 4 = 0 ∧ node < t._tree.length) ∨ t._tree.length ≤ node) →
    (reachN t._tree node).Nodup →
    SmallW s → i < s.length →
    (t._tree.length - node) / 4 < fuel →
    ∃ res t2, _delete t fuel node s i (s.getD i 0) = (res, t2) ∧
      res = iFind (decN t._tree node) (s.drop i) ∧
      decN t2._tree node = (iDelW (decN t._tree node) (s.drop i)).2 ∧
      (res = false → t2 = t) ∧
      (res = true → ∃ p, p ∈ reachN t._tree node ∧
        (tval t._tree p) &&& EOS = EOS ∧
        t2 = { t with
          _tree := t._tree.set p ((tval t._tree p) &&& CP_MASK),
          _size := t._size - 1 })
  | 0, t, node, i, s => by
    intro _ _ _ _ _ hf
    omega
  | fuel + 1, t, node, i, s => by
    intro hok hpos hnd hs hi hf
    have hcn := ceiling_lt_nul
    obtain ⟨hm4, hceil, hblocks⟩ := treeOk_parts hok
    rcases hpos with ⟨hal, hlt⟩ | hbig
    swap
    · -- off the end: not found, unchanged
      refine ⟨false, t, ?_, ?_, ?_, fun _ => rfl, fun h => by simp at h⟩
      · simp [_delete, hbig]
      · rw [decN_big hbig]
        rfl
      · rw [decN_big hbig]
        rfl
    · obtain ⟨gv, g1, g2, g3⟩ := blockOk_parts (hblocks node hal hlt)
      have hcs : s.getD i 0 < CP_MIN_SURROGATE := hs _ (getD_mem_of_lt hi)
      have hdropi : s.drop i = s.getD i 0 :: s.drop (i + 1) := drop_cons_getD hi
      have hdecu := decN_unfold hok hal hlt
      have hru := reachN_unfold hok hal hlt
      have hndu := hnd
      rw [hru] at hndu
      obtain ⟨nd1, nd2, nd3, nn1, nn2, nn3, d12, d13, d23⟩ := nodup_unpack hndu
      have hmemnode : node ∈ reachN t._tree node := by
        rw [hru]
        exact List.mem_cons_self _ _
      have hmemch : ∀ j, 1 ≤ j → j ≤ 3 → ∀ b,
          b ∈ reachN t._tree (tval t._tree (node + j)) →
          b ∈ reachN t._tree node := by
        intro j hj1 hj3 b hb
        rw [hru]
        rcases (show j = 1 ∨ j = 2 ∨ j = 3 from by omega) with rfl | rfl | rfl <;>
          simp only [List.mem_cons, List.mem_append] <;> tauto
      have hgj : ∀ j, 1 ≤ j → j ≤ 3 →
          ptrOk t._tree node (tval t._tree (node + j)) = true := by
        intro j hj1 hj3
        rcases (show j = 1 ∨ j = 2 ∨ j = 3 from by omega) with rfl | rfl | rfl
        · exact g1
        · exact g2
        · exact g3
      have hposj : ∀ j, 1 ≤ j → j ≤ 3 →
          (tval t._tree (node + j) % 4 = 0 ∧
            tval t._tree (node + j) < t._tree.length) ∨
          t._tree.length ≤ tval t._tree (node + j) := by
        intro j hj1 hj3
        rcases ptrOk_elim (hgj j hj1 hj3) with h | ⟨_, a, b⟩
        · right; omega
        · exact Or.inl ⟨b, a⟩
      have hbgt : ∀ j, 1 ≤ j → j ≤ 3 → ∀ b,
          b ∈ reachN t._tree (tval t._tree (node + j)) →
          node + 4 ≤ b ∧ b < t._tree.length ∧ b % 4 = 0 := by
        intro j hj1 hj3 b hb
        rcases ptrOk_elim (hgj j hj1 hj3) with hnl | ⟨a1, a2, a3⟩
        · rw [hnl, reachN_nul (by omega)] at hb
          simp at hb
        · obtain ⟨b1, b2, b3⟩ := reachN_range hok (Or.inl a3) b hb
          exact ⟨by omega, b2, b3⟩
      have hposjN : ∀ j, 1 ≤ j → j ≤ 3 →
          (tval t._tree (node + j) % 4 = 0 ∧
            tval t._tree (node + j) < t._tree.length) ∨
          NUL ≤ tval t._tree (node + j) := by
        intro j hj1 hj3
        rcases ptrOk_elim (hgj j hj1 hj3) with h | ⟨_, a, b⟩
        · rw [h]
          exact Or.inr (le_refl _)
        · exact Or.inl ⟨b, a⟩
      have hfj : ∀ j, 1 ≤ j → j ≤ 3 →
          (t._tree.length - tval t._tree (node + j)) / 4 < fuel := by
        intro j hj1 hj3
        rcases ptrOk_elim (hgj j hj1 hj3) with h | ⟨a1, a2, a3⟩
        · rw [h]
          omega
        · omega
      -- composition for a recursive call on the `j`-th child
      have hstep : ∀ j, 1 ≤ j → j ≤ 3 → ∀ i2, i2 < s.length →
          ∀ res t2, _delete t fuel (tval t._tree (node + j)) s i2
            (s.getD i2 0) = (res, t2) →
          res = iFind (decN t._tree (tval t._tree (node + j))) (s.drop i2) →
          decN t2._tree (tval t._tree (node + j)) =
            (iDelW (decN t._tree (tval t._tree (node + j))) (s.drop i2)).2 →
          (res = false → t2 = t) →
          (res = true → ∃ p, p ∈ reachN t._tree (tval t._tree (node + j)) ∧
            (tval t._tree p) &&& EOS = EOS ∧
            t2 = { t with
              _tree := t._tree.set p ((tval t._tree p) &&& CP_MASK),
              _size := t._size - 1 }) →
          decN t2._tree node = .nd (tval t._tree node)
            (if j = 1 then decN t2._tree (tval t._tree (node + 1))
              else decN t._tree (tval t._tree (node + 1)))
            (if j = 2 then decN t2._tree (tval t._tree (node + 2))
              else decN t._tree (tval t._tree (node + 2)))
            (if j = 3 then decN t2._tree (tval t._tree (node + 3))
              else decN t._tree (tval t._tree (node + 3))) ∧
          (res = true → ∃ p, p ∈ reachN t._tree node ∧
            (tval t._tree p) &&& EOS = EOS ∧
            t2 = { t with
              _tree := t._tree.set p ((tval t._tree p) &&& CP_MASK),
              _size := t._size - 1 }) := by
        intro j hj1 hj3 i2 hi2 res t2 deq dres ddec dmiss dhit
        rcases Bool.eq_false_or_eq_true res with hres | hres
        · -- found: one value entry was masked
          obtain ⟨p, hp, heos, ht2⟩ := dhit hres
          obtain ⟨hp1, hp2, hp3⟩ := hbgt j hj1 hj3 p hp
          have hvp : goodV ((tval t._tree p) &&& CP_MASK) = true := by
            have gp := (blockOk_parts (hblocks p hp3 hp2)).1
            exact goodV_of_small (goodV_cp_lt gp)
          have htk2 : treeOk t2._tree = true := by
            rw [ht2]
            exact treeOk_set_val hok hp3 hp2 hvp
          have hlen2 : t2._tree.length = t._tree.length := by
            rw [ht2]
            simp
          have hentn : ∀ k, k < 4 →
              tval t2._tree (node + k) = tval t._tree (node + k) := by
            intro k hk
            rw [ht2]
            exact tval_set_ne (by omega) _
          have he0 : tval t2._tree node = tval t._tree node := by
            have := hentn 0 (by omega)
            rwa [Nat.add_zero] at this
          have hsibs : ∀ j2, 1 ≤ j2 → j2 ≤ 3 → j2 ≠ j →
              decN t2._tree (tval t._tree (node + j2)) =
                decN t._tree (tval t._tree (node + j2)) := by
            intro j2 hj21 hj23 hj2j
            apply decN_congr hok (le_of_eq hlen2.symm) (by rw [hlen2]; omega)
              (hposjN j2 hj21 hj23)
            intro b hb k hk
            obtain ⟨b1, b2, b3⟩ := hbgt j2 hj21 hj23 b hb
            have hbp : b ≠ p := by
              intro he
              subst he
              rcases (show j2 = 1 ∨ j2 = 2 ∨ j2 = 3 from by omega) with
                rfl | rfl | rfl <;>
                rcases (show j = 1 ∨ j = 2 ∨ j = 3 from by omega) with
                  rfl | rfl | rfl
              · exact absurd rfl hj2j
              · exact d12 b hb hp
              · exact d13 b hb hp
              · exact d12 b hp hb
              · exact absurd rfl hj2j
              · exact d23 b hb hp
              · exact d13 b hp hb
              · exact d23 b hp hb
              · exact absurd rfl hj2j
            rw [ht2]
            exact tval_set_ne (by omega) _
          constructor
          · rw [decN_unfold htk2 hal (by omega), he0, hentn 1 (by omega),
              hentn 2 (by omega), hentn 3 (by omega)]
            rcases (show j = 1 ∨ j = 2 ∨ j = 3 from by omega) with rfl | rfl | rfl
            · rw [if_pos rfl, if_neg (by omega), if_neg (by omega),
                hsibs 2 (by omega) (by omega) (by omega),
                hsibs 3 (by omega) (by omega) (by omega)]
            · rw [if_neg (by omega), if_pos rfl, if_neg (by omega),
                hsibs 1 (by omega) (by omega) (by omega),
                hsibs 3 (by omega) (by omega) (by omega)]
            · rw [if_neg (by omega), if_neg (by omega), if_pos rfl,
                hsibs 1 (by omega) (by omega) (by omega),
                hsibs 2 (by omega) (by omega) (by omega)]
          · intro _
            exact ⟨p, hmemch j hj1 hj3 p hp, heos, ht2⟩
        · -- not found: state unchanged
          have ht2 := dmiss hres
          subst ht2
          constructor
          · rw [hdecu]
            rcases (show j = 1 ∨ j = 2 ∨ j = 3 from by omega) with rfl | rfl | rfl
            · rw [if_pos rfl, if_neg (by omega), if_neg (by omega), ddec]
            · rw [if_neg (by omega), if_pos rfl, if_neg (by omega), ddec]
            · rw [if_neg (by omega), if_neg (by omega), if_pos rfl, ddec]
          · intro h
            rw [hres] at h
            simp at h
      simp only [_delete]
      rw [if_neg (by omega)]
      by_cases hlt1 : s.getD i 0 < (tval t._tree node) &&& CP_MASK
      · rw [if_pos hlt1]
        obtain ⟨res, t2, deq, dres, ddec, dmiss, dhit⟩ := delete_sync fuel t
          (tval t._tree (node + 1)) i s hok (hposj 1 (by omega) (by omega)) nd1
          hs hi (hfj 1 (by omega) (by omega))
        obtain ⟨hstep1, hstep2⟩ := hstep 1 (by omega) (by omega) i hi res t2
          deq dres ddec dmiss dhit
        refine ⟨res, t2, deq, ?_, ?_, dmiss, hstep2⟩
        · rw [dres]
          conv_rhs => rw [hdecu, hdropi]
          rw [iFind_red, if_pos hlt1, ← hdropi]
        · rw [hstep1, if_pos rfl, if_neg (by omega), if_neg (by omega)]
          conv_rhs => rw [hdecu, hdropi]
          rw [iDelW_red_l hlt1, ← hdropi]
          rw [ddec]
      · rw [if_neg hlt1]
        by_cases hgt1 : (tval t._tree node) &&& CP_MASK < s.getD i 0
        · rw [if_pos hgt1]
          obtain ⟨res, t2, deq, dres, ddec, dmiss, dhit⟩ := delete_sync fuel t
            (tval t._tree (node + 3)) i s hok (hposj 3 (by omega) (by omega))
            nd3 hs hi (hfj 3 (by omega) (by omega))
          obtain ⟨hstep1, hstep2⟩ := hstep 3 (by omega) (by omega) i hi res t2
            deq dres ddec dmiss dhit
          refine ⟨res, t2, deq, ?_, ?_, dmiss, hstep2⟩
          · rw [dres]
            conv_rhs => rw [hdecu, hdropi]
            rw [iFind_red, if_neg hlt1, if_pos hgt1, ← hdropi]
          · rw [hstep1, if_neg (by omega), if_neg (by omega), if_pos rfl]
            conv_rhs => rw [hdecu, hdropi]
            rw [iDelW_red_g hlt1 hgt1, ← hdropi]
            rw [ddec]
        · rw [if_neg hgt1]
          simp only [if_neg (show ¬ CP_MIN_SURROGATE < s.getD i 0 from
            by omega)]
          by_cases hterm : s.length ≤ i + 1
          · rw [if_pos hterm]
            have hdropone : s.drop i = [s.getD i 0] := by
              rw [hdropi, List.drop_eq_nil_of_le (by omega)]
            by_cases heos : ((tval t._tree node) &&& EOS) == EOS
            · rw [if_pos heos]
              have heos2 : (tval t._tree node) &&& EOS = EOS :=
                beq_iff_eq.mp heos
              have hvp : goodV ((tval t._tree node) &&& CP_MASK) = true :=
                goodV_of_small (goodV_cp_lt gv)
              have htk2 : treeOk (t._tree.set node
                  ((tval t._tree node) &&& CP_MASK)) = true :=
                treeOk_set_val hok hal hlt hvp
              refine ⟨true, _, rfl, ?_, ?_, fun h => by simp at h, ?_⟩
              · rw [hdecu, hdropone, iFind_red, if_neg hlt1, if_neg hgt1,
                  if_pos (by trivial), heos]
              · rw [hdecu, hdropone, iDelW_red_hit hlt1 hgt1 heos]
                have hlen2 : (t._tree.set node
                    ((tval t._tree node) &&& CP_MASK)).length =
                    t._tree.length := by simp
                rw [decN_unfold htk2 hal (by rw [hlen2]; omega)]
                rw [tval_set_eq hlt]
                have hpt : ∀ k, 1 ≤ k → k ≤ 3 →
                    tval (t._tree.set node ((tval t._tree node) &&& CP_MASK))
                      (node + k) = tval t._tree (node + k) := by
                  intro k hk1 hk3
                  exact tval_set_ne (by omega) _
                rw [hpt 1 (by omega) (by omega), hpt 2 (by omega) (by omega),
                  hpt 3 (by omega) (by omega)]
                have hsibs : ∀ j2, 1 ≤ j2 → j2 ≤ 3 →
                    decN (t._tree.set node ((tval t._tree node) &&& CP_MASK))
                      (tval t._tree (node + j2)) =
                      decN t._tree (tval t._tree (node + j2)) := by
                  intro j2 hj21 hj23
                  apply decN_congr hok (le_of_eq hlen2.symm)
                    (by rw [hlen2]; omega) (hposjN j2 hj21 hj23)
                  intro b hb k hk
                  obtain ⟨b1, b2, b3⟩ := hbgt j2 hj21 hj23 b hb
                  exact tval_set_ne (by omega) _
                rw [hsibs 1 (by omega) (by omega), hsibs 2 (by omega) (by omega),
                  hsibs 3 (by omega) (by omega)]
              · intro _
                exact ⟨node, hmemnode, heos2, rfl⟩
            · rw [if_neg heos]
              refine ⟨false, t, rfl, ?_, ?_, fun _ => rfl,
                fun h => by simp at h⟩
              · rw [hdecu, hdropone, iFind_red, if_neg hlt1, if_neg hgt1,
                  if_pos (by trivial)]
                simp only [Bool.not_eq_true] at heos
                rw [heos]
              · rw [hdecu, hdropone,
                  iDelW_red_miss hlt1 hgt1 (by
                    simp only [Bool.not_eq_true] at heos
                    exact heos)]
          · rw [if_neg hterm]
            obtain ⟨res, t2, deq, dres, ddec, dmiss, dhit⟩ := delete_sync fuel
              t (tval t._tree (node + 2)) (i + 1) s hok
              (hposj 2 (by omega) (by omega)) nd2 hs (by omega)
              (hfj 2 (by omega) (by omega))
            obtain ⟨hstep1, hstep2⟩ := hstep 2 (by omega) (by omega) (i + 1)
              (by omega) res t2 deq dres ddec dmiss dhit
            have hrestne : s.drop (i + 1) ≠ [] := by
              intro h
              have h0 := congrArg List.length h
              rw [List.length_drop] at h0
              simp at h0
              omega
            refine ⟨res, t2, deq, ?_, ?_, dmiss, hstep2⟩
            · rw [dres]
              conv_rhs => rw [hdecu, hdropi]
              rw [iFind_red, if_neg hlt1, if_neg hgt1, if_neg hrestne]
            · rw [hstep1, if_neg (by omega), if_pos rfl, if_neg (by omega)]
              conv_rhs => rw [hdecu, hdropi]
              rw [iDelW_red_e hlt1 hgt1 hrestne]
              rw [ddec]

/-- Reach sets only read pointer entries: a congruence that permits value
entries to differ. -/
theorem reach_congr_ptr {tr tr' : List Nat} (hok : treeOk tr = true)
    (hlen : tr.length = tr'.length) :
    ∀ (f node : Nat), ((node % 4 = 0 ∧ node < tr.length) ∨ NUL ≤ node) →
      (∀ b ∈ reachL tr f node, ∀ k, 1 ≤ k → k < 4 →
        tval tr' (b + k) = tval tr (b + k)) →
      reachL tr' f node = reachL tr f node := by
  obtain ⟨hm4, hceil, hblocks⟩ := treeOk_parts hok
  have hnul0 : tr.length ≤ NUL := le_of_lt (lt_of_le_of_lt hceil ceiling_lt_nul)
  intro f
  induction f with
  | zero => intro node _ _; rfl
  | succ f ih =>
    intro node hal hent
    rcases hal with ⟨hal4, hlt⟩ | hbig
    · have hmem : node ∈ reachL tr (f + 1) node := by
        simp [reachL, if_neg (by omega : ¬ tr.length ≤ node)]
      simp only [reachL, if_neg (by omega : ¬ tr.length ≤ node),
        if_neg (by omega : ¬ tr'.length ≤ node)]
      have hv : ∀ k, 1 ≤ k → k < 4 → tval tr' (node + k) = tval tr (node + k) :=
        hent node hmem
      obtain ⟨_, hp1, hp2, hp3⟩ := blockOk_parts (hblocks node hal4 hlt)
      have hsub : ∀ p, (p = tval tr (node + 1) ∨ p = tval tr (node + 2) ∨
          p = tval tr (node + 3)) →
          ∀ b ∈ reachL tr f p, b ∈ reachL tr (f + 1) node := by
        intro p hp b hb
        simp only [reachL, if_neg (by omega : ¬ tr.length ≤ node),
          List.mem_cons, List.mem_append]
        rcases hp with rfl | rfl | rfl
        · exact Or.inr (Or.inl (Or.inl hb))
        · exact Or.inr (Or.inl (Or.inr hb))
        · exact Or.inr (Or.inr hb)
      have hchild : ∀ p, (p = NUL ∨ (node < p ∧ p < tr.length ∧ p % 4 = 0)) →
          (p = tval tr (node + 1) ∨ p = tval tr (node + 2) ∨
            p = tval tr (node + 3)) →
          reachL tr' f p = reachL tr f p := by
        intro p hp hwhich
        rcases hp with rfl | ⟨hgt, hplt, hp4⟩
        · rw [reach_nul hnul0, reach_nul (by omega)]
        · exact ih p (Or.inl ⟨hp4, hplt⟩)
            (fun b hb k hk1 hk => hent b (hsub p hwhich b hb) k hk1 hk)
      rw [hv 1 (by omega) (by omega), hv 2 (by omega) (by omega),
        hv 3 (by omega) (by omega)]
      rw [hchild _ (ptrOk_elim hp1) (Or.inl rfl),
        hchild _ (ptrOk_elim hp2) (Or.inr (Or.inl rfl)),
        hchild _ (ptrOk_elim hp3) (Or.inr (Or.inr rfl))]
    · rw [reach_big (by omega), reach_big (by omega)]

/-- Overwriting a value entry does not change any reach set. -/
theorem reachN_set_val {tr : List Nat} {p v : Nat} (hok : treeOk tr = true)
    (hp4 : p % 4 = 0) {node : Nat}
    (hal : (node % 4 = 0 ∧ node < tr.length) ∨ NUL ≤ node) :
    reachN (tr.set p v) node = reachN tr node := by
  have hpos : node % 4 = 0 ∨ tr.length ≤ node := by
    obtain ⟨_, hceil, _⟩ := treeOk_parts hok
    have hcn := ceiling_lt_nul
    rcases hal with ⟨a, _⟩ | a
    · exact Or.inl a
    · right; omega
  show reachL _ _ _ = _
  rw [show (tr.set p v).length = tr.length from by simp]
  apply reach_congr_ptr hok (by simp) _ node hal
  intro b hb k hk1 hk4
  obtain ⟨b1, b2, b3⟩ := reach_range hok _ node hpos b hb
  exact tval_set_ne (by omega) _

/-- The `delete` wrapper on a well-formed non-compact state and a nonempty
BMP string: the result is exactly prior membership, and the decoded tree
refines the pure deletion. -/
theorem deleteM_ok (fuel : Nat) {t : TernaryStringSet} {s : JsStr}
    (hok : treeOk t._tree = true)
    (hnd : (reachN t._tree 0).Nodup)
    (hcompact : t._compact = false)
    (hs : SmallW s) (hne : s ≠ []) :
    ∃ t2, deleteM (fuel + 1) t s = (some (has t s), t2) ∧
      t2._hasEmpty = t._hasEmpty ∧ t2._compact = t._compact ∧
      treeOk t2._tree = true ∧ (reachN t2._tree 0).Nodup ∧
      decN t2._tree 0 = (iDelW (decN t._tree 0) s).2 ∧
      t2._size = t._size - (if has t s = true then 1 else 0) ∧
      t2._tree.length = t._tree.length ∧
      (t2 = t ∨ ∃ p, p ∈ reachN t._tree 0 ∧
        (tval t._tree p) &&& EOS = EOS ∧
        t2 = { t with
          _tree := t._tree.set p ((tval t._tree p) &&& CP_MASK),
          _size := t._size - 1 }) := by
  obtain ⟨hm4, hceil, hblocks⟩ := treeOk_parts hok
  have hlen0 : ¬ s.length = 0 := by
    intro h
    exact hne (List.eq_nil_of_length_eq_zero h)
  have hpos0 : (0 % 4 = 0 ∧ 0 < t._tree.length) ∨ t._tree.length ≤ 0 := by
    rcases Nat.eq_zero_or_pos t._tree.length with h | h
    · right
      omega
    · exact Or.inl ⟨by norm_num, h⟩
  obtain ⟨res, t2, deq, dres, ddec, dmiss, dhit⟩ := delete_sync (wrapFuel t) t
    0 0 s hok hpos0 hnd hs (by omega) (by unfold wrapFuel; omega)
  rw [List.drop_zero] at dres ddec
  have hresv : res = has t s := by
    rw [dres, has_iFind hok hs hne]
  refine ⟨t2, ?_, ?_, ?_, ?_, ?_, ddec, ?_, ?_, ?_⟩
  · simp only [deleteM]
    rw [if_neg hlen0, hcompact]
    simp only [Bool.false_and]
    rw [show (if (false : Bool) = true then decompactM fuel t
        else (some (), t)) = (some (), t) from by simp]
    simp only [deq, hresv]
  all_goals
    rcases Bool.eq_false_or_eq_true res with hres | hres
  · obtain ⟨p, hp, heos, ht2⟩ := dhit hres
    rw [ht2]
  · rw [dmiss hres]
  · obtain ⟨p, hp, heos, ht2⟩ := dhit hres
    rw [ht2]
  · rw [dmiss hres]
  · obtain ⟨p, hp, heos, ht2⟩ := dhit hres
    obtain ⟨hp1, hp2, hp3⟩ := reachN_range hok (by
      rcases hpos0 with ⟨a, _⟩ | a
      · exact Or.inl a
      · exact Or.inr a) p hp
    rw [ht2]
    exact treeOk_set_val hok hp3 hp2
      (goodV_of_small (goodV_cp_lt (blockOk_parts (hblocks p hp3 hp2)).1))
  · rw [dmiss hres]
    exact hok
  · obtain ⟨p, hp, heos, ht2⟩ := dhit hres
    obtain ⟨hp1, hp2, hp3⟩ := reachN_range hok (by
      rcases hpos0 with ⟨a, _⟩ | a
      · exact Or.inl a
      · exact Or.inr a) p hp
    rw [ht2]
    show (reachN (t._tree.set p ((tval t._tree p) &&& CP_MASK)) 0).Nodup
    rw [reachN_set_val hok hp3 (Or.inl ⟨by norm_num, by omega⟩)]
    exact hnd
  · rw [dmiss hres]
    exact hnd
  · obtain ⟨p, hp, heos, ht2⟩ := dhit hres
    rw [ht2, ← hresv, hres]
    simp
  · rw [dmiss hres, ← hresv, hres]
    simp
  · obtain ⟨p, hp, heos, ht2⟩ := dhit hres
    rw [ht2]
    simp
  · rw [dmiss hres]
  · obtain ⟨p, hp, heos, ht2⟩ := dhit hres
    exact Or.inr ⟨p, hp, heos, ht2⟩
  · exact Or.inl (dmiss hres)

/-- Adding a string the walk already finds never changes the state: every
write-back rewrites an entry to its current value.  This needs no tree
invariant, so it also covers compacted trees. -/
theorem add_of_has : ∀ (f1 f2 : Nat) (t : TernaryStringSet) (node : Nat)
    (s : JsStr) (i c : Nat), SmallW s → c < CP_MIN_SURROGATE →
    _has t._tree f1 node s i c = true → f1 ≤ f2 →
    _add t f2 node s i c = (some node, t)
  | 0, _, t, node, s, i, c => by
    intro _ _ hh _
    simp [_has] at hh
  | f1 + 1, f2, t, node, s, i, c => by
    intro hs hc hh hle
    obtain ⟨f3, rfl⟩ : ∃ f3, f2 = f3 + 1 := ⟨f2 - 1, by omega⟩
    simp only [_has] at hh
    by_cases hbig : t._tree.length ≤ node
    · rw [if_pos hbig] at hh
      simp at hh
    · rw [if_neg hbig] at hh
      rw [_add_unfold, if_neg hbig]
      simp only [addStep]
      by_cases h1 : c < (tval t._tree node) &&& CP_MASK
      · rw [if_pos h1] at hh
        rw [if_pos h1]
        have hrec := add_of_has f1 f3 t _ s i c hs hc hh (by omega)
        simp only [hrec, set_tval_self]
      · rw [if_neg h1] at hh
        rw [if_neg h1]
        by_cases h2 : (tval t._tree node) &&& CP_MASK < c
        · rw [if_pos h2] at hh
          rw [if_pos h2]
          have hrec := add_of_has f1 f3 t _ s i c hs hc hh (by omega)
          simp only [hrec, set_tval_self]
        · rw [if_neg h2] at hh
          rw [if_neg h2]
          rw [if_neg (show ¬ CP_MIN_SURROGATE ≤ c from by omega)] at hh
          rw [if_neg (show ¬ CP_MIN_SURROGATE ≤ c from by omega)]
          by_cases hterm : s.length ≤ i + 1
          · rw [if_pos hterm] at hh
            rw [if_pos hterm]
            have heos : (tval t._tree node) &&& EOS = EOS := beq_iff_eq.mp hh
            rw [if_neg (by rw [heos]; decide)]
          · rw [if_neg hterm] at hh
            rw [if_neg hterm]
            have hc2 : s.getD (i + 1) 0 < CP_MIN_SURROGATE :=
              hs _ (getD_mem_of_lt (by omega))
            have hrec := add_of_has f1 f3 t _ s (i + 1) _ hs hc2 hh (by omega)
            simp only [hrec, set_tval_self]

/-- Deleting a string the walk does not find never changes the state.
This needs no tree invariant, so it also covers compacted trees. -/
theorem delete_not_found : ∀ (fuel : Nat) (t : TernaryStringSet) (node : Nat)
    (s : JsStr) (i c : Nat), SmallW s → c < CP_MIN_SURROGATE →
    _has t._tree fuel node s i c = false →
    _delete t fuel node s i c = (false, t)
  | 0, t, node, s, i, c => by
    intro _ _ _
    rfl
  | fuel + 1, t, node, s, i, c => by
    intro hs hc hh
    simp only [_has] at hh
    simp only [_delete]
    by_cases hbig : t._tree.length ≤ node
    · rw [if_pos hbig]
    · rw [if_neg hbig] at hh
      rw [if_neg hbig]
      by_cases h1 : c < (tval t._tree node) &&& CP_MASK
      · rw [if_pos h1] at hh
        rw [if_pos h1]
        exact delete_not_found fuel t _ s i c hs hc hh
      · rw [if_neg h1] at hh
        rw [if_neg h1]
        by_cases h2 : (tval t._tree node) &&& CP_MASK < c
        · rw [if_pos h2] at hh
          rw [if_pos h2]
          exact delete_not_found fuel t _ s i c hs hc hh
        · rw [if_neg h2] at hh
          rw [if_neg h2]
          rw [if_neg (show ¬ CP_MIN_SURROGATE ≤ c from by omega)] at hh
          rw [if_neg (show ¬ CP_MIN_SURROGATE < c from by omega)]
          by_cases hterm : s.length ≤ i + 1
          · rw [if_pos hterm] at hh
            rw [if_pos hterm, if_neg (by rw [hh]; exact Bool.false_ne_true)]
          · rw [if_neg hterm] at hh
            rw [if_neg hterm]
            have hc2 : s.getD (i + 1) 0 < CP_MIN_SURROGATE :=
              hs _ (getD_mem_of_lt (by omega))
            exact delete_not_found fuel t _ s (i + 1) _ hs hc2 hh

/-- `add` preserves the representation invariant and adjoins exactly the
argument to the membership function. -/
theorem addM_inv (fuel : Nat) {t : TernaryStringSet} {s : JsStr}
    (hInv : Inv t) (hs : SmallW s)
    (hroom : t._tree.length + 4 * s.length ≤ NODE_CEILING) :
    ∃ t2, addM (fuel + 1) t s = (some (), t2) ∧ Inv t2 ∧
      (∀ x, memF t2 x = true ↔ (x = s ∨ memF t x = true)) ∧
      t2._size = t._size + (if memF t s = true then 0 else 1) ∧
      t2._tree.length ≤ t._tree.length + 4 * s.length := by
  obtain ⟨hok, hnd, hord, hcomp⟩ := hInv
  by_cases hne : s = []
  · subst hne
    simp only [addM]
    rw [if_pos (by simp)]
    by_cases hhe : t._hasEmpty = true
    · rw [show (!t._hasEmpty) = false from by rw [hhe]; rfl]
      refine ⟨t, by simp, ⟨hok, hnd, hord, hcomp⟩, ?_, ?_, by omega⟩
      · intro x
        constructor
        · exact fun h => Or.inr h
        · intro h
          rcases h with rfl | h
          · simp [memF, hhe]
          · exact h
      · rw [show memF t [] = true from by simp [memF, hhe]]
        simp
    · rw [show (!t._hasEmpty) = true from by
        rcases Bool.eq_false_or_eq_true t._hasEmpty with h | h
        · exact absurd h hhe
        · rw [h]; rfl]
      rw [if_pos rfl]
      refine ⟨_, rfl, ⟨hok, hnd, hord, hcomp⟩, ?_, ?_, by simp⟩
      · intro x
        by_cases hx : x = []
        · subst hx
          simp [memF]
        · simp only [memF, if_neg hx]
          constructor
          · exact fun h => Or.inr h
          · intro h
            rcases h with h | h
            · exact absurd h hx
            · exact h
      · have hm : memF t [] = t._hasEmpty := by simp [memF]
        rw [hm]
        rcases Bool.eq_false_or_eq_true t._hasEmpty with h | h
        · exact absurd h hhe
        · rw [h]
          simp
  · obtain ⟨t2, heq, he1, he2, htk, hnd2, hdec, hsz, hlen, hshape⟩ :=
      addM_ok fuel hok hnd hcomp hs hne hroom
    obtain ⟨c, rest, rfl⟩ : ∃ c rest, s = c :: rest := by
      cases s with
      | nil => exact absurd rfl hne
      | cons c rest => exact ⟨c, rest, rfl⟩
    have hgt : goodT (decN t._tree 0) = true :=
      decN_goodT hok (Or.inl (by norm_num))
    refine ⟨t2, heq, ⟨htk, hnd2, ?_, by rw [he2]; exact hcomp⟩, ?_, ?_, hlen⟩
    · rw [hdec]
      exact iInsW_ordB _ none none c rest hgt hord hs rfl rfl
    · intro x
      by_cases hx : x = []
      · subst hx
        simp only [memF, if_pos rfl, he1]
        constructor
        · exact fun h => Or.inr h
        · intro h
          rcases h with h | h
          · exact absurd h.symm (by simp)
          · exact h
      · simp only [memF, if_neg hx, if_neg hne, hdec]
        rw [iInsW_find _ _ _ hgt hs hne]
        simp only [Bool.or_eq_true, decide_eq_true_eq]
    · rw [hsz, has_iFind hok hs hne]
      rw [show memF t (c :: rest) = iFind (decN t._tree 0) (c :: rest) from
        by simp [memF]]

/-- One step of the slice code-point count. -/
theorem segLen_succ_left (strings : List JsStr) {a b : Nat} (h : a < b) :
    segLen strings a b = (strings.getD a []).length +
      segLen strings (a + 1) b := by
  unfold segLen
  rw [show b - a = 1 + (b - (a + 1)) from by omega, List.range_add,
    List.map_append, List.sum_append, List.map_map]
  have h2 : (List.range (b - (a + 1))).map
      ((fun k => (strings.getD (a + k) []).length) ∘ (fun i => 1 + i)) =
      (List.range (b - (a + 1))).map
        (fun k => (strings.getD (a + 1 + k) []).length) := by
    apply List.map_congr_left
    intro k _
    simp only [Function.comp_def]
    congr 2
    omega
  rw [h2]
  have h1 : ((List.range 1).map
      (fun k => (strings.getD (a + k) []).length)).sum =
      (strings.getD a []).length := by
    rw [show List.range 1 = [0] from by decide]
    simp
  rw [h1]

/-- Splitting the slice code-point count at an interior index. -/
theorem segLen_split (strings : List JsStr) : ∀ {a m b : Nat}, a ≤ m → m < b →
    segLen strings a b = segLen strings a m + (strings.getD m []).length +
      segLen strings (m + 1) b := by
  intro a m b h1 h2
  obtain ⟨d, rfl⟩ : ∃ d, m = a + d := ⟨m - a, by omega⟩
  clear h1
  induction d generalizing a with
  | zero =>
    have hz : segLen strings a (a + 0) = 0 := by
      unfold segLen
      simp
    rw [segLen_succ_left strings (show a < b from by omega), hz]
    simp only [Nat.add_zero]
    omega
  | succ d ih =>
    rw [segLen_succ_left strings (show a < b from by omega),
      segLen_succ_left strings (show a < a + (d + 1) from by omega)]
    rw [show a + (d + 1) = (a + 1) + d from by omega] at h2 ⊢
    rw [ih h2]
    omega

/-- The bisection bulk insert: success, invariant preservation, and the
membership function extended by exactly the slice. -/
theorem _addAllM_ok : ∀ (fuel : Nat) (t : TernaryStringSet)
    (strings : List JsStr) (start stop : Nat),
    Inv t → (∀ w ∈ strings, SmallW w) →
    stop - start + 1 ≤ fuel →
    t._tree.length + 4 * segLen strings start stop ≤ NODE_CEILING →
    ∃ t2, _addAllM fuel t strings start stop = (some (), t2) ∧ Inv t2 ∧
      (∀ x, memF t2 x = true ↔
        ((∃ j, start ≤ j ∧ j < stop ∧ strings.getD j [] = x) ∨
          memF t x = true)) ∧
      t2._tree.length ≤ t._tree.length + 4 * segLen strings start stop
  | 0, t, strings, start, stop => by
    intro _ _ hf _
    omega
  | fuel + 1, t, strings, start, stop => by
    intro hInv hw hf hroom
    by_cases hend : stop ≤ start
    · refine ⟨t, ?_, hInv, ?_, by omega⟩
      · simp [_addAllM, hend]
      · intro x
        constructor
        · exact fun h => Or.inr h
        · intro h
          rcases h with ⟨j, hj1, hj2, _⟩ | h
          · omega
          · exact h
    · have hstart : start < stop := by omega
      have hmid1 : start ≤ start + (stop - 1 - start) / 2 := by omega
      have hmid2 : start + (stop - 1 - start) / 2 < stop := by omega
      have hsplit := segLen_split strings hmid1 hmid2
      have hsmid : SmallW (strings.getD (start + (stop - 1 - start) / 2) []) := by
        by_cases hlt : start + (stop - 1 - start) / 2 < strings.length
        · rw [List.getD_eq_getElem _ _ hlt]
          exact hw _ (List.getElem_mem hlt)
        · rw [List.getD_eq_default _ _ (by omega)]
          intro c hc
          simp at hc
      obtain ⟨f2, rfl⟩ : ∃ f2, fuel = f2 + 1 := ⟨fuel - 1, by omega⟩
      obtain ⟨t1, heq1, hInv1, hmem1, hsz1, hlen1⟩ := addM_inv f2
        hInv hsmid (by omega)
      obtain ⟨t2, heq2, hInv2, hmem2, hlen2⟩ := _addAllM_ok (f2 + 1) t1
        strings start (start + (stop - 1 - start) / 2) hInv1 hw (by omega)
        (by omega)
      obtain ⟨t3, heq3, hInv3, hmem3, hlen3⟩ := _addAllM_ok (f2 + 1) t2
        strings (start + (stop - 1 - start) / 2 + 1) (stop - 1 + 1) hInv2 hw
        (by omega) (by rw [show stop - 1 + 1 = stop from by omega]; omega)
      rw [show stop - 1 + 1 = stop from by omega] at heq3 hmem3 hlen3
      refine ⟨t3, ?_, hInv3, ?_, by omega⟩
      · show _addAllM (f2 + 1 + 1) t strings start stop = (some (), t3)
        rw [_addAllM, if_neg hend]
        simp only [heq1, heq2]
        rw [show stop - 1 + 1 = stop from by omega]
        exact heq3
      · intro x
        rw [hmem3 x, hmem2 x, hmem1 x]
        constructor
        · intro h
          rcases h with ⟨j, hj1, hj2, hj3⟩ | (⟨j, hj1, hj2, hj3⟩ | (rfl | h))
          · exact Or.inl ⟨j, by omega, hj2, hj3⟩
          · exact Or.inl ⟨j, hj1, by omega, hj3⟩
          · exact Or.inl ⟨start + (stop - 1 - start) / 2, by omega, by omega,
              rfl⟩
          · exact Or.inr h
        · intro h
          rcases h with ⟨j, hj1, hj2, hj3⟩ | h
          · by_cases hja : j < start + (stop - 1 - start) / 2
            · exact Or.inr (Or.inl ⟨j, hj1, hja, hj3⟩)
            · by_cases hjb : j = start + (stop - 1 - start) / 2
              · subst hjb
                exact Or.inr (Or.inr (Or.inl hj3.symm))
              · exact Or.inl ⟨j, by omega, by omega, hj3⟩
          · exact Or.inr (Or.inr (Or.inr h))

theorem iDelW_found : ∀ (T : ITree) (w : List Nat),
    (iDelW T w).1 = iFind T w
  | .nil, _ => rfl
  | .nd v l e g, [] => rfl
  | .nd v l e g, c :: rest => by
    rw [iFind_red]
    by_cases h1 : c < v &&& CP_MASK
    · rw [iDelW_red_l h1, if_pos h1, iDelW_found l (c :: rest)]
    · rw [if_neg h1]
      by_cases h2 : v &&& CP_MASK < c
      · rw [iDelW_red_g h1 h2, if_pos h2, iDelW_found g (c :: rest)]
      · rw [if_neg h2]
        by_cases h3 : rest = []
        · subst h3
          rw [if_pos rfl]
          rcases Bool.eq_false_or_eq_true ((v &&& EOS) == EOS) with hb | hb
          · rw [iDelW_red_hit h1 h2 hb, hb]
          · rw [iDelW_red_miss h1 h2 hb, hb]
        · rw [iDelW_red_e h1 h2 h3, if_neg h3, iDelW_found e rest]

theorem iDelW_goodT : ∀ (T : ITree) (w : List Nat), goodT T = true →
    goodT ((iDelW T w).2) = true
  | .nil, _, _ => rfl
  | .nd v l e g, [], hg => hg
  | .nd v l e g, c :: rest, hg => by
    rw [goodT_node] at hg
    obtain ⟨gv, gl, ge, gg⟩ := hg
    by_cases h1 : c < v &&& CP_MASK
    · rw [iDelW_red_l h1, goodT_node]
      exact ⟨gv, iDelW_goodT l (c :: rest) gl, ge, gg⟩
    · by_cases h2 : v &&& CP_MASK < c
      · rw [iDelW_red_g h1 h2, goodT_node]
        exact ⟨gv, gl, ge, iDelW_goodT g (c :: rest) gg⟩
      · by_cases h3 : rest = []
        · subst h3
          rcases Bool.eq_false_or_eq_true ((v &&& EOS) == EOS) with hb | hb
          · rw [iDelW_red_hit h1 h2 hb, goodT_node]
            exact ⟨goodV_of_small (goodV_cp_lt gv), gl, ge, gg⟩
          · rw [iDelW_red_miss h1 h2 hb, goodT_node]
            exact ⟨gv, gl, ge, gg⟩
        · rw [iDelW_red_e h1 h2 h3, goodT_node]
          exact ⟨gv, gl, iDelW_goodT e rest ge, gg⟩

theorem iDelW_find : ∀ (T : ITree) (w x : List Nat), goodT T = true →
    iFind ((iDelW T w).2) x = (!decide (x = w) && iFind T x)
  | .nil, w, x, _ => by simp [iDelW, iFind]
  | .nd v l e g, [], x, _ => by
    have hx : iFind (ITree.nd v l e g) x = true → x ≠ [] := by
      intro hf he
      subst he
      simp [iFind] at hf
    cases hfx : iFind (ITree.nd v l e g) x with
    | false => simp [iDelW, hfx]
    | true => simp [iDelW, hfx, decide_eq_false (hx hfx)]
  | .nd v l e g, c :: rest, x, hg => by
    rw [goodT_node] at hg
    obtain ⟨gv, gl, ge, gg⟩ := hg
    have hcp : (v &&& CP_MASK) &&& CP_MASK = v &&& CP_MASK :=
      and_cpmask_of_lt (lt_trans (goodV_cp_lt gv) surrogate_lt_eos)
    by_cases h1 : c < v &&& CP_MASK
    · rw [iDelW_red_l h1]
      cases x with
      | nil => simp [iFind]
      | cons a as =>
        rw [iFind_red, iFind_red]
        by_cases ha1 : a < v &&& CP_MASK
        · rw [if_pos ha1, if_pos ha1, iDelW_find l (c :: rest) (a :: as) gl]
        · have hne : ¬ (a :: as = c :: rest) := by intro hh; cases hh; omega
          rw [if_neg ha1, if_neg ha1]
          simp only [decide_eq_false hne, Bool.not_false, Bool.true_and]
    · by_cases h2 : v &&& CP_MASK < c
      · rw [iDelW_red_g h1 h2]
        cases x with
        | nil => simp [iFind]
        | cons a as =>
          rw [iFind_red, iFind_red]
          by_cases ha1 : a < v &&& CP_MASK
          · have hne : ¬ (a :: as = c :: rest) := by intro hh; cases hh; omega
            rw [if_pos ha1, if_pos ha1]
            simp only [decide_eq_false hne, Bool.not_false, Bool.true_and]
          · rw [if_neg ha1, if_neg ha1]
            by_cases ha2 : v &&& CP_MASK < a
            · rw [if_pos ha2, if_pos ha2, iDelW_find g (c :: rest) (a :: as) gg]
            · have hne : ¬ (a :: as = c :: rest) := by intro hh; cases hh; omega
              rw [if_neg ha2, if_neg ha2]
              simp only [decide_eq_false hne, Bool.not_false, Bool.true_and]
      · have hc : c = v &&& CP_MASK := by omega
        by_cases h3 : rest = []
        · subst h3
          rcases Bool.eq_false_or_eq_true ((v &&& EOS) == EOS) with hb | hb
          · rw [iDelW_red_hit h1 h2 hb]
            cases x with
            | nil => simp [iFind]
            | cons a as =>
              rw [iFind_red, iFind_red, hcp]
              by_cases ha1 : a < v &&& CP_MASK
              · have hne : ¬ (a :: as = [c]) := by intro hh; cases hh; omega
                rw [if_pos ha1, if_pos ha1]
                simp only [decide_eq_false hne, Bool.not_false, Bool.true_and]
              · rw [if_neg ha1, if_neg ha1]
                by_cases ha2 : v &&& CP_MASK < a
                · have hne : ¬ (a :: as = [c]) := by intro hh; cases hh; omega
                  rw [if_pos ha2, if_pos ha2]
                  simp only [decide_eq_false hne, Bool.not_false, Bool.true_and]
                · rw [if_neg ha2, if_neg ha2]
                  by_cases ha3 : as = []
                  · subst ha3
                    rw [if_pos rfl, if_pos rfl, hb,
                      and_eos_of_lt (lt_trans (goodV_cp_lt gv) surrogate_lt_eos)]
                    have heq : a :: ([] : List Nat) = [c] := by
                      have : a = c := by omega
                      rw [this]
                    rw [decide_eq_true heq]
                    simp only [Bool.not_true, Bool.false_and]
                    rw [beq_eq_false_iff_ne]
                    norm_num [EOS]
                  · rw [if_neg ha3, if_neg ha3]
                    have hne : ¬ (a :: as = [c]) := by
                      intro hh; cases hh; exact ha3 rfl
                    simp only [decide_eq_false hne, Bool.not_false, Bool.true_and]
          · rw [iDelW_red_miss h1 h2 hb]
            have hw : ¬ (x = [c]) ∨ x = [c] := by tauto
            rcases hw with hw | rfl
            · simp [decide_eq_false hw]
            · rw [iFind_red, if_neg h1, if_neg h2, if_pos rfl, hb]
              simp
        · rcases Bool.eq_false_or_eq_true (decide (x = c :: rest)) with hd | hd
          · have hx : x = c :: rest := by simpa using hd
            subst hx
            rw [iDelW_red_e h1 h2 h3, hd]
            simp only [Bool.not_true, Bool.false_and]
            rw [iFind_red]
            have hac : ¬ (c < v &&& CP_MASK) := h1
            rw [if_neg hac, if_neg h2, if_neg h3, iDelW_find e rest rest ge]
            simp
          · rw [iDelW_red_e h1 h2 h3]
            have hne : ¬ (x = c :: rest) := by simpa using hd
            rw [hd]
            simp only [Bool.not_false, Bool.true_and]
            cases x with
            | nil => simp [iFind]
            | cons a as =>
              rw [iFind_red, iFind_red]
              by_cases ha1 : a < v &&& CP_MASK
              · rw [if_pos ha1, if_pos ha1]
              · rw [if_neg ha1, if_neg ha1]
                by_cases ha2 : v &&& CP_MASK < a
                · rw [if_pos ha2, if_pos ha2]
                · rw [if_neg ha2, if_neg ha2]
                  by_cases ha3 : as = []
                  · rw [if_pos ha3, if_pos ha3]
                  · rw [if_neg ha3, if_neg ha3,
                      iDelW_find e rest as ge]
                    have hner : ¬ (as = rest) := by
                      intro hh
                      apply hne
                      have hac : a = c := by omega
                      rw [hac, hh]
                    simp only [decide_eq_false hner, Bool.not_false, Bool.true_and]

theorem iDelW_count : ∀ (T : ITree) (w : List Nat), goodT T = true →
    iCount ((iDelW T w).2) + (if iFind T w = true then 1 else 0) = iCount T
  | .nil, w, _ => by simp [iDelW, iFind, iCount]
  | .nd v l e g, [], _ => by simp [iDelW, iFind]
  | .nd v l e g, c :: rest, hg => by
    rw [goodT_node] at hg
    obtain ⟨gv, gl, ge, gg⟩ := hg
    rw [iFind_red]
    by_cases h1 : c < v &&& CP_MASK
    · rw [iDelW_red_l h1, if_pos h1]
      simp only [iCount]
      have := iDelW_count l (c :: rest) gl
      split at this <;> split <;> omega
    · rw [if_neg h1]
      by_cases h2 : v &&& CP_MASK < c
      · rw [iDelW_red_g h1 h2, if_pos h2]
        simp only [iCount]
        have := iDelW_count g (c :: rest) gg
        split at this <;> split <;> omega
      · rw [if_neg h2]
        by_cases h3 : rest = []
        · subst h3
          rw [if_pos rfl]
          rcases Bool.eq_false_or_eq_true ((v &&& EOS) == EOS) with hb | hb
          · rw [iDelW_red_hit h1 h2 hb, hb]
            simp only [iCount, hb,
              and_eos_of_lt (lt_trans (goodV_cp_lt gv) surrogate_lt_eos)]
            have hne : ¬ (((0 : Nat) == EOS) = true) := by
              simp only [beq_iff_eq]
              intro hh
              exact absurd hh.symm (by norm_num [EOS])
            simp only [if_neg hne, if_pos rfl]
            simp
          · rw [iDelW_red_miss h1 h2 hb, hb]
            simp only [iCount, hb]
            simp
        · rw [iDelW_red_e h1 h2 h3, if_neg h3]
          simp only [iCount]
          have := iDelW_count e rest ge
          split at this <;> split <;> omega

theorem iDelW_ordB : ∀ (T : ITree) (lo hi : Option Nat) (w : List Nat),
    goodT T = true → ordB lo hi T = true →
    ordB lo hi ((iDelW T w).2) = true
  | .nil, _, _, _, _, _ => rfl
  | .nd v l e g, lo, hi, [], _, ho => ho
  | .nd v l e g, lo, hi, c :: rest, hgt, ho => by
    rw [goodT_node] at hgt
    obtain ⟨gv, gl, ge, gg⟩ := hgt
    rw [ordB_node] at ho
    obtain ⟨olo, ohi, ol, og, oe⟩ := ho
    by_cases h1 : c < v &&& CP_MASK
    · rw [iDelW_red_l h1, ordB_node]
      exact ⟨olo, ohi, iDelW_ordB l lo _ (c :: rest) gl ol, og, oe⟩
    · by_cases h2 : v &&& CP_MASK < c
      · rw [iDelW_red_g h1 h2, ordB_node]
        exact ⟨olo, ohi, ol, iDelW_ordB g _ hi (c :: rest) gg og, oe⟩
      · by_cases h3 : rest = []
        · subst h3
          have hcp : (v &&& CP_MASK) &&& CP_MASK = v &&& CP_MASK :=
            and_cpmask_of_lt (lt_trans (goodV_cp_lt gv) surrogate_lt_eos)
          rcases Bool.eq_false_or_eq_true ((v &&& EOS) == EOS) with hb | hb
          · rw [iDelW_red_hit h1 h2 hb, ordB_node, hcp]
            exact ⟨olo, ohi, ol, og, oe⟩
          · rw [iDelW_red_miss h1 h2 hb, ordB_node]
            exact ⟨olo, ohi, ol, og, oe⟩
        · rw [iDelW_red_e h1 h2 h3, ordB_node]
          exact ⟨olo, ohi, ol, og, iDelW_ordB e none none rest ge oe⟩

/-- C8, counterexample: `deleteAll` with a null collection returns `false`
without raising an error (src/ftss.ts lines 337-346), so not every public
operation that takes a collection argument raises on null. -/
theorem claim_C8_counterexample :
    deleteAllN emptySet none = (some false, emptySet) := rfl

/-- C8 (amended): every public operation that takes a pattern or collection
argument raises a synchronous error on a null argument, except `deleteAll`,
which returns `false` without mutating the set. -/
theorem claim_C8 (t : TernaryStringSet) :
    addN t none = (none, t) ∧
    (∀ start stop, addAllN t none start stop = (none, t)) ∧
    deleteN t none = (none, t) ∧
    hasN t none = none ∧
    getCompletionsOf t none = none ∧
    getCompletedBy t none = none ∧
    (∀ dc, getPartialMatchesOf t none dc = none) ∧
    getArrangementsOf t none = none ∧
    (∀ d, getWithinHammingDistanceOf t none d = none) ∧
    (∀ d, getWithinEditDistanceOf t none d = none) ∧
    deleteAllN t none = (some false, t) := by
  exact ⟨rfl, fun _ _ => rfl, rfl, rfl, rfl, rfl, fun _ => rfl, rfl,
    fun _ => rfl, fun _ => rfl, rfl⟩

/-- C10: `getPartialMatchesOf(p, null)` does not raise for the null
dont-care argument: a null `dontCareChar` is replaced by the default `"."`
(char code 46), so the result equals `getPartialMatchesOf(p, ".")`; only an
empty `dontCareChar` raises. -/
theorem claim_C10 (t : TernaryStringSet) (p : JsStr) :
    getPartialMatchesOf t (some p) none = getPartialMatchesOf t (some p) (some [46]) ∧
    (getPartialMatchesOf t (some p) none).isSome = true ∧
    getPartialMatchesOf t (some p) (some []) = none := by
  refine ⟨rfl, ?_, rfl⟩
  simp only [getPartialMatchesOf]
  rw [if_neg (by simp)]
  split <;> simp

/-- C7, counterexample: with the set `{ "x" }`, the call
`deleteAll(["x", null])` raises an error (on the null element), yet
afterwards `has("x")` is false: the mutation performed before the error is
not rolled back, so there is a partial-failure state. -/
theorem claim_C7_counterexample :
    (deleteAll ((add emptySet [120]).2) [some [120], none]).1 = none ∧
    has ((add emptySet [120]).2) [120] = true ∧
    has (deleteAll ((add emptySet [120]).2) [some [120], none]).2 [120] = false := by
  decide

/-- C9, counterexample: in the reachable state obtained by adding `"ae"`
and `"ze"` and then compacting, the two end-of-string nodes are shared into
one, so `size` (2) differs from the end-of-string node count (1) plus the
empty-string flag (0): `compact` does not preserve the stated invariant. -/
theorem claim_C9_counterexample :
    ((compact ((add ((add emptySet [97, 101]).2) [122, 101]).2)).2)._size = 2 ∧
    eosCount (((compact ((add ((add emptySet [97, 101]).2) [122, 101]).2)).2)._tree) = 1 ∧
    ((compact ((add ((add emptySet [97, 101]).2) [122, 101]).2)).2)._hasEmpty = false := by
  decide

/-- C6, counterexample: bulk-inserting the ascending sorted one-element
array `["ab"]` into an empty set yields a tree of depth 2 (one node per
code point), while the claimed bound says the depth should be
`⌈log2(1+1)⌉ = 1`. -/
theorem claim_C6_counterexample :
    (stats (addAll emptySet [[97, 98]] 0 none).2).depth = 2 ∧
    Nat.clog 2 (1 + 1) = 1 := by
  constructor
  · decide
  · simp [Nat.clog]

/-!  The bulk-insert wrappers: `addAll` over the whole collection, the
array constructor, and `balance`. -/

theorem getD_mem_iff {strings : List JsStr} {x : JsStr} :
    (∃ j, 0 ≤ j ∧ j < strings.length ∧ strings.getD j [] = x) ↔
      x ∈ strings := by
  constructor
  · rintro ⟨j, _, hj2, hj3⟩
    rw [List.getD_eq_getElem _ _ hj2] at hj3
    exact hj3 ▸ List.getElem_mem hj2
  · intro hx
    obtain ⟨j, hj, hx⟩ := List.mem_iff_getElem.mp hx
    exact ⟨j, by omega, hj, by rw [List.getD_eq_getElem _ _ hj]; exact hx⟩

theorem addAllM_full (fuel : Nat) {t : TernaryStringSet} {strings : List JsStr}
    (hInv : Inv t) (hw : ∀ w ∈ strings, SmallW w)
    (hf : strings.length + 1 ≤ fuel)
    (hroom : t._tree.length + 4 * segLen strings 0 strings.length ≤
      NODE_CEILING) :
    ∃ t2, addAllM (fuel + 1) t strings 0 none = (some (), t2) ∧ Inv t2 ∧
      (∀ x, memF t2 x = true ↔ (x ∈ strings ∨ memF t x = true)) ∧
      t2._tree.length ≤ t._tree.length + 4 * segLen strings 0 strings.length
    := by
  have hc1 : (decide ((0 : Int) < 0) ||
      decide ((strings.length : Int) < 0)) = false := by
    simp only [Bool.or_eq_false_iff, decide_eq_false_iff_not]
    exact ⟨by omega, by omega⟩
  have hc2 : (decide ((strings.length : Int) < 0) ||
      decide ((strings.length : Int) < (strings.length : Int))) = false := by
    simp only [Bool.or_eq_false_iff, decide_eq_false_iff_not]
    exact ⟨by omega, by omega⟩
  by_cases hnil : strings.length = 0
  · refine ⟨t, ?_, hInv, ?_, by omega⟩
    · simp only [addAllM]
      rw [hc1]
      simp only [Bool.false_eq_true, if_false]
      rw [hc2]
      simp only [Bool.false_eq_true, if_false]
      rw [if_neg (by omega)]
    · intro x
      have hs0 : strings = [] := List.eq_nil_of_length_eq_zero hnil
      subst hs0
      simp
  · obtain ⟨t2, heq, hInv2, hmem, hlen⟩ := _addAllM_ok fuel t strings 0
      strings.length hInv hw (by omega) (by simpa using hroom)
    refine ⟨t2, ?_, hInv2, ?_, hlen⟩
    · simp only [addAllM]
      rw [hc1]
      simp only [Bool.false_eq_true, if_false]
      rw [hc2]
      simp only [Bool.false_eq_true, if_false]
      rw [if_pos (by exact_mod_cast Nat.pos_of_ne_zero hnil)]
      simpa using heq
    · intro x
      rw [hmem x, getD_mem_iff]

theorem Inv_emptySet : Inv emptySet :=
  ⟨by decide, by decide, by decide, rfl⟩

theorem memF_emptySet (x : JsStr) : memF emptySet x = false := by
  by_cases hx : x = []
  · subst hx
    simp [memF, emptySet]
  · rw [memF, if_neg hx]
    show iFind (decN [] 0) x = false
    cases x with
    | nil => simp at hx
    | cons c rest => rfl

theorem ctorM_ok (fuel : Nat) {src : List JsStr}
    (hw : ∀ w ∈ src, SmallW w) (hf : src.length + 2 ≤ fuel)
    (hroom : 4 * segLen src 0 src.length ≤ NODE_CEILING) :
    ∃ t2, ctorM (fuel + 1) src = (some (), t2) ∧ Inv t2 ∧
      (∀ x, memF t2 x = true ↔ x ∈ src) ∧
      t2._tree.length ≤ 4 * segLen src 0 src.length := by
  obtain ⟨f2, rfl⟩ : ∃ f2, fuel = f2 + 1 := ⟨fuel - 1, by omega⟩
  obtain ⟨t2, heq, hInv2, hmem, hlen⟩ := addAllM_full f2
    Inv_emptySet hw (by omega) (by simpa [emptySet] using hroom)
  refine ⟨t2, ?_, hInv2, ?_, by simpa [emptySet] using hlen⟩
  · simp only [ctorM]
    exact heq
  · intro x
    rw [hmem x, memF_emptySet x]
    simp

/-!  `toArray` on an invariant-satisfying state: the sorted list of
members. -/

theorem iStrings_ne_nil : ∀ (T : ITree), ∀ w ∈ iStrings T, w ≠ []
  | .nd v l e g, w, hw => by
    simp only [iStrings, List.mem_append, List.mem_map] at hw
    rcases hw with (hw | hw) | hw
    · exact iStrings_ne_nil l w hw
    · rcases hw with hw | ⟨r, _, hw⟩
      · rcases Bool.eq_false_or_eq_true ((v &&& EOS) == EOS) with hb | hb <;>
          rw [hb] at hw <;> simp at hw
        subst hw
        simp
      · rw [← hw]
        simp
    · exact iStrings_ne_nil g w hw

theorem iStrings_small : ∀ (T : ITree), goodT T = true →
    ∀ w ∈ iStrings T, SmallW w
  | .nd v l e g, hg, w, hw => by
    obtain ⟨hv, hl, he, hgg⟩ := goodT_node.mp hg
    have hcp : (v &&& CP_MASK) < CP_MIN_SURROGATE := goodV_cp_lt hv
    simp only [iStrings, List.mem_append, List.mem_map] at hw
    rcases hw with (hw | hw) | hw
    · exact iStrings_small l hl w hw
    · rcases hw with hw | ⟨r, hr, hw⟩
      · rcases Bool.eq_false_or_eq_true ((v &&& EOS) == EOS) with hb | hb <;>
          rw [hb] at hw <;> simp at hw
        subst hw
        intro c hc
        simp at hc
        subst hc
        exact hcp
      · rw [← hw]
        intro c hc
        rcases List.mem_cons.mp hc with rfl | hc
        · exact hcp
        · exact iStrings_small e he r hr c hc
    · exact iStrings_small g hgg w hw

theorem fromCodePoints_id {w : List Nat} (hw : SmallW w) :
    fromCodePoints w = w := by
  unfold fromCodePoints
  induction w with
  | nil => rfl
  | cons c rest ih =>
    simp only [List.map_cons]
    have hc : c < 65536 := by
      have := hw c (by simp)
      simpa [CP_MIN_SURROGATE] using this
    rw [Nat.mod_eq_of_lt hc, ih (smallW_tail hw)]

theorem toArray_Inv {t : TernaryStringSet} (hInv : Inv t) :
    toArray t = (if t._hasEmpty then [[]] else [])
      ++ iStrings (decN t._tree 0) := by
  have hok : treeOk t._tree = true := hInv.1
  unfold toArray
  have hstable : decode t._tree (wrapFuel t) 0 = decN t._tree 0 := by
    apply decode_stable hok _ _ 0 (Or.inl (by norm_num))
    · unfold wrapFuel
      omega
    · omega
  rw [visitCP_decode, hstable, iVisit_strings]
  congr 1
  have hsmall := iStrings_small (decN t._tree 0)
    (decN_goodT hok (Or.inl (by norm_num)))
  rw [List.map_map]
  have hcongr : ∀ w ∈ iStrings (decN t._tree 0),
      (fromCodePoints ∘ fun w => [] ++ w) w = id w := by
    intro w hw
    simp only [Function.comp_def, List.nil_append, id]
    exact fromCodePoints_id (hsmall w hw)
  rw [List.map_congr_left hcongr, List.map_id]

theorem mem_toArray {t : TernaryStringSet} (hInv : Inv t) (x : JsStr) :
    x ∈ toArray t ↔ memF t x = true := by
  have hord : ordB none none (decN t._tree 0) = true := hInv.2.2.1
  rw [toArray_Inv hInv]
  by_cases hx : x = []
  · subst hx
    have hm : memF t [] = t._hasEmpty := by simp [memF]
    rw [hm, List.mem_append]
    constructor
    · intro h
      rcases h with h | h
      · rcases Bool.eq_false_or_eq_true t._hasEmpty with hb | hb <;>
          rw [hb] at h ⊢ <;> simp at h ⊢
      · exact absurd rfl (iStrings_ne_nil _ _ h)
    · intro h
      rw [h]
      simp
  · rw [memF, if_neg hx, List.mem_append]
    rw [← find_mem (decN t._tree 0) none none hord x]
    constructor
    · intro h
      rcases h with h | h
      · rcases Bool.eq_false_or_eq_true t._hasEmpty with hb | hb <;>
          rw [hb] at h <;> simp at h
        exact absurd h hx
      · exact h
    · exact fun h => Or.inr h

theorem toArray_sorted {t : TernaryStringSet} (hInv : Inv t) :
    List.Pairwise (fun x y => strLt x y = true) (toArray t) := by
  have hord : ordB none none (decN t._tree 0) = true := hInv.2.2.1
  rw [toArray_Inv hInv]
  rw [List.pairwise_append]
  refine ⟨?_, strings_sorted _ none none hord, ?_⟩
  · rcases Bool.eq_false_or_eq_true t._hasEmpty with hb | hb <;> rw [hb] <;>
      simp
  · intro x hx y hy
    rcases Bool.eq_false_or_eq_true t._hasEmpty with hb | hb <;>
      rw [hb] at hx <;> simp at hx
    subst hx
    obtain ⟨c, r, rfl⟩ : ∃ c r, y = c :: r := by
      cases y with
      | nil => exact absurd rfl (iStrings_ne_nil _ _ hy)
      | cons c r => exact ⟨c, r, rfl⟩
    rfl

theorem sorted_unique : ∀ {l1 l2 : List (List Nat)},
    List.Pairwise (fun x y => strLt x y = true) l1 →
    List.Pairwise (fun x y => strLt x y = true) l2 →
    (∀ x, x ∈ l1 ↔ x ∈ l2) → l1 = l2
  | [], [], _, _, _ => rfl
  | [], h2 :: t2, _, _, hm => by
    have := (hm h2).mpr (by simp)
    simp at this
  | h1 :: t1, [], _, _, hm => by
    have := (hm h1).mp (by simp)
    simp at this
  | h1 :: t1, h2 :: t2, hp1, hp2, hm => by
    rw [List.pairwise_cons] at hp1 hp2
    have hhd : h1 = h2 := by
      by_contra hne
      have hm1 : h1 ∈ t2 := by
        rcases List.mem_cons.mp ((hm h1).mp (by simp)) with h | h
        · exact absurd h hne
        · exact h
      have hm2 : h2 ∈ t1 := by
        rcases List.mem_cons.mp ((hm h2).mpr (by simp)) with h | h
        · exact absurd h.symm hne
        · exact h
      have hlt1 : strLt h1 h2 = true := hp1.1 h2 hm2
      have hlt2 : strLt h2 h1 = true := hp2.1 h1 hm1
      have := strLt_trans hlt1 hlt2
      rw [strLt_irrefl] at this
      exact Bool.false_ne_true this
    subst hhd
    have hmt : ∀ x, x ∈ t1 ↔ x ∈ t2 := by
      intro x
      constructor
      · intro hx
        rcases List.mem_cons.mp ((hm x).mp (List.mem_cons_of_mem _ hx)) with
          h | h
        · subst h
          have := hp1.1 x hx
          rw [strLt_irrefl] at this
          exact absurd this Bool.false_ne_true
        · exact h
      · intro hx
        rcases List.mem_cons.mp ((hm x).mpr (List.mem_cons_of_mem _ hx)) with
          h | h
        · subst h
          have := hp2.1 x hx
          rw [strLt_irrefl] at this
          exact absurd this Bool.false_ne_true
        · exact h
    rw [sorted_unique hp1.2 hp2.2 hmt]

/-- `balance` on a well-formed non-compact state: success, the logical
content, the size field and the sorted member list are all preserved. -/
theorem balanceM_inv (fuel : Nat) {t : TernaryStringSet} (hInv : Inv t)
    (hf : (toArray t).length + 3 ≤ fuel)
    (hroom : 4 * segLen (toArray t) 0 (toArray t).length ≤ NODE_CEILING) :
    ∃ t2, balanceM (fuel + 1) t = (some (), t2) ∧ Inv t2 ∧
      t2._size = t._size ∧ t2._hasEmpty = t._hasEmpty ∧
      (∀ x, memF t2 x = memF t x) ∧ toArray t2 = toArray t ∧
      t2._tree.length ≤ 4 * segLen (toArray t) 0 (toArray t).length := by
  obtain ⟨f2, rfl⟩ : ∃ f2, fuel = f2 + 1 := ⟨fuel - 1, by omega⟩
  have hw : ∀ w ∈ toArray t, SmallW w := by
    intro w hw
    rw [toArray_Inv hInv] at hw
    rcases List.mem_append.mp hw with h | h
    · rcases Bool.eq_false_or_eq_true t._hasEmpty with hb | hb <;>
        rw [hb] at h <;> simp at h
      subst h
      intro c hc
      simp at hc
    · exact iStrings_small _ (decN_goodT hInv.1 (Or.inl (by norm_num))) w h
  obtain ⟨fresh, heq, hInvF, hmemF, hlenF⟩ := ctorM_ok f2 hw
    (by omega) hroom
  have hInv2 : Inv { t with
      _tree := fresh._tree
      _compact := false } :=
    ⟨hInvF.1, hInvF.2.1, hInvF.2.2.1, rfl⟩
  have hmem2 : ∀ x, memF { t with
      _tree := fresh._tree
      _compact := false } x = memF t x := by
    intro x
    by_cases hx : x = []
    · subst hx
      simp [memF]
    · have h2 : memF { t with
          _tree := fresh._tree
          _compact := false } x = memF fresh x := by
        rw [memF, memF, if_neg hx, if_neg hx]
      rw [h2]
      have h3 := hmemF x
      have h4 := mem_toArray hInv x
      cases hbf : memF fresh x <;> cases hbt : memF t x
      · rfl
      · exact absurd (h3.mpr (h4.mpr hbt))
          (by rw [hbf]; exact Bool.false_ne_true)
      · exact absurd (h4.mp (h3.mp hbf))
          (by rw [hbt]; exact Bool.false_ne_true)
      · rfl
  refine ⟨{ t with
    _tree := fresh._tree
    _compact := false }, ?_, hInv2, rfl, rfl, hmem2, ?_, hlenF⟩
  · simp only [balanceM]
    simp only [heq]
  · apply sorted_unique (toArray_sorted hInv2) (toArray_sorted hInv)
    intro x
    rw [mem_toArray hInv2 x, mem_toArray hInv x, hmem2 x]

/-!  A crude node-count bound: the member list is never longer than the
array, which makes the fixed fuel of the public wrappers sufficient. -/

theorem iStrings_length_eq : ∀ (T : ITree),
    (iStrings T).length = iCount T
  | .nil => rfl
  | .nd v l e g => by
    simp only [iStrings, iCount, List.length_append, List.length_map,
      iStrings_length_eq l, iStrings_length_eq e, iStrings_length_eq g]
    rcases Bool.eq_false_or_eq_true ((v &&& EOS) == EOS) with hb | hb <;>
      rw [hb] <;> simp <;> omega

theorem iCount_le_reach (tr : List Nat) : ∀ (f node : Nat),
    iCount (decode tr f node) ≤ (reachL tr f node).length := by
  intro f
  induction f with
  | zero =>
    intro node
    simp [decode, reachL, iCount]
  | succ f ih =>
    intro node
    by_cases hlen : tr.length ≤ node
    · simp [decode, reachL, hlen, iCount]
    · simp only [decode, reachL, if_neg hlen, iCount, List.length_cons,
        List.length_append]
      have h1 := ih (tval tr (node + 1))
      have h2 := ih (tval tr (node + 2))
      have h3 := ih (tval tr (node + 3))
      rcases Bool.eq_false_or_eq_true ((tval tr node &&& EOS) == EOS) with
        hb | hb <;> rw [hb] <;> simp <;> omega

theorem toArray_length_le {t : TernaryStringSet} (hInv : Inv t) :
    (toArray t).length ≤ t._tree.length + 1 := by
  have hok := hInv.1
  have hnd := hInv.2.1
  rw [toArray_Inv hInv]
  have h1 : (iStrings (decN t._tree 0)).length ≤ (reachN t._tree 0).length := by
    rw [iStrings_length_eq]
    exact iCount_le_reach t._tree _ 0
  have hsub : reachN t._tree 0 ⊆ List.range t._tree.length := by
    intro b hb
    exact List.mem_range.mpr (reachN_range hok (Or.inl (by norm_num)) b hb).2.1
  have h2 : (reachN t._tree 0).length ≤ t._tree.length := by
    have := List.Subperm.length_le (List.subperm_of_subset hnd hsub)
    simpa using this
  rcases Bool.eq_false_or_eq_true t._hasEmpty with hb | hb <;> rw [hb] <;>
    simp <;> omega

/-- C4: on a well-formed non-compact state with room to rebuild,
`balance()` succeeds and changes neither logical membership (`has`, the
empty string included) nor `size`, and `toArray()` afterwards returns
exactly the array it returned before. -/
theorem claim_C4 {t : TernaryStringSet} (hInv : Inv t)
    (hroom : 4 * segLen (toArray t) 0 (toArray t).length ≤ NODE_CEILING) :
    ∃ t2, balance t = (some (), t2) ∧
      t2._size = t._size ∧
      toArray t2 = toArray t ∧
      (∀ s, SmallW s → has t2 s = has t s) := by
  have hlen := toArray_length_le hInv
  obtain ⟨t2, heq, hInv2, hsz, hhe, hmem, hta, _⟩ :=
    balanceM_inv (t._tree.length + 31) hInv (by omega) hroom
  refine ⟨t2, ?_, hsz, hta, ?_⟩
  · show balanceM (t._tree.length + 31 + 1) t = (some (), t2)
    exact heq
  · intro s hs
    by_cases hne : s = []
    · subst hne
      rw [show has t2 [] = t2._hasEmpty from by simp [has],
        show has t [] = t._hasEmpty from by simp [has], hhe]
    · rw [has_iFind hInv2.1 hs hne, has_iFind hInv.1 hs hne]
      have h1 := hmem s
      rw [memF, memF, if_neg hne, if_neg hne] at h1
      exact h1

theorem claim_C4_witness :
    Inv emptySet ∧
    4 * segLen (toArray emptySet) 0 (toArray emptySet).length ≤
      NODE_CEILING ∧
    (∃ t2, balance emptySet = (some (), t2) ∧
      t2._size = emptySet._size ∧
      toArray t2 = toArray emptySet ∧
      (∀ s, SmallW s → has t2 s = has emptySet s)) :=
  ⟨Inv_emptySet, by decide, claim_C4 Inv_emptySet (by decide)⟩

/-!  The public `add`/`delete` wrappers against logical membership. -/

theorem has_memF {t : TernaryStringSet} (hInv : Inv t) {s : JsStr}
    (hs : SmallW s) : has t s = memF t s := by
  by_cases hne : s = []
  · subst hne
    simp [has, memF]
  · rw [has_iFind hInv.1 hs hne, memF, if_neg hne]

/-- `delete` on a well-formed non-compact state and a BMP string: the
returned flag is the prior membership, the membership function loses
exactly `s`, the size field adjusts by the flag, and the invariant is
preserved. -/
theorem deleteM_inv (fuel : Nat) {t : TernaryStringSet} {s : JsStr}
    (hInv : Inv t) (hs : SmallW s) :
    ∃ t2, deleteM (fuel + 1) t s = (some (memF t s), t2) ∧ Inv t2 ∧
      (∀ x, memF t2 x = true ↔ (x ≠ s ∧ memF t x = true)) ∧
      t2._size = t._size - (if memF t s = true then 1 else 0) ∧
      t2._tree.length = t._tree.length := by
  obtain ⟨hok, hnd, hord, hcomp⟩ := hInv
  by_cases hne : s = []
  · subst hne
    simp only [deleteM]
    rw [if_pos (by simp)]
    have hm : memF t [] = t._hasEmpty := by simp [memF]
    by_cases hhe : t._hasEmpty = true
    · rw [if_pos hhe]
      refine ⟨{ t with
        _hasEmpty := false
        _size := t._size - 1 }, by rw [hm, hhe],
        ⟨hok, hnd, hord, hcomp⟩, ?_, ?_, rfl⟩
      · intro x
        by_cases hx : x = []
        · subst hx
          constructor
          · intro h
            rw [show memF { t with
                _hasEmpty := false
                _size := t._size - 1 } [] = false from by simp [memF]] at h
            exact absurd h Bool.false_ne_true
          · intro h
            exact absurd rfl h.1
        · rw [show memF { t with
              _hasEmpty := false
              _size := t._size - 1 } x = memF t x from by
            rw [memF, memF, if_neg hx, if_neg hx]]
          exact ⟨fun h => ⟨hx, h⟩, fun h => h.2⟩
      · rw [hm, hhe]
        simp
    · rw [if_neg hhe]
      have hm0 : memF t [] = false := by
        rw [hm]
        exact Bool.of_not_eq_true hhe
      refine ⟨t, by rw [hm0], ⟨hok, hnd, hord, hcomp⟩, ?_, ?_, rfl⟩
      · intro x
        by_cases hx : x = []
        · subst hx
          rw [hm0]
          constructor
          · intro h
            exact absurd h Bool.false_ne_true
          · intro h
            exact absurd h.2 Bool.false_ne_true
        · exact ⟨fun h => ⟨hx, h⟩, fun h => h.2⟩
      · rw [hm0]
        simp
  · obtain ⟨t2, heq, hhe, hcp, hok2, hnd2, hdec, hsz, hlen, _⟩ :=
      deleteM_ok fuel hok hnd hcomp hs hne
    have hgt : goodT (decN t._tree 0) = true :=
      decN_goodT hok (Or.inl (by norm_num))
    have hInv2 : Inv t2 := by
      refine ⟨hok2, hnd2, ?_, by rw [hcp]; exact hcomp⟩
      rw [hdec]
      exact iDelW_ordB _ none none s hgt hord
    have hmemb : has t s = memF t s :=
      has_memF ⟨hok, hnd, hord, hcomp⟩ hs
    refine ⟨t2, ?_, hInv2, ?_, ?_, hlen⟩
    · rw [heq, hmemb]
    · intro x
      by_cases hx : x = []
      · subst hx
        rw [show memF t2 [] = t2._hasEmpty from by simp [memF],
          show memF t [] = t._hasEmpty from by simp [memF], hhe]
        exact ⟨fun h => ⟨fun h2 => hne h2.symm, h⟩, fun h => h.2⟩
      · rw [memF, memF, if_neg hx, if_neg hx, hdec, iDelW_find _ s x hgt]
        constructor
        · intro h
          rw [Bool.and_eq_true] at h
          exact ⟨by simpa using h.1, h.2⟩
        · intro h
          rw [Bool.and_eq_true]
          exact ⟨by simpa using h.1, h.2⟩
    · rw [hsz, hmemb]

/-- C1: on a well-formed non-compact state with capacity for the new
string, `add(s)` succeeds, afterwards `has(s)` is true, and `size`
increased by exactly 1 when `s` was absent and 0 when it was present. -/
theorem claim_C1 {t : TernaryStringSet} {s : JsStr} (hInv : Inv t)
    (hs : SmallW s)
    (hroom : t._tree.length + 4 * s.length ≤ NODE_CEILING) :
    ∃ t2, add t s = (some (), t2) ∧ has t2 s = true ∧
      t2._size = t._size + (if has t s = true then 0 else 1) := by
  obtain ⟨t2, heq, hInv2, hmem, hsz, _⟩ :=
    addM_inv (t._tree.length + s.length + 31) hInv hs hroom
  refine ⟨t2, heq, ?_, ?_⟩
  · rw [has_memF hInv2 hs]
    exact (hmem s).mpr (Or.inl rfl)
  · rw [hsz, has_memF hInv hs]

theorem claim_C1_witness :
    Inv emptySet ∧ SmallW [97] ∧
    emptySet._tree.length + 4 * [97].length ≤ NODE_CEILING ∧
    (∃ t2, add emptySet [97] = (some (), t2) ∧ has t2 [97] = true ∧
      t2._size = emptySet._size +
        (if has emptySet [97] = true then 0 else 1)) :=
  ⟨Inv_emptySet, by intro c hc; simp at hc; subst hc; decide, by decide,
    claim_C1 Inv_emptySet (by intro c hc; simp at hc; subst hc; decide)
      (by decide)⟩

/-- C2: on a well-formed non-compact state and a BMP string, `delete(s)`
returns exactly the prior membership of `s`, afterwards `has(s)` is false,
and `size` decreased by exactly 1 when `s` was present and 0 when it was
absent. -/
theorem claim_C2 {t : TernaryStringSet} {s : JsStr} (hInv : Inv t)
    (hs : SmallW s) :
    ∃ t2, delete t s = (some (has t s), t2) ∧ has t2 s = false ∧
      t2._size = t._size - (if has t s = true then 1 else 0) := by
  obtain ⟨t2, heq, hInv2, hmem, hsz, _⟩ :=
    deleteM_inv (t._tree.length + s.length + 31) hInv hs
  have hb := has_memF hInv hs
  refine ⟨t2, ?_, ?_, by rw [hsz, hb]⟩
  · rw [show t._tree.length + s.length + 31 + 1 =
      t._tree.length + s.length + 32 from by omega] at heq
    simp only [delete]
    rw [hb]
    exact heq
  · rw [has_memF hInv2 hs]
    cases hm2 : memF t2 s
    · rfl
    · exact absurd rfl ((hmem s).mp hm2).1

theorem claim_C2_witness :
    Inv emptySet ∧ SmallW [98] ∧
    (∃ t2, delete emptySet [98] = (some (has emptySet [98]), t2) ∧
      has t2 [98] = false ∧
      t2._size = emptySet._size -
        (if has emptySet [98] = true then 1 else 0)) :=
  ⟨Inv_emptySet, by intro c hc; simp at hc; subst hc; decide,
    claim_C2 Inv_emptySet (by intro c hc; simp at hc; subst hc; decide)⟩

/-!  `deleteAll` with a null element: the prefix before the null is
processed (deleted) before the error propagates, so the deletions
persist. -/

theorem deleteAllM_prefix : ∀ (fuel : Nat) (t : TernaryStringSet)
    (els : List JsStr) (rest : List (Option JsStr)) (acc : Bool),
    Inv t → (∀ w ∈ els, SmallW w) → els.length + 2 ≤ fuel →
    ∃ t2, deleteAllM fuel t (els.map Option.some ++ none :: rest) acc =
        (none, t2) ∧ Inv t2 ∧
      (∀ x, memF t2 x = true ↔ (memF t x = true ∧ x ∉ els))
  | 0, t, els, rest, acc => by
    intro _ _ hf
    omega
  | fuel + 1, t, [], rest, acc => by
    intro hInv _ _
    refine ⟨t, rfl, hInv, ?_⟩
    intro x
    simp
  | fuel + 1, t, el :: els, rest, acc => by
    intro hInv hsm hf
    obtain ⟨f2, rfl⟩ : ∃ f2, fuel = f2 + 1 := ⟨fuel - 1, by omega⟩
    obtain ⟨t1, heq1, hInv1, hmem1, _, _⟩ := deleteM_inv f2 hInv
      (hsm el (by simp))
    obtain ⟨t2, heq2, hInv2, hmem2⟩ := deleteAllM_prefix (f2 + 1) t1 els rest
      (memF t el && acc) hInv1 (fun w hw => hsm w (by simp [hw]))
      (by simp at hf ⊢; omega)
    refine ⟨t2, ?_, hInv2, ?_⟩
    · simp only [List.map_cons, List.cons_append, deleteAllM]
      simp only [heq1]
      exact heq2
    · intro x
      rw [hmem2 x, hmem1 x]
      constructor
      · intro h
        exact ⟨h.1.2, by
          simp only [List.mem_cons, not_or]
          exact ⟨h.1.1, h.2⟩⟩
      · intro h
        have hx := h.2
        simp only [List.mem_cons, not_or] at hx
        exact ⟨⟨hx.1, h.1⟩, hx.2⟩

/-- C7 (amended): `deleteAll` is not atomic.  Called on a collection whose
first null element follows the string prefix `els`, it raises, and the
final state holds exactly the prior members minus `els`: the prefix
deletions persist through the error.  (`claim_C7_counterexample` exhibits
the resulting partial-failure state concretely.) -/
theorem claim_C7 {t : TernaryStringSet} {els : List JsStr}
    {rest : List (Option JsStr)} (hInv : Inv t)
    (hsm : ∀ w ∈ els, SmallW w) :
    ∃ t2, deleteAll t (els.map Option.some ++ none :: rest) = (none, t2) ∧
      (∀ x, SmallW x → (has t2 x = true ↔ (has t x = true ∧ x ∉ els))) := by
  obtain ⟨t2, heq, hInv2, hmem⟩ := deleteAllM_prefix
    (t._tree.length + (els.map Option.some ++ none :: rest).length + 32) t
    els rest true hInv hsm (by simp; omega)
  refine ⟨t2, heq, ?_⟩
  intro x hx
  rw [has_memF hInv2 hx, has_memF hInv hx]
  exact hmem x

theorem claim_C7_witness :
    Inv ((add emptySet [120]).2) ∧
    (∀ w ∈ [[120]], SmallW w) ∧
    (∃ t2, deleteAll ((add emptySet [120]).2)
        (([[120]] : List JsStr).map Option.some ++ none :: []) =
        (none, t2) ∧
      (∀ x, SmallW x → (has t2 x = true ↔
        (has ((add emptySet [120]).2) x = true ∧ x ∉ ([[120]] : List JsStr))))) := by
  have h1 : Inv ((add emptySet [120]).2) := by
    unfold Inv
    exact ⟨by decide, by decide, by decide, by decide⟩
  have h2 : ∀ w ∈ [[120]], SmallW w := by
    intro w hw
    simp at hw
    subst hw
    intro c hc
    simp at hc
    subst hc
    decide
  exact ⟨h1, h2, claim_C7 h1 h2⟩

/-!  The end-of-string block count behind the size bookkeeping. -/

theorem alignedIdxs_nodup (len : Nat) : (alignedIdxs len).Nodup := by
  unfold alignedIdxs
  exact List.Nodup.map (fun a b hh => by omega) (List.nodup_range _)

theorem countP_flip {q q2 : Nat → Bool} {p : Nat} : ∀ {l : List Nat},
    l.Nodup → p ∈ l → (∀ i ∈ l, i ≠ p → q i = q2 i) →
    q p = true → q2 p = false →
    l.countP q = l.countP q2 + 1 := by
  intro l
  induction l with
  | nil => intro _ hp; simp at hp
  | cons a l ih =>
    intro hnd hp hcong hq hq2
    rw [List.nodup_cons] at hnd
    rcases List.mem_cons.mp hp with rfl | hp
    · rw [List.countP_cons, List.countP_cons, hq, hq2]
      have hsame : l.countP q = l.countP q2 := by
        apply List.countP_congr
        intro i hi
        rw [hcong i (by simp [hi]) (fun he => hnd.1 (by rw [← he]; exact hi))]
      rw [hsame]
      simp
    · have hne : a ≠ p := fun he => hnd.1 (by rw [he]; exact hp)
      rw [List.countP_cons, List.countP_cons,
        hcong a (by simp) hne]
      rw [ih hnd.2 hp (fun i hi => hcong i (by simp [hi])) hq hq2]
      omega

theorem eosCount_countP (tr : List Nat) :
    eosCount tr =
      (alignedIdxs tr.length).countP
        (fun i => decide ((tval tr i) &&& EOS ≠ 0)) := by
  unfold eosCount
  rw [List.countP_eq_length_filter]

theorem eosCount_set_setEOS {tr : List Nat} {p v : Nat} (h4 : p % 4 = 0)
    (hlt : p < tr.length) (h0 : (tval tr p) &&& EOS = 0)
    (hv : v &&& EOS ≠ 0) :
    eosCount (tr.set p v) = eosCount tr + 1 := by
  rw [eosCount_countP, eosCount_countP, List.length_set]
  apply countP_flip (alignedIdxs_nodup _) (mem_alignedIdxs.mpr ⟨h4, hlt⟩)
  · intro i hi hne
    rw [tval_set_ne hne]
  · simp only [decide_eq_true_eq]
    rw [tval_set_eq hlt]
    exact hv
  · simp only [decide_eq_false_iff_not, Decidable.not_not]
    exact h0

theorem eosCount_set_clearEOS {tr : List Nat} {p v : Nat} (h4 : p % 4 = 0)
    (hlt : p < tr.length) (h0 : (tval tr p) &&& EOS ≠ 0)
    (hv : v &&& EOS = 0) :
    eosCount tr = eosCount (tr.set p v) + 1 := by
  rw [eosCount_countP, eosCount_countP, List.length_set]
  apply countP_flip (alignedIdxs_nodup _) (mem_alignedIdxs.mpr ⟨h4, hlt⟩)
  · intro i hi hne
    rw [tval_set_ne hne]
  · simp only [decide_eq_true_eq]
    exact h0
  · simp only [decide_eq_false_iff_not, Decidable.not_not]
    rw [tval_set_eq hlt]
    exact hv

theorem eosCount_set_unaligned {tr : List Nat} {p : Nat} (h : p % 4 ≠ 0)
    (v : Nat) : eosCount (tr.set p v) = eosCount tr := by
  unfold eosCount
  rw [List.length_set]
  apply congrArg
  apply List.filter_congr
  intro i hi
  have hi4 : i % 4 = 0 := (mem_alignedIdxs.mp hi).1
  rw [tval_set_ne (fun he => h (by rw [← he]; exact hi4))]

theorem alignedIdxs_append4 {len : Nat} (h : len % 4 = 0) :
    alignedIdxs (len + 4) = alignedIdxs len ++ [len] := by
  unfold alignedIdxs
  rw [show (len + 4 + 3) / 4 = (len + 3) / 4 + 1 from by omega,
    List.range_succ, List.map_append]
  simp only [List.map_cons, List.map_nil]
  congr 2
  omega

theorem eosCount_append_block {tr : List Nat} (h : tr.length % 4 = 0)
    (v a b c : Nat) :
    eosCount (tr ++ [v, a, b, c]) =
      eosCount tr + (if v &&& EOS ≠ 0 then 1 else 0) := by
  unfold eosCount
  rw [show (tr ++ [v, a, b, c]).length = tr.length + 4 from by simp,
    alignedIdxs_append4 h, List.filter_append, List.length_append]
  congr 1
  · apply congrArg
    apply List.filter_congr
    intro i hi
    rw [tval_append_left (mem_alignedIdxs.mp hi).2]
  · have hv0 : tval (tr ++ [v, a, b, c]) tr.length = v := by
      rw [tval_append_right (le_refl _)]
      simp [tval]
    simp only [List.filter_cons, List.filter_nil, hv0]
    by_cases hv : v &&& EOS ≠ 0
    · rw [if_pos (by simpa using hv), if_pos hv]
      rfl
    · rw [if_neg (by simpa using hv), if_neg hv]
      rfl

theorem eosCount_chain : ∀ (w : List Nat) (tr : List Nat),
    tr.length % 4 = 0 → SmallW w → w ≠ [] →
    eosCount (tr ++ chainBlocks tr.length w) = eosCount tr + 1
  | [], _, _, _, hne => absurd rfl hne
  | [c], tr, h4, hsm, _ => by
    show eosCount (tr ++ [c ||| EOS, NUL, NUL, NUL]) = _
    rw [eosCount_append_block h4, if_pos]
    rw [or_eos_and_eos]
    unfold EOS
    decide
  | c :: c2 :: rest, tr, h4, hsm, _ => by
    rw [chainBlocks_cons, ← List.append_assoc]
    have hrec := eosCount_chain (c2 :: rest)
      (tr ++ [c, NUL, tr.length + 4, NUL]) (by simp; omega)
      (smallW_tail hsm) (by simp)
    rw [show (tr ++ [c, NUL, tr.length + 4, NUL]).length = tr.length + 4 from
      by simp] at hrec
    rw [hrec, eosCount_append_block h4, if_neg]
    simp only [Decidable.not_not]
    exact and_eos_of_lt (lt_trans (hsm c (by simp)) surrogate_lt_eos)

theorem sizeInv_emptySet : sizeInv emptySet := by
  unfold sizeInv
  decide

/-- `add` (BMP string) preserves the size bookkeeping. -/
theorem addM_sizeInv {fuel : Nat} {t : TernaryStringSet} {s : JsStr}
    (hInv : Inv t) (hs : SmallW s) (hsz : sizeInv t)
    (hroom : t._tree.length + 4 * s.length ≤ NODE_CEILING)
    {t2 : TernaryStringSet} (h : addM (fuel + 1) t s = (some (), t2)) :
    sizeInv t2 := by
  obtain ⟨hok, hnd, hord, hcomp⟩ := hInv
  have h4 : t._tree.length % 4 = 0 := (treeOk_parts hok).1
  by_cases hne : s = []
  · subst hne
    simp only [addM] at h
    rw [if_pos (by simp)] at h
    by_cases hhe : t._hasEmpty = true
    · rw [show (!t._hasEmpty) = false from by rw [hhe]; rfl] at h
      rw [if_neg (by simp)] at h
      injection h with h1 h2
      rw [← h2]
      exact hsz
    · rw [show (!t._hasEmpty) = true from by
        rw [Bool.of_not_eq_true hhe]; rfl] at h
      rw [if_pos rfl] at h
      injection h with h1 h2
      rw [← h2]
      unfold sizeInv at hsz
      rw [Bool.of_not_eq_true hhe] at hsz
      simp only [Bool.false_eq_true, if_false, add_zero] at hsz
      show t._size + 1 = (eosCount t._tree : Int) +
        (if (true : Bool) then 1 else 0)
      rw [hsz]
      simp
  · obtain ⟨t2x, heq, _, _, _, _, _, _, _, hshape⟩ :=
      addM_ok fuel hok hnd hcomp hs hne hroom
    rw [h] at heq
    injection heq with h1 h2
    subst h2
    rcases hshape with rfl | ⟨p, hp, h0, rfl⟩ | ⟨hlen, rfl⟩ |
      ⟨p, k, w2, hp, hk1, hk3, hnul, hw2ne, hw2sm, hw2len, rfl⟩
    · exact hsz
    · obtain ⟨hple, hplt, hp4⟩ := reachN_range hok (Or.inl (by norm_num)) p hp
      unfold sizeInv at hsz
      show t._size + 1 =
        (eosCount (t._tree.set p ((tval t._tree p) ||| EOS)) : Int) +
        (if t._hasEmpty then 1 else 0)
      rw [eosCount_set_setEOS hp4 hplt h0 (by
        rw [or_eos_and_eos]
        unfold EOS
        decide), hsz]
      push_cast
      ring
    · unfold sizeInv at hsz
      show t._size + 1 =
        (eosCount (t._tree ++ chainBlocks t._tree.length (s.drop 0)) : Int) +
        (if t._hasEmpty then 1 else 0)
      rw [List.drop_zero, eosCount_chain s t._tree h4 hs hne, hsz]
      push_cast
      ring
    · obtain ⟨hple, hplt, hp4⟩ := reachN_range hok (Or.inl (by norm_num)) p hp
      unfold sizeInv at hsz
      show t._size + 1 =
        (eosCount ((t._tree ++ chainBlocks t._tree.length w2).set (p + k)
          t._tree.length) : Int) +
        (if t._hasEmpty then 1 else 0)
      rw [eosCount_set_unaligned (by omega) _,
        eosCount_chain w2 t._tree h4 hw2sm hw2ne, hsz]
      push_cast
      ring

/-- `delete` (BMP string) preserves the size bookkeeping. -/
theorem deleteM_sizeInv {fuel : Nat} {t : TernaryStringSet} {s : JsStr}
    (hInv : Inv t) (hs : SmallW s) (hsz : sizeInv t)
    {r : Bool} {t2 : TernaryStringSet}
    (h : deleteM (fuel + 1) t s = (some r, t2)) : sizeInv t2 := by
  obtain ⟨hok, hnd, hord, hcomp⟩ := hInv
  by_cases hne : s = []
  · subst hne
    simp only [deleteM] at h
    rw [if_pos (by simp)] at h
    by_cases hhe : t._hasEmpty = true
    · rw [if_pos hhe] at h
      injection h with h1 h2
      rw [← h2]
      unfold sizeInv at hsz
      rw [hhe] at hsz
      simp only [if_pos rfl] at hsz
      show t._size - 1 = (eosCount t._tree : Int) +
        (if (false : Bool) then 1 else 0)
      rw [hsz]
      simp
    · rw [if_neg hhe] at h
      injection h with h1 h2
      rw [← h2]
      exact hsz
  · obtain ⟨t2x, heq, _, _, _, _, _, _, _, hshape⟩ :=
      deleteM_ok fuel hok hnd hcomp hs hne
    rw [h] at heq
    injection heq with h1 h2
    subst h2
    rcases hshape with rfl | ⟨p, hp, hEOS, rfl⟩
    · exact hsz
    · obtain ⟨hple, hplt, hp4⟩ := reachN_range hok (Or.inl (by norm_num)) p hp
      unfold sizeInv at hsz
      have hcl : ((tval t._tree p) &&& CP_MASK) &&& EOS = 0 := by
        apply and_eos_of_lt
        exact lt_of_le_of_lt Nat.and_le_right (by decide)
      rw [eosCount_set_clearEOS hp4 hplt (by rw [hEOS]; unfold EOS; decide)
        hcl] at hsz
      show t._size - 1 =
        (eosCount (t._tree.set p ((tval t._tree p) &&& CP_MASK)) : Int) +
        (if t._hasEmpty then 1 else 0)
      rw [hsz]
      push_cast
      ring


/-!  The Hamming-distance fast path: a distance at least the pattern
length degenerates into a pure length filter over the members. -/

theorem visit_iStrings {t : TernaryStringSet} (hok : treeOk t._tree = true) :
    visitCP t._tree (wrapFuel t) 0 [] = iStrings (decN t._tree 0) := by
  have hstable : decode t._tree (wrapFuel t) 0 = decN t._tree 0 := by
    apply decode_stable hok _ _ 0 (Or.inl (by norm_num))
    · unfold wrapFuel
      omega
    · omega
  rw [visitCP_decode, hstable, iVisit_strings]
  have hcongr : ∀ w ∈ iStrings (decN t._tree 0),
      (fun w => [] ++ w) w = id w := by
    intro w _
    simp
  rw [List.map_congr_left hcongr, List.map_id]

/-- C5: with a distance at least the pattern length,
`getWithinHammingDistanceOf` returns exactly the member strings whose
code-point length equals the pattern length, in sorted order. -/
theorem claim_C5 {t : TernaryStringSet} (hInv : Inv t) (pat : JsStr)
    {d : Nat} (hd : pat.length ≤ d) (hNUL : pat.length ≤ NUL) :
    getWithinHammingDistanceOf t (some pat) d =
      some ((toArray t).filter (fun w => w.length = pat.length)) := by
  by_cases hpat : pat = []
  · subst hpat
    simp only [getWithinHammingDistanceOf]
    rw [if_pos (by simp)]
    rw [toArray_Inv hInv]
    have h2 : (iStrings (decN t._tree 0)).filter
        (fun w => decide (w.length = ([] : JsStr).length)) = [] := by
      rw [List.filter_eq_nil_iff]
      intro w hw
      have hne := iStrings_ne_nil _ w hw
      simp only [List.length_nil, decide_eq_true_eq]
      intro hlen
      exact hne (List.eq_nil_of_length_eq_zero hlen)
    rw [List.filter_append, h2, List.append_nil]
    rw [show has t [] = t._hasEmpty from by simp [has]]
    rcases Bool.eq_false_or_eq_true t._hasEmpty with hb | hb <;> rw [hb] <;>
      simp
  · have hplen : pat.length ≠ 0 :=
      fun h => hpat (List.eq_nil_of_length_eq_zero h)
    have hmin : pat.length ≤ checkDistance d := by
      unfold checkDistance
      exact le_min hd hNUL
    simp only [getWithinHammingDistanceOf]
    rw [show (decide (checkDistance d < 1) ||
        decide (pat.length = 0)) = false from by
      simp only [Bool.or_eq_false_iff, decide_eq_false_iff_not]
      exact ⟨by omega, hplen⟩]
    simp only [Bool.false_eq_true, if_false]
    rw [if_pos hmin]
    rw [visit_iStrings hInv.1, toArray_Inv hInv, List.filter_append]
    have h1 : (if t._hasEmpty = true then [[]] else ([] : List JsStr)).filter
        (fun w => decide (w.length = pat.length)) = [] := by
      have hdec : decide (List.length ([] : List Nat) = pat.length) = false := by
        rw [decide_eq_false_iff_not]
        simp only [List.length_nil]
        exact fun h => hplen h.symm
      rcases Bool.eq_false_or_eq_true t._hasEmpty with hb | hb <;> rw [hb]
      · rw [if_pos rfl]
        simp [List.filter_cons, hdec]
        omega
      · rfl
    rw [h1, List.nil_append]
    have hsm := iStrings_small (decN t._tree 0)
      (decN_goodT hInv.1 (Or.inl (by norm_num)))
    have hcongr : ∀ w ∈ (iStrings (decN t._tree 0)).filter
        (fun w => decide (w.length = pat.length)),
        fromCodePoints w = id w := by
      intro w hw
      exact fromCodePoints_id (hsm w (List.mem_of_mem_filter hw))
    rw [List.map_congr_left hcongr, List.map_id]

theorem claim_C5_witness :
    Inv ((add emptySet [97]).2) ∧ [97].length ≤ 1 ∧ [97].length ≤ NUL ∧
    getWithinHammingDistanceOf ((add emptySet [97]).2) (some [97]) 1 =
      some ((toArray ((add emptySet [97]).2)).filter
        (fun w => w.length = [97].length)) := by
  have h1 : Inv ((add emptySet [97]).2) := by
    unfold Inv
    exact ⟨by decide, by decide, by decide, by decide⟩
  exact ⟨h1, by decide, by decide, claim_C5 h1 [97] (by decide) (by decide)⟩

/-!  The bisection insert on sorted single-code-point strings builds a
perfectly balanced binary tree along the less/greater axis. -/

theorem iAddAll_left (strings : List JsStr) {v : Nat} :
    ∀ (fuel start stop : Nat) (l e g : ITree),
    (∀ j, start ≤ j → j < stop →
      ∃ c, strings.getD j [] = [c] ∧ c < v &&& CP_MASK) →
    iAddAll strings fuel start stop (.nd v l e g) =
      .nd v (iAddAll strings fuel start stop l) e g
  | 0, start, stop, l, e, g, _ => rfl
  | fuel + 1, start, stop, l, e, g, hseg => by
    by_cases hend : stop ≤ start
    · simp [iAddAll, hend]
    · simp only [iAddAll, if_neg hend]
      obtain ⟨c, hc1, hc2⟩ := hseg (start + (stop - 1 - start) / 2)
        (by omega) (by omega)
      rw [hc1]
      rw [show iInsW (ITree.nd v l e g) [c] =
          .nd v (iInsW l [c]) e g from by
        simp only [iInsW]
        rw [if_pos hc2]]
      rw [iAddAll_left strings fuel start _ _ e g
        (fun j hj1 hj2 => hseg j hj1 (by omega))]
      rw [iAddAll_left strings fuel _ _ _ e g
        (fun j hj1 hj2 => hseg j (by omega) (by omega))]

theorem iAddAll_right (strings : List JsStr) {v : Nat} :
    ∀ (fuel start stop : Nat) (l e g : ITree),
    (∀ j, start ≤ j → j < stop →
      ∃ c, strings.getD j [] = [c] ∧ v &&& CP_MASK < c) →
    iAddAll strings fuel start stop (.nd v l e g) =
      .nd v l e (iAddAll strings fuel start stop g)
  | 0, start, stop, l, e, g, _ => rfl
  | fuel + 1, start, stop, l, e, g, hseg => by
    by_cases hend : stop ≤ start
    · simp [iAddAll, hend]
    · simp only [iAddAll, if_neg hend]
      obtain ⟨c, hc1, hc2⟩ := hseg (start + (stop - 1 - start) / 2)
        (by omega) (by omega)
      rw [hc1]
      rw [show iInsW (ITree.nd v l e g) [c] =
          .nd v l e (iInsW g [c]) from by
        simp only [iInsW]
        rw [if_neg (by omega), if_pos hc2]]
      rw [iAddAll_right strings fuel start _ l e _
        (fun j hj1 hj2 => hseg j hj1 (by omega))]
      rw [iAddAll_right strings fuel _ _ l e _
        (fun j hj1 hj2 => hseg j (by omega) (by omega))]

theorem map_single_getD {cs : List Nat} {j : Nat} (h : j < cs.length) :
    (cs.map (fun c => [c])).getD j [] = [cs.getD j 0] := by
  rw [List.getD_eq_getElem _ _ (by simpa using h),
    List.getD_eq_getElem _ _ h]
  simp

theorem iAddAll_bisect {cs : List Nat}
    (hsort : ∀ i j, i < j → j < cs.length → cs.getD i 0 < cs.getD j 0)
    (hsm : ∀ c ∈ cs, c < CP_MIN_SURROGATE) :
    ∀ (fuel start stop : Nat), stop ≤ cs.length →
    iAddAll (cs.map (fun c => [c])) fuel start stop .nil =
      bisectT cs fuel start stop
  | 0, start, stop, _ => rfl
  | fuel + 1, start, stop, hstop => by
    by_cases hend : stop ≤ start
    · simp [iAddAll, bisectT, hend]
    · simp only [iAddAll, bisectT, if_neg hend]
      have hmid1 : start + (stop - 1 - start) / 2 < cs.length := by omega
      have hcm : (cs.getD (start + (stop - 1 - start) / 2) 0) ∈ cs := by
        rw [List.getD_eq_getElem _ _ hmid1]
        exact List.getElem_mem hmid1
      have hsmall : cs.getD (start + (stop - 1 - start) / 2) 0 < EOS :=
        lt_trans (hsm _ hcm) surrogate_lt_eos
      have hvcp : ((cs.getD (start + (stop - 1 - start) / 2) 0) ||| EOS) &&&
          CP_MASK = cs.getD (start + (stop - 1 - start) / 2) 0 :=
        or_eos_and_cpmask hsmall
      rw [map_single_getD hmid1]
      rw [show iInsW ITree.nil [cs.getD (start + (stop - 1 - start) / 2) 0] =
        .nd ((cs.getD (start + (stop - 1 - start) / 2) 0) ||| EOS)
          .nil .nil .nil from rfl]
      rw [iAddAll_left (cs.map (fun c => [c])) fuel start _ _ _ _ (by
        intro j hj1 hj2
        refine ⟨cs.getD j 0, map_single_getD (by omega), ?_⟩
        rw [hvcp]
        exact hsort j _ (by omega) hmid1)]
      rw [iAddAll_right (cs.map (fun c => [c])) fuel _ _ _ _ _ (by
        intro j hj1 hj2
        refine ⟨cs.getD j 0, map_single_getD (by omega), ?_⟩
        rw [hvcp]
        exact hsort _ j (by omega) (by omega))]
      rw [iAddAll_bisect hsort hsm fuel start _ (by omega),
        iAddAll_bisect hsort hsm fuel _ _ (by omega)]

theorem bisectT_height (cs : List Nat) :
    ∀ (fuel start stop : Nat), stop - start ≤ fuel →
    iHeight (bisectT cs fuel start stop) = Nat.clog 2 (stop - start + 1)
  | 0, start, stop, hf => by
    rw [show stop - start = 0 from by omega]
    rw [show bisectT cs 0 start stop = .nil from rfl]
    rw [Nat.clog_one_right]
    rfl
  | fuel + 1, start, stop, hf => by
    by_cases hend : stop ≤ start
    · rw [show bisectT cs (fuel + 1) start stop = .nil from by
        simp [bisectT, hend]]
      rw [show stop - start = 0 from by omega, Nat.clog_one_right]
      rfl
    · simp only [bisectT, if_neg hend]
      simp only [iHeight]
      rw [bisectT_height cs fuel start _ (by omega),
        bisectT_height cs fuel _ _ (by omega)]
      rw [show start + (stop - 1 - start) / 2 - start =
        (stop - start - 1) / 2 from by omega]
      rw [show stop - 1 + 1 - (start + (stop - 1 - start) / 2 + 1) =
        (stop - start) / 2 from by omega]
      have hmono : Nat.clog 2 ((stop - start - 1) / 2 + 1) ≤
          Nat.clog 2 ((stop - start) / 2 + 1) :=
        Nat.clog_mono_right 2 (by omega)
      rw [max_eq_right (Nat.zero_le _), max_eq_right hmono]
      rw [Nat.clog_of_two_le (by omega) (show 2 ≤ stop - start + 1 from
        by omega)]
      rw [show (stop - start + 1 + 2 - 1) / 2 = (stop - start) / 2 + 1 from
        by omega]
      omega

/-!  The stats depth is the ternary height of the decoded tree. -/

theorem setBreadth_length (b : List Nat) (d : Nat) :
    (setBreadth b d).length = max b.length (d + 1) := by
  unfold setBreadth
  by_cases h : b.length ≤ d
  · rw [if_pos h]
    simp
    omega
  · rw [if_neg h]
    simp
    omega

theorem traverse_breadth (tr : List Nat) : ∀ (f n d : Nat)
    (st : TernaryTreeStats),
    (traverse tr f n d st).breadth.length =
      (if iHeight (decode tr f n) = 0 then st.breadth.length
       else max st.breadth.length (d + iHeight (decode tr f n))) := by
  intro f
  induction f with
  | zero =>
    intro n d st
    rw [show traverse tr 0 n d st = st from rfl,
      show decode tr 0 n = .nil from rfl]
    rw [show iHeight ITree.nil = 0 from rfl, if_pos rfl]
  | succ f ih =>
    intro n d st
    by_cases hlen : tr.length ≤ n
    · simp only [traverse, decode, if_pos hlen]
      rw [show iHeight ITree.nil = 0 from rfl, if_pos rfl]
    · simp only [traverse, decode, if_neg hlen]
      simp only [ih, apply_ite TernaryTreeStats.breadth, ite_self]
      rw [setBreadth_length]
      rw [show iHeight (ITree.nd (tval tr n)
          (decode tr f (tval tr (n + 1)))
          (decode tr f (tval tr (n + 2)))
          (decode tr f (tval tr (n + 3)))) =
        1 + max (iHeight (decode tr f (tval tr (n + 1))))
          (max (iHeight (decode tr f (tval tr (n + 2))))
            (iHeight (decode tr f (tval tr (n + 3))))) from rfl]
      rw [if_neg (show ¬ (1 + max (iHeight (decode tr f (tval tr (n + 1))))
          (max (iHeight (decode tr f (tval tr (n + 2))))
            (iHeight (decode tr f (tval tr (n + 3))))) = 0) from by omega)]
      by_cases h1 : iHeight (decode tr f (tval tr (n + 1))) = 0 <;>
        by_cases h2 : iHeight (decode tr f (tval tr (n + 2))) = 0 <;>
        by_cases h3 : iHeight (decode tr f (tval tr (n + 3))) = 0 <;>
        simp only [h1, h2, h3, if_true, if_false, ite_true, ite_false,
          if_pos, if_neg, Nat.add_zero] <;>
        omega

theorem stats_depth {t : TernaryStringSet} (hok : treeOk t._tree = true) :
    (stats t).depth = iHeight (decN t._tree 0) := by
  have hstable : decode t._tree (wrapFuel t) 0 = decN t._tree 0 := by
    apply decode_stable hok _ _ 0 (Or.inl (by norm_num))
    · unfold wrapFuel
      omega
    · omega
  show (traverse t._tree (wrapFuel t) 0 0 _).breadth.length = _
  rw [traverse_breadth, hstable]
  by_cases h0 : iHeight (decN t._tree 0) = 0
  · rw [if_pos h0, h0]
    rfl
  · rw [if_neg h0]
    show max ([] : List Nat).length (0 + iHeight (decN t._tree 0)) = _
    simp

/-- `add` on an invariant state refines the pure insertion and keeps the
invariant (existential packaging of `addM_ok` + `addM_inv`). -/
theorem addM_dec (fuel : Nat) {t : TernaryStringSet} {s : JsStr}
    (hInv : Inv t) (hs : SmallW s) (hne : s ≠ [])
    (hroom : t._tree.length + 4 * s.length ≤ NODE_CEILING) :
    ∃ t2, addM (fuel + 1) t s = (some (), t2) ∧ Inv t2 ∧
      decN t2._tree 0 = iInsW (decN t._tree 0) s ∧
      t2._tree.length ≤ t._tree.length + 4 * s.length := by
  obtain ⟨t2a, heqa, hInv2, _, _, _⟩ := addM_inv fuel hInv hs hroom
  obtain ⟨t2b, heqb, _, _, _, _, hdec, _, hlenb, _⟩ :=
    addM_ok fuel hInv.1 hInv.2.1 hInv.2.2.2 hs hne hroom
  rw [heqa] at heqb
  injection heqb with h1 h2
  subst h2
  exact ⟨t2a, heqa, hInv2, hdec, hlenb⟩

/-- The bisection bulk insert refines the pure bisection fold `iAddAll`
(at the same fuel). -/
theorem _addAllM_dec : ∀ (fuel : Nat) (t : TernaryStringSet)
    (strings : List JsStr) (start stop : Nat),
    Inv t → (∀ w ∈ strings, SmallW w ∧ w ≠ []) →
    stop ≤ strings.length →
    stop - start + 1 ≤ fuel →
    t._tree.length + 4 * segLen strings start stop ≤ NODE_CEILING →
    ∃ t2, _addAllM fuel t strings start stop = (some (), t2) ∧ Inv t2 ∧
      decN t2._tree 0 = iAddAll strings fuel start stop (decN t._tree 0) ∧
      t2._tree.length ≤ t._tree.length + 4 * segLen strings start stop
  | 0, t, strings, start, stop => by
    intro _ _ _ hf _
    omega
  | fuel + 1, t, strings, start, stop => by
    intro hInv hw hstop hf hroom
    by_cases hend : stop ≤ start
    · refine ⟨t, ?_, hInv, ?_, by omega⟩
      · simp [_addAllM, hend]
      · show decN t._tree 0 = iAddAll strings (fuel + 1) start stop
          (decN t._tree 0)
        rw [iAddAll, if_pos hend]
    · have hstart : start < stop := by omega
      have hmid1 : start ≤ start + (stop - 1 - start) / 2 := by omega
      have hmid2 : start + (stop - 1 - start) / 2 < stop := by omega
      have hmlt : start + (stop - 1 - start) / 2 < strings.length := by omega
      have hsplit := segLen_split strings hmid1 hmid2
      have hmidw := hw (strings.getD (start + (stop - 1 - start) / 2) [])
        (by
          rw [List.getD_eq_getElem _ _ hmlt]
          exact List.getElem_mem hmlt)
      obtain ⟨f2, rfl⟩ : ∃ f2, fuel = f2 + 1 := ⟨fuel - 1, by omega⟩
      obtain ⟨t1, heq1, hInv1, hdec1, hlen1⟩ := addM_dec f2
        hInv hmidw.1 hmidw.2 (by omega)
      obtain ⟨t2, heq2, hInv2, hdec2, hlen2⟩ := _addAllM_dec (f2 + 1) t1
        strings start (start + (stop - 1 - start) / 2) hInv1 hw (by omega)
        (by omega) (by omega)
      obtain ⟨t3, heq3, hInv3, hdec3, hlen3⟩ := _addAllM_dec (f2 + 1) t2
        strings (start + (stop - 1 - start) / 2 + 1) (stop - 1 + 1) hInv2 hw
        (by omega) (by omega)
        (by rw [show stop - 1 + 1 = stop from by omega]; omega)
      have hlen3s := hlen3
      rw [show stop - 1 + 1 = stop from by omega] at hlen3s
      refine ⟨t3, ?_, hInv3, ?_, by omega⟩
      · show _addAllM (f2 + 1 + 1) t strings start stop = (some (), t3)
        rw [_addAllM, if_neg hend]
        simp only [heq1, heq2]
        exact heq3
      · show decN t3._tree 0 = iAddAll strings (f2 + 1 + 1) start stop
          (decN t._tree 0)
        rw [iAddAll, if_neg hend]
        rw [hdec3, hdec2, hdec1]

theorem segLen_singles (cs : List Nat) :
    segLen (cs.map (fun c => [c])) 0 cs.length = cs.length := by
  unfold segLen
  rw [Nat.sub_zero]
  have h : ∀ k ∈ List.range cs.length,
      (fun k => ((cs.map (fun c => [c])).getD (0 + k) []).length) k =
      (fun _ => 1) k := by
    intro k hk
    simp only
    rw [Nat.zero_add, map_single_getD (List.mem_range.mp hk)]
    rfl
  rw [List.map_congr_left h]
  simp

/-- C6 (amended): bulk-inserting `n` ascending distinct single-code-point
strings into an empty set builds a perfectly balanced tree whose stats
depth is exactly `⌈log2(n+1)⌉`.  (For longer strings the equal-child
chains add their lengths to the depth: `claim_C6_counterexample` refutes
the formula already for the one-string array `["ab"]`.) -/
theorem claim_C6 {cs : List Nat} (hsort : List.Pairwise (· < ·) cs)
    (hsm : ∀ c ∈ cs, c < CP_MIN_SURROGATE)
    (hroom : 4 * cs.length ≤ NODE_CEILING) :
    ∃ t2, addAll emptySet (cs.map (fun c => [c])) 0 none = (some (), t2) ∧
      (stats t2).depth = Nat.clog 2 (cs.length + 1) := by
  have hlenmap : (cs.map (fun c => [c])).length = cs.length :=
    List.length_map _ _
  by_cases hn : cs.length = 0
  · refine ⟨emptySet, ?_, ?_⟩
    · simp only [addAll]
      rw [show emptySet._tree.length + (cs.map (fun c => [c])).length + 32 =
        cs.length + 31 + 1 from by
          simp only [emptySet, List.length_nil, hlenmap]
          omega]
      rw [addAllM]
      rw [show (decide ((0 : Int) < 0) ||
          decide (((cs.map (fun c => [c])).length : Int) < 0)) = false from by
        simp only [Bool.or_eq_false_iff, decide_eq_false_iff_not]
        exact ⟨by omega, by omega⟩]
      simp only [Bool.false_eq_true, if_false]
      rw [show (decide (((cs.map (fun c => [c])).length : Int) < 0) ||
          decide (((cs.map (fun c => [c])).length : Int) <
            ((cs.map (fun c => [c])).length : Int))) = false from by
        simp only [Bool.or_eq_false_iff, decide_eq_false_iff_not]
        exact ⟨by omega, by omega⟩]
      simp only [Bool.false_eq_true, if_false]
      rw [if_neg (by
        rw [hlenmap]
        exact_mod_cast by omega)]
    · rw [hn, Nat.clog_one_right]
      decide
  · have hsort2 : ∀ i j, i < j → j < cs.length →
        cs.getD i 0 < cs.getD j 0 := by
      intro i j hij hj
      rw [List.getD_eq_getElem _ _ (by omega), List.getD_eq_getElem _ _ hj]
      exact List.pairwise_iff_getElem.mp hsort i j (by omega) hj hij
    have hw : ∀ w ∈ cs.map (fun c => [c]), SmallW w ∧ w ≠ [] := by
      intro w hw
      obtain ⟨c, hc, rfl⟩ := List.mem_map.mp hw
      refine ⟨?_, by simp⟩
      intro x hx
      simp at hx
      subst hx
      exact hsm _ hc
    obtain ⟨t2, heq, hInv2, hdec, _⟩ := _addAllM_dec (cs.length + 31)
      emptySet (cs.map (fun c => [c])) 0 cs.length Inv_emptySet hw
      (by omega) (by omega)
      (by
        rw [show emptySet._tree.length = 0 from rfl, segLen_singles]
        omega)
    refine ⟨t2, ?_, ?_⟩
    · simp only [addAll]
      rw [show emptySet._tree.length + (cs.map (fun c => [c])).length + 32 =
        cs.length + 31 + 1 from by
          simp only [emptySet, List.length_nil, hlenmap]
          omega]
      rw [addAllM]
      rw [show (decide ((0 : Int) < 0) ||
          decide (((cs.map (fun c => [c])).length : Int) < 0)) = false from by
        simp only [Bool.or_eq_false_iff, decide_eq_false_iff_not]
        exact ⟨by omega, by omega⟩]
      simp only [Bool.false_eq_true, if_false]
      rw [show (decide (((cs.map (fun c => [c])).length : Int) < 0) ||
          decide (((cs.map (fun c => [c])).length : Int) <
            ((cs.map (fun c => [c])).length : Int))) = false from by
        simp only [Bool.or_eq_false_iff, decide_eq_false_iff_not]
        exact ⟨by omega, by omega⟩]
      simp only [Bool.false_eq_true, if_false]
      rw [if_pos (by
        rw [hlenmap]
        exact_mod_cast Nat.pos_of_ne_zero hn)]
      rw [show ((0 : Int)).toNat = 0 from rfl]
      rw [show (((cs.map (fun c => [c])).length : Int)).toNat = cs.length from
        by rw [hlenmap]; exact Int.toNat_natCast _]
      exact heq
    · rw [stats_depth hInv2.1, hdec]
      rw [show decN emptySet._tree 0 = ITree.nil from rfl]
      rw [iAddAll_bisect hsort2 hsm (cs.length + 31) 0 cs.length
        (le_refl _)]
      rw [bisectT_height cs (cs.length + 31) 0 cs.length (by omega)]
      rw [Nat.sub_zero]

theorem claim_C6_witness :
    List.Pairwise (· < ·) ([97, 98, 99] : List Nat) ∧
    (∀ c ∈ ([97, 98, 99] : List Nat), c < CP_MIN_SURROGATE) ∧
    4 * ([97, 98, 99] : List Nat).length ≤ NODE_CEILING ∧
    (∃ t2, addAll emptySet
        (([97, 98, 99] : List Nat).map (fun c => [c])) 0 none =
        (some (), t2) ∧
      (stats t2).depth =
        Nat.clog 2 (([97, 98, 99] : List Nat).length + 1)) :=
  ⟨by decide, by decide, by decide,
    claim_C6 (by decide) (by decide) (by decide)⟩

/-!  Compaction, part 1: the node-map association list. -/

theorem lookupKey_some_mem {m : NodeMap}
    {k : Option Nat × Option Nat × Option Nat × Option Nat} {s : Nat}
    (h : lookupKey m k = some s) : (k, s) ∈ m := by
  unfold lookupKey at h
  rcases hf : m.find? (fun p => p.1 == k) with _ | p
  · rw [hf] at h
    simp at h
  · rw [hf] at h
    simp only [Option.map_some'] at h
    injection h with h
    have hp1 : p.1 = k := by
      have := List.find?_some hf
      simpa using this
    have hpm := List.mem_of_find?_eq_some hf
    rw [← hp1, ← h]
    exact hpm

theorem lookupKey_none_not_mem {m : NodeMap}
    {k : Option Nat × Option Nat × Option Nat × Option Nat}
    (h : lookupKey m k = none) : ∀ s, (k, s) ∉ m := by
  intro s hmem
  unfold lookupKey at h
  rcases hf : m.find? (fun p => p.1 == k) with _ | p
  · rw [List.find?_eq_none] at hf
    have := hf (k, s) hmem
    simp at this
  · rw [hf] at h
    simp at h

theorem lookupKey_cons {m : NodeMap}
    {k0 k : Option Nat × Option Nat × Option Nat × Option Nat}
    {s0 s : Nat} (h : lookupKey ((k0, s0) :: m) k = some s) :
    (k = k0 ∧ s = s0) ∨ lookupKey m k = some s := by
  unfold lookupKey at h ⊢
  rw [List.find?_cons] at h
  by_cases hk : k0 = k
  · have hb : (((k0, s0) :
        (Option Nat × Option Nat × Option Nat × Option Nat) × Nat).1 ==
        k) = true := by simpa using hk
    simp only [hb] at h
    simp only [Option.map_some'] at h
    injection h with h
    exact Or.inl ⟨hk.symm, h.symm⟩
  · have hb : (((k0, s0) :
        (Option Nat × Option Nat × Option Nat × Option Nat) × Nat).1 ==
        k) = false := by simpa using hk
    simp only [hb] at h
    exact Or.inr h

theorem lookupKey_cons_of {m : NodeMap}
    {k0 k : Option Nat × Option Nat × Option Nat × Option Nat}
    {s0 s : Nat} (h : lookupKey m k = some s) (hne : k ≠ k0) :
    lookupKey ((k0, s0) :: m) k = some s := by
  unfold lookupKey at h ⊢
  rw [List.find?_cons]
  have hb : (((k0, s0) :
      (Option Nat × Option Nat × Option Nat × Option Nat) × Nat).1 ==
      k) = false := by simpa using fun he => hne he.symm
  simp only [hb]
  exact h

theorem lookupKey_mem {m : NodeMap}
    {k : Option Nat × Option Nat × Option Nat × Option Nat} {s : Nat}
    (hnd : (m.map Prod.fst).Nodup) (hmem : (k, s) ∈ m) :
    lookupKey m k = some s := by
  induction m with
  | nil => simp at hmem
  | cons e m ih =>
    obtain ⟨e1, e2⟩ := e
    rw [List.map_cons, List.nodup_cons] at hnd
    rcases List.mem_cons.mp hmem with he | hmem2
    · injection he with ha hb
      subst ha
      subst hb
      unfold lookupKey
      rw [List.find?_cons]
      have hb2 : (((k, s) :
          (Option Nat × Option Nat × Option Nat × Option Nat) × Nat).1 ==
          k) = true := by simp
      simp only [hb2]
      rfl
    · have hke : k ≠ e1 := by
        intro he
        apply hnd.1
        apply List.mem_map.mpr
        exact ⟨(k, s), hmem2, by rw [he]⟩
      exact lookupKey_cons_of (ih hnd.2 hmem2) hke

theorem mapping_found {tr : List Nat} {st : NodeMap × Nat} {i s : Nat}
    (h : lookupKey st.1 (nodeKey tr i) = some s) :
    mapping tr st i = (s, st) := by
  unfold mapping
  simp only [h]

theorem mapping_fresh {tr : List Nat} {st : NodeMap × Nat} {i : Nat}
    (h : lookupKey st.1 (nodeKey tr i) = none) :
    mapping tr st i = (st.2, ((nodeKey tr i, st.2) :: st.1, st.2 + 4)) := by
  unfold mapping
  simp only [h]

theorem mapping_snd_le (tr : List Nat) (st : NodeMap × Nat) (i : Nat) :
    st.2 ≤ ((mapping tr st i).2).2 := by
  rcases h : lookupKey st.1 (nodeKey tr i) with _ | s
  · rw [mapping_fresh h]
    show st.2 ≤ st.2 + 4
    omega
  · rw [mapping_found h]

theorem lookup_pres_mapping {tr : List Nat} {st : NodeMap × Nat} {i : Nat}
    {k : Option Nat × Option Nat × Option Nat × Option Nat} {s : Nat}
    (h : lookupKey st.1 k = some s) :
    lookupKey ((mapping tr st i).2).1 k = some s := by
  rcases hl : lookupKey st.1 (nodeKey tr i) with _ | s2
  · rw [mapping_fresh hl]
    refine lookupKey_cons_of h ?_
    intro he
    rw [he] at h
    rw [h] at hl
    exact Option.noConfusion hl
  · rw [mapping_found hl]
    exact h

theorem lookup_pres_scan {tr : List Nat} :
    ∀ (l : List Nat) (st : NodeMap × Nat)
    {k : Option Nat × Option Nat × Option Nat × Option Nat} {s : Nat},
    lookupKey st.1 k = some s →
    lookupKey (l.foldl (fun st i => (mapping tr st i).2) st).1 k = some s
  | [], st, _, _, h => h
  | i :: l, st, _, _, h =>
    lookup_pres_scan l _ (lookup_pres_mapping h)

theorem scan_snd_le {tr : List Nat} :
    ∀ (l : List Nat) (st : NodeMap × Nat),
    st.2 ≤ (l.foldl (fun st i => (mapping tr st i).2) st).2
  | [], st => le_refl _
  | i :: l, st =>
    le_trans (mapping_snd_le tr st i) (scan_snd_le l _)

theorem scan_snd_le4 (tr : List Nat) :
    ∀ (l : List Nat) (st : NodeMap × Nat),
    (l.foldl (fun st i => (mapping tr st i).2) st).2 ≤ st.2 + 4 * l.length
  | [], st => by simp
  | i :: l, st => by
    have h1 := scan_snd_le4 tr l ((mapping tr st i).2)
    have h2 : ((mapping tr st i).2).2 ≤ st.2 + 4 := by
      rcases hl : lookupKey st.1 (nodeKey tr i) with _ | s
      · rw [mapping_fresh hl]
      · rw [mapping_found hl]
        show st.2 ≤ st.2 + 4
        omega
    simp only [List.foldl_cons, List.length_cons]
    omega

theorem MOk_mapping {tr : List Nat} {st : NodeMap × Nat} {i : Nat}
    (hi4 : i % 4 = 0) (hilt : i < tr.length) (hM : MOk tr st) :
    MOk tr (mapping tr st i).2 := by
  obtain ⟨h1, h2, h3, h4⟩ := hM
  rcases hl : lookupKey st.1 (nodeKey tr i) with _ | s
  · rw [mapping_fresh hl]
    refine ⟨by simp; omega, ?_, ?_, ?_⟩
    · intro e he
      rcases List.mem_cons.mp he with rfl | he
      · exact ⟨⟨i, hi4, hilt, rfl⟩, by simp, h1⟩
      · obtain ⟨he1, he2, he3⟩ := h2 e he
        exact ⟨he1, by simp; omega, he3⟩
    · rw [List.map_cons, List.nodup_cons]
      refine ⟨?_, h3⟩
      intro hmem
      obtain ⟨e, he, hek⟩ := List.mem_map.mp hmem
      obtain ⟨e1, e2⟩ := e
      simp only at hek
      subst hek
      exact absurd (lookupKey_mem h3 he) (by rw [hl]; simp)
    · rw [List.map_cons, List.nodup_cons]
      refine ⟨?_, h4⟩
      intro hmem
      obtain ⟨e, he, hek⟩ := List.mem_map.mp hmem
      have := (h2 e he).2.1
      simp only at hek
      omega
  · rw [mapping_found hl]
    exact ⟨h1, h2, h3, h4⟩

theorem MOk_scan {tr : List Nat} :
    ∀ (l : List Nat) (st : NodeMap × Nat),
    (∀ i ∈ l, i % 4 = 0 ∧ i < tr.length) → MOk tr st →
    MOk tr (l.foldl (fun st i => (mapping tr st i).2) st)
  | [], st, _, hM => hM
  | i :: l, st, hl, hM => by
    have hi := hl i (by simp)
    exact MOk_scan l _ (fun j hj => hl j (by simp [hj]))
      (MOk_mapping hi.1 hi.2 hM)

theorem scan_complete {tr : List Nat} :
    ∀ (l : List Nat) (st : NodeMap × Nat) {i : Nat}, i ∈ l →
    ∃ s, lookupKey (l.foldl (fun st i => (mapping tr st i).2) st).1
      (nodeKey tr i) = some s
  | [], _, _, hmem => by simp at hmem
  | j :: l, st, i, hmem => by
    rcases List.mem_cons.mp hmem with rfl | hmem2
    · rcases hl : lookupKey st.1 (nodeKey tr i) with _ | s
      · refine ⟨st.2, ?_⟩
        have hstep : lookupKey ((mapping tr st i).2).1 (nodeKey tr i) =
            some st.2 := by
          rw [mapping_fresh hl]
          show lookupKey ((nodeKey tr i, st.2) :: st.1) (nodeKey tr i) = _
          unfold lookupKey
          rw [List.find?_cons]
          have hb : (((nodeKey tr i, st.2) :
              (Option Nat × Option Nat × Option Nat × Option Nat) × Nat).1 ==
              nodeKey tr i) = true := by simp
          simp only [hb]
          rfl
        exact lookup_pres_scan l ((mapping tr st i).2) hstep
      · exact ⟨s, lookup_pres_scan l ((mapping tr st i).2)
          (lookup_pres_mapping hl)⟩
    · exact scan_complete l ((mapping tr st j).2) hmem2

theorem lookup_slot_lt {tr : List Nat} {st : NodeMap × Nat}
    {k : Option Nat × Option Nat × Option Nat × Option Nat} {s : Nat}
    (hM : MOk tr st) (h : lookupKey st.1 k = some s) :
    s < st.2 ∧ s % 4 = 0 := by
  have := (hM.2.1 (k, s) (lookupKey_some_mem h)).2
  exact this

theorem lookup_inj {tr : List Nat} {st : NodeMap × Nat}
    {k1 k2 : Option Nat × Option Nat × Option Nat × Option Nat} {s : Nat}
    (hM : MOk tr st) (h1 : lookupKey st.1 k1 = some s)
    (h2 : lookupKey st.1 k2 = some s) : k1 = k2 := by
  have hm1 := lookupKey_some_mem h1
  have hm2 := lookupKey_some_mem h2
  have := List.inj_on_of_nodup_map hM.2.2.2 hm1 hm2 rfl
  exact congrArg Prod.fst this

/-!  Compaction, part 2: the full scan map and single rewrite steps. -/

theorem lookupKey_head {m : NodeMap}
    {k : Option Nat × Option Nat × Option Nat × Option Nat} {s : Nat} :
    lookupKey ((k, s) :: m) k = some s := by
  unfold lookupKey
  rw [List.find?_cons]
  have hb : (((k, s) :
      (Option Nat × Option Nat × Option Nat × Option Nat) × Nat).1 ==
      k) = true := by simp
  simp only [hb]
  rfl

theorem MOk_nil (tr : List Nat) : MOk tr ([], 0) := by
  refine ⟨by norm_num, ?_, by simp, by simp⟩
  intro e he
  simp at he

theorem scanMap_MOk {tr : List Nat} : MOk tr (scanMap tr) := by
  unfold scanMap
  apply MOk_scan
  · intro i hi
    exact mem_alignedIdxs.mp hi
  · exact MOk_nil tr

theorem scanMap_complete {tr : List Nat} {i : Nat} (h4 : i % 4 = 0)
    (hlt : i < tr.length) :
    ∃ s, lookupKey (scanMap tr).1 (nodeKey tr i) = some s := by
  unfold scanMap
  exact scan_complete _ _ (mem_alignedIdxs.mpr ⟨h4, hlt⟩)

theorem scanMap_le {tr : List Nat} (h4 : tr.length % 4 = 0) :
    (scanMap tr).2 ≤ tr.length := by
  unfold scanMap
  have := scan_snd_le4 tr (alignedIdxs tr.length) ([], 0)
  have hlen : (alignedIdxs tr.length).length = tr.length / 4 := by
    unfold alignedIdxs
    rw [List.length_map, List.length_range]
    omega
  omega

theorem scanMap_mod4 {tr : List Nat} : (scanMap tr).2 % 4 = 0 :=
  scanMap_MOk.1

theorem nodeKey_big {tr : List Nat} {p : Nat} (h : tr.length ≤ p) :
    nodeKey tr p = (none, none, none, none) := by
  unfold nodeKey
  rw [List.get?_eq_none.mpr h, List.get?_eq_none.mpr (by omega),
    List.get?_eq_none.mpr (by omega), List.get?_eq_none.mpr (by omega)]

theorem lookup_noneKey {tr : List Nat} :
    lookupKey (scanMap tr).1 (none, none, none, none) = none := by
  rcases hl : lookupKey (scanMap tr).1 (none, none, none, none) with _ | s
  · rfl
  · have hmem := lookupKey_some_mem hl
    obtain ⟨⟨i, hi4, hilt, hik⟩, _, _⟩ := scanMap_MOk.2.1 _ hmem
    simp only at hik
    have : tr.get? i = none := by
      have := congrArg Prod.fst hik
      simpa [nodeKey] using this
    rw [List.get?_eq_none] at this
    omega

theorem slotAbs_big {tr : List Nat} {p : Nat} (h : tr.length ≤ p) :
    slotAbs tr (scanMap tr) p = (scanMap tr).2 := by
  unfold slotAbs
  rw [nodeKey_big h, lookup_noneKey]
  rfl

theorem slotAbs_lookup {tr : List Nat} {p s : Nat}
    (h : lookupKey (scanMap tr).1 (nodeKey tr p) = some s) :
    slotAbs tr (scanMap tr) p = s := by
  unfold slotAbs
  rw [h]
  rfl

theorem tval_eq_of_get? {tr : List Nat} {x y : Nat}
    (h : tr.get? x = tr.get? y) : tval tr x = tval tr y := by
  unfold tval
  rw [List.getD_eq_getElem?_getD, List.getD_eq_getElem?_getD,
    ← List.get?_eq_getElem?, ← List.get?_eq_getElem?, h]

theorem nodeKey_tval {tr : List Nat} {i j : Nat}
    (h : nodeKey tr i = nodeKey tr j) :
    tval tr i = tval tr j ∧ tval tr (i + 1) = tval tr (j + 1) ∧
    tval tr (i + 2) = tval tr (j + 2) ∧ tval tr (i + 3) = tval tr (j + 3) := by
  unfold nodeKey at h
  injection h with h0 h
  injection h with h1 h
  injection h with h2 h3
  exact ⟨tval_eq_of_get? h0, tval_eq_of_get? h1, tval_eq_of_get? h2,
    tval_eq_of_get? h3⟩

theorem rewriteStep_found {tr : List Nat} {out : List Nat}
    {stR : NodeMap × Nat} {i s : Nat}
    (hm : mapping tr stR i = (s, stR)) (hlt : s < out.length) :
    rewriteStep tr (out, stR) i = some (out, stR) := by
  unfold rewriteStep
  simp only [hm]
  rw [if_neg (by omega)]

theorem rewriteStep_write {tr : List Nat} {out : List Nat}
    {stR stR1 stR2 stR3 : NodeMap × Nat} {i s1 s2 s3 : Nat}
    (hm0 : mapping tr stR i = (out.length, stR))
    (hm1 : mapping tr stR (tval tr (i + 1)) = (s1, stR1))
    (hm2 : mapping tr stR1 (tval tr (i + 2)) = (s2, stR2))
    (hm3 : mapping tr stR2 (tval tr (i + 3)) = (s3, stR3)) :
    rewriteStep tr (out, stR) i =
      some (out ++ [tval tr i, s1, s2, s3], stR3) := by
  unfold rewriteStep
  simp only [hm0, hm1, hm2, hm3]
  rw [if_pos (le_refl _), if_neg (lt_irrefl _)]

theorem mapping_child {tr : List Nat} {stR : NodeMap × Nat} {p : Nat}
    (hR : stR = scanMap tr ∨
      stR = ((((none, none, none, none), (scanMap tr).2) :: (scanMap tr).1,
        (scanMap tr).2 + 4)))
    (hp : ptrP tr p = true) :
    ∃ stR', mapping tr stR p = (slotAbs tr (scanMap tr) p, stR') ∧
      (stR' = scanMap tr ∨
        stR' = ((((none, none, none, none), (scanMap tr).2) :: (scanMap tr).1,
          (scanMap tr).2 + 4))) := by
  unfold ptrP at hp
  rw [Bool.or_eq_true] at hp
  rcases hp with hp | hp
  · -- null pointer: out of range
    have hbig : tr.length ≤ p := by simpa using hp
    rcases hR with rfl | hR2
    · refine ⟨_, ?_, Or.inr rfl⟩
      rw [mapping_fresh (by rw [nodeKey_big hbig]; exact lookup_noneKey),
        slotAbs_big hbig, nodeKey_big hbig]
    · refine ⟨stR, ?_, Or.inr hR2⟩
      have hl : lookupKey stR.1 (nodeKey tr p) = some (scanMap tr).2 := by
        rw [nodeKey_big hbig, hR2]
        exact lookupKey_head
      rw [mapping_found hl, slotAbs_big hbig]
  · -- real pointer: aligned and in range
    rw [Bool.and_eq_true] at hp
    have hplt : p < tr.length := by simpa using hp.1
    have hp4 : p % 4 = 0 := by simpa using hp.2
    obtain ⟨s, hs⟩ := scanMap_complete hp4 hplt
    have hl : lookupKey stR.1 (nodeKey tr p) = some s := by
      rcases hR with rfl | hR2
      · exact hs
      · rw [hR2]
        apply lookupKey_cons_of hs
        intro he
        have : tr.get? p = none := by
          have := congrArg Prod.fst he
          simpa [nodeKey] using this
        rw [List.get?_eq_none] at this
        omega
    refine ⟨stR, ?_, hR⟩
    rw [mapping_found hl, slotAbs_lookup hs]

/-!  Compaction, part 3: the rewrite fold synchronises with the scan. -/

theorem tval_append4 (out : List Nat) (a b c d : Nat) :
    tval (out ++ [a, b, c, d]) out.length = a ∧
    tval (out ++ [a, b, c, d]) (out.length + 1) = b ∧
    tval (out ++ [a, b, c, d]) (out.length + 2) = c ∧
    tval (out ++ [a, b, c, d]) (out.length + 3) = d := by
  refine ⟨?_, ?_, ?_, ?_⟩
  · rw [tval_append_right (le_refl _), Nat.sub_self]
    rfl
  · rw [tval_append_right (by omega),
      show out.length + 1 - out.length = 1 from by omega]
    rfl
  · rw [tval_append_right (by omega),
      show out.length + 2 - out.length = 2 from by omega]
    rfl
  · rw [tval_append_right (by omega),
      show out.length + 3 - out.length = 3 from by omega]
    rfl

theorem passOk_parts {tr : List Nat} (h : passOk tr = true) :
    tr.length % 4 = 0 ∧ ∀ i, i % 4 = 0 → i < tr.length →
      ptrP tr (tval tr (i + 1)) = true ∧ ptrP tr (tval tr (i + 2)) = true ∧
      ptrP tr (tval tr (i + 3)) = true := by
  unfold passOk at h
  rw [Bool.and_eq_true] at h
  refine ⟨by simpa using h.1, ?_⟩
  intro i hi4 hilt
  have := List.all_eq_true.mp h.2 i (mem_alignedIdxs.mpr ⟨hi4, hilt⟩)
  simp only [Bool.and_eq_true] at this
  exact ⟨this.1.1, this.1.2, this.2⟩

theorem mapping_self {tr : List Nat} {stR : NodeMap × Nat} {i : Nat}
    (hR : stR = scanMap tr ∨
      stR = ((((none, none, none, none), (scanMap tr).2) :: (scanMap tr).1,
        (scanMap tr).2 + 4)))
    (hi4 : i % 4 = 0) (hilt : i < tr.length) :
    mapping tr stR i = (slotAbs tr (scanMap tr) i, stR) := by
  obtain ⟨s, hs⟩ := scanMap_complete hi4 hilt
  have hl : lookupKey stR.1 (nodeKey tr i) = some s := by
    rcases hR with rfl | hR2
    · exact hs
    · rw [hR2]
      apply lookupKey_cons_of hs
      intro he
      have : tr.get? i = none := by
        have := congrArg Prod.fst he
        simpa [nodeKey] using this
      rw [List.get?_eq_none] at this
      omega
  rw [mapping_found hl, slotAbs_lookup hs]

theorem rewrite_sync {tr : List Nat} (hok : passOk tr = true) :
    ∀ (l : List Nat) (SP : NodeMap × Nat) (out : List Nat)
      (stR : NodeMap × Nat),
    (∀ i ∈ l, i % 4 = 0 ∧ i < tr.length) →
    l.foldl (fun st i => (mapping tr st i).2) SP = scanMap tr →
    MOk tr SP →
    out.length = SP.2 →
    (stR = scanMap tr ∨
      stR = ((((none, none, none, none), (scanMap tr).2) :: (scanMap tr).1,
        (scanMap tr).2 + 4))) →
    (∀ i2, i2 % 4 = 0 → i2 < tr.length →
      slotAbs tr (scanMap tr) i2 < out.length →
      tval out (slotAbs tr (scanMap tr) i2) = tval tr i2 ∧
      tval out (slotAbs tr (scanMap tr) i2 + 1) =
        slotAbs tr (scanMap tr) (tval tr (i2 + 1)) ∧
      tval out (slotAbs tr (scanMap tr) i2 + 2) =
        slotAbs tr (scanMap tr) (tval tr (i2 + 2)) ∧
      tval out (slotAbs tr (scanMap tr) i2 + 3) =
        slotAbs tr (scanMap tr) (tval tr (i2 + 3))) →
    ∃ out2 stR2,
      l.foldlM (fun acc i => rewriteStep tr acc i)
        ((out, stR) : List Nat × (NodeMap × Nat)) = some (out2, stR2) ∧
      out2.length = (scanMap tr).2 ∧
      (∀ i2, i2 % 4 = 0 → i2 < tr.length →
        slotAbs tr (scanMap tr) i2 < out2.length →
        tval out2 (slotAbs tr (scanMap tr) i2) = tval tr i2 ∧
        tval out2 (slotAbs tr (scanMap tr) i2 + 1) =
          slotAbs tr (scanMap tr) (tval tr (i2 + 1)) ∧
        tval out2 (slotAbs tr (scanMap tr) i2 + 2) =
          slotAbs tr (scanMap tr) (tval tr (i2 + 2)) ∧
        tval out2 (slotAbs tr (scanMap tr) i2 + 3) =
          slotAbs tr (scanMap tr) (tval tr (i2 + 3)))
  | [], SP, out, stR => by
    intro _ hfold _ hlen _ hcont
    refine ⟨out, stR, rfl, ?_, hcont⟩
    rw [List.foldl_nil] at hfold
    rw [hlen, hfold]
  | i :: l', SP, out, stR => by
    intro hmem hfold hMSP hlen hR hcont
    have hi := hmem i (by simp)
    have hmem' : ∀ j ∈ l', j % 4 = 0 ∧ j < tr.length :=
      fun j hj => hmem j (by simp [hj])
    rw [List.foldl_cons] at hfold
    rcases hSP : lookupKey SP.1 (nodeKey tr i) with _ | s
    · -- first occurrence in scan order: write a fresh block
      have hSPs : (mapping tr SP i).2 =
          ((nodeKey tr i, SP.2) :: SP.1, SP.2 + 4) := by
        rw [mapping_fresh hSP]
      rw [hSPs] at hfold
      have hlook : lookupKey (scanMap tr).1 (nodeKey tr i) = some SP.2 := by
        rw [← hfold]
        exact lookup_pres_scan l' _ lookupKey_head
      have hslotI : slotAbs tr (scanMap tr) i = out.length := by
        rw [slotAbs_lookup hlook, hlen]
      have hm0 : mapping tr stR i = (out.length, stR) := by
        rw [mapping_self hR hi.1 hi.2, hslotI]
      have hptr := (passOk_parts hok).2 i hi.1 hi.2
      obtain ⟨stR1, hm1, hR1⟩ := mapping_child hR hptr.1
      obtain ⟨stR2x, hm2, hR2⟩ := mapping_child hR1 hptr.2.1
      obtain ⟨stR3x, hm3, hR3⟩ := mapping_child hR2 hptr.2.2
      have hstep := rewriteStep_write hm0 hm1 hm2 hm3
      have hMSP' : MOk tr ((nodeKey tr i, SP.2) :: SP.1, SP.2 + 4) := by
        have := MOk_mapping hi.1 hi.2 hMSP
        rw [hSPs] at this
        exact this
      have hNge : SP.2 + 4 ≤ (scanMap tr).2 := by
        rw [← hfold]
        have h4 : ((((nodeKey tr i, SP.2) :: SP.1,
            SP.2 + 4) : NodeMap × Nat)).2 ≤
            (l'.foldl (fun st i => (mapping tr st i).2)
              ((nodeKey tr i, SP.2) :: SP.1, SP.2 + 4)).2 :=
          scan_snd_le l' _
        exact h4
      have hol4 : out.length % 4 = 0 := by
        rw [hlen]
        exact hMSP.1
      have hcont2 : ∀ i2, i2 % 4 = 0 → i2 < tr.length →
          slotAbs tr (scanMap tr) i2 < (out ++ [tval tr i,
            slotAbs tr (scanMap tr) (tval tr (i + 1)),
            slotAbs tr (scanMap tr) (tval tr (i + 2)),
            slotAbs tr (scanMap tr) (tval tr (i + 3))]).length →
          tval (out ++ [tval tr i,
            slotAbs tr (scanMap tr) (tval tr (i + 1)),
            slotAbs tr (scanMap tr) (tval tr (i + 2)),
            slotAbs tr (scanMap tr) (tval tr (i + 3))])
            (slotAbs tr (scanMap tr) i2) = tval tr i2 ∧
          tval (out ++ [tval tr i,
            slotAbs tr (scanMap tr) (tval tr (i + 1)),
            slotAbs tr (scanMap tr) (tval tr (i + 2)),
            slotAbs tr (scanMap tr) (tval tr (i + 3))])
            (slotAbs tr (scanMap tr) i2 + 1) =
            slotAbs tr (scanMap tr) (tval tr (i2 + 1)) ∧
          tval (out ++ [tval tr i,
            slotAbs tr (scanMap tr) (tval tr (i + 1)),
            slotAbs tr (scanMap tr) (tval tr (i + 2)),
            slotAbs tr (scanMap tr) (tval tr (i + 3))])
            (slotAbs tr (scanMap tr) i2 + 2) =
            slotAbs tr (scanMap tr) (tval tr (i2 + 2)) ∧
          tval (out ++ [tval tr i,
            slotAbs tr (scanMap tr) (tval tr (i + 1)),
            slotAbs tr (scanMap tr) (tval tr (i + 2)),
            slotAbs tr (scanMap tr) (tval tr (i + 3))])
            (slotAbs tr (scanMap tr) i2 + 3) =
            slotAbs tr (scanMap tr) (tval tr (i2 + 3)) := by
        intro i2 h24 h2lt h2slot
        rw [List.length_append] at h2slot
        obtain ⟨s2, hs2⟩ := scanMap_complete h24 h2lt
        have hs2v : slotAbs tr (scanMap tr) i2 = s2 := slotAbs_lookup hs2
        have hs2al : s2 % 4 = 0 := (lookup_slot_lt scanMap_MOk hs2).2
        by_cases hlt2 : slotAbs tr (scanMap tr) i2 < out.length
        · obtain ⟨c0, c1, c2, c3⟩ := hcont i2 h24 h2lt hlt2
          have hb3 : slotAbs tr (scanMap tr) i2 + 3 < out.length := by
            omega
          refine ⟨?_, ?_, ?_, ?_⟩
          · rw [tval_append_left (show slotAbs tr (scanMap tr) i2 <
              out.length from by omega)]
            exact c0
          · rw [tval_append_left (show slotAbs tr (scanMap tr) i2 + 1 <
              out.length from by omega)]
            exact c1
          · rw [tval_append_left (show slotAbs tr (scanMap tr) i2 + 2 <
              out.length from by omega)]
            exact c2
          · rw [tval_append_left (show slotAbs tr (scanMap tr) i2 + 3 <
              out.length from by omega)]
            exact c3
        · have hseq : slotAbs tr (scanMap tr) i2 = out.length := by
            simp only [List.length_cons, List.length_nil] at h2slot
            omega
          have hs2' : lookupKey (scanMap tr).1 (nodeKey tr i2) =
              some out.length := by
            rw [hs2]
            rw [← hs2v, hseq]
          have hkey : nodeKey tr i2 = nodeKey tr i :=
            lookup_inj scanMap_MOk hs2' (by rw [hlook, ← hlen])
          obtain ⟨e0, e1, e2, e3⟩ := nodeKey_tval hkey
          obtain ⟨t0, t1, t2, t3⟩ := tval_append4 out (tval tr i)
            (slotAbs tr (scanMap tr) (tval tr (i + 1)))
            (slotAbs tr (scanMap tr) (tval tr (i + 2)))
            (slotAbs tr (scanMap tr) (tval tr (i + 3)))
          rw [hseq]
          refine ⟨?_, ?_, ?_, ?_⟩
          · rw [t0, e0]
          · rw [t1, e1]
          · rw [t2, e2]
          · rw [t3, e3]
      obtain ⟨out2, stR2, hfold2, hlen2, hcontF⟩ := rewrite_sync hok l'
        ((nodeKey tr i, SP.2) :: SP.1, SP.2 + 4)
        (out ++ [tval tr i,
          slotAbs tr (scanMap tr) (tval tr (i + 1)),
          slotAbs tr (scanMap tr) (tval tr (i + 2)),
          slotAbs tr (scanMap tr) (tval tr (i + 3))]) stR3x
        hmem' hfold hMSP' (by simp [hlen]) hR3 hcont2
      refine ⟨out2, stR2, ?_, hlen2, hcontF⟩
      rw [List.foldlM_cons, hstep]
      simpa using hfold2
    · -- key already mapped: skip
      have hSPs : (mapping tr SP i).2 = SP := by
        rw [mapping_found hSP]
      rw [hSPs] at hfold
      have hlook : lookupKey (scanMap tr).1 (nodeKey tr i) = some s := by
        rw [← hfold]
        exact lookup_pres_scan l' _ hSP
      have hslt : s < SP.2 := (lookup_slot_lt hMSP hSP).1
      have hm0 : mapping tr stR i = (s, stR) := by
        rw [mapping_self hR hi.1 hi.2, slotAbs_lookup hlook]
      have hstep := rewriteStep_found hm0
        (show s < out.length from by omega)
      obtain ⟨out2, stR2, hfold2, hlen2, hcontF⟩ := rewrite_sync hok l' SP
        out stR hmem' hfold hMSP hlen hR hcont
      refine ⟨out2, stR2, ?_, hlen2, hcontF⟩
      rw [List.foldlM_cons, hstep]
      simpa using hfold2

/-!  Compaction, part 4: every slot below the scan counter is assigned, and
a completed pass preserves pointer alignment. -/

theorem scan_card {tr : List Nat} :
    ∀ (l : List Nat) (st : NodeMap × Nat), st.2 = 4 * st.1.length →
    (l.foldl (fun st i => (mapping tr st i).2) st).2 =
      4 * (l.foldl (fun st i => (mapping tr st i).2) st).1.length
  | [], _ => fun h => h
  | i :: l, st => fun h => by
    rw [List.foldl_cons]
    apply scan_card l
    rcases hl : lookupKey st.1 (nodeKey tr i) with _ | s
    · rw [mapping_fresh hl]
      show st.2 + 4 = 4 * ((nodeKey tr i, st.2) :: st.1).length
      simp only [List.length_cons]
      omega
    · rw [mapping_found hl]
      exact h

theorem scanMap_card {tr : List Nat} :
    (scanMap tr).2 = 4 * (scanMap tr).1.length :=
  scan_card _ ([], 0) rfl

theorem lookup_of_mem :
    ∀ {m : NodeMap}, (m.map Prod.fst).Nodup →
    ∀ {e : (Option Nat × Option Nat × Option Nat × Option Nat) × Nat},
    e ∈ m → lookupKey m e.1 = some e.2
  | [], _, _, he => by simp at he
  | p :: rest, hnd, e, he => by
    rcases List.mem_cons.mp he with rfl | hmem
    · unfold lookupKey
      rw [List.find?_cons]
      have hb : (e.1 == e.1) = true := by simp
      simp only [hb]
      rfl
    · have hne : ¬ p.1 = e.1 := by
        intro hk
        have h1 : e.1 ∈ rest.map Prod.fst := List.mem_map_of_mem _ hmem
        rw [List.map_cons, List.nodup_cons] at hnd
        exact hnd.1 (hk ▸ h1)
      unfold lookupKey
      rw [List.find?_cons]
      have hb : (p.1 == e.1) = false := by
        simpa using hne
      simp only [hb]
      have := lookup_of_mem (by
        rw [List.map_cons, List.nodup_cons] at hnd
        exact hnd.2) hmem
      unfold lookupKey at this
      exact this

theorem slots_surj {tr : List Nat} {j : Nat} (hj4 : j % 4 = 0)
    (hjlt : j < (scanMap tr).2) :
    ∃ i, i % 4 = 0 ∧ i < tr.length ∧
      lookupKey (scanMap tr).1 (nodeKey tr i) = some j := by
  have hM : MOk tr (scanMap tr) := scanMap_MOk
  set S := (scanMap tr).1.map Prod.snd with hS
  have hSnd : S.Nodup := hM.2.2.2
  have hsub : S ⊆ alignedIdxs (scanMap tr).2 := by
    intro x hx
    obtain ⟨e, he, rfl⟩ := List.mem_map.mp hx
    have := (hM.2.1 e he).2
    exact mem_alignedIdxs.mpr ⟨this.2, this.1⟩
  have hlenS : S.length = (scanMap tr).1.length := List.length_map _ _
  have hlenT : (alignedIdxs (scanMap tr).2).length ≤ S.length := by
    unfold alignedIdxs
    rw [List.length_map, List.length_range, hlenS]
    have hcard : (scanMap tr).2 = 4 * (scanMap tr).1.length := scanMap_card
    omega
  have hperm : S.Perm (alignedIdxs (scanMap tr).2) :=
    (hSnd.subperm hsub).perm_of_length_le hlenT
  have hjS : j ∈ S := hperm.mem_iff.mpr (mem_alignedIdxs.mpr ⟨hj4, hjlt⟩)
  obtain ⟨e, he, hej⟩ := List.mem_map.mp hjS
  obtain ⟨⟨i, hi4, hilt, hik⟩, _, _⟩ := hM.2.1 e he
  refine ⟨i, hi4, hilt, ?_⟩
  rw [← hik, ← hej]
  exact lookup_of_mem hM.2.2.1 he

theorem pass_passOk {tr out2 : List Nat} (hok : passOk tr = true)
    (hlen2 : out2.length = (scanMap tr).2) (hcont : passCont tr out2) :
    passOk out2 = true := by
  unfold passOk
  rw [Bool.and_eq_true]
  constructor
  · have : (scanMap tr).2 % 4 = 0 := scanMap_mod4
    simp [hlen2, this]
  · rw [List.all_eq_true]
    intro j hj
    obtain ⟨hj4, hjlt⟩ := mem_alignedIdxs.mp hj
    rw [hlen2] at hjlt
    obtain ⟨i, hi4, hilt, hlook⟩ := slots_surj hj4 hjlt
    have hsl : slotAbs tr (scanMap tr) i = j := slotAbs_lookup hlook
    have hcv := hcont i hi4 hilt (by rw [hsl, hlen2]; exact hjlt)
    rw [hsl] at hcv
    obtain ⟨_, hc1, hc2, hc3⟩ := hcv
    have hptr := (passOk_parts hok).2 i hi4 hilt
    have hchild : ∀ c, ptrP tr c = true →
        ptrP out2 (slotAbs tr (scanMap tr) c) = true := by
      intro c hc
      unfold ptrP at hc ⊢
      rw [Bool.or_eq_true] at hc ⊢
      rcases hc with hc | hc
      · left
        have hbig : tr.length ≤ c := by simpa using hc
        rw [slotAbs_big hbig]
        simp [hlen2]
      · rw [Bool.and_eq_true] at hc
        have hclt : c < tr.length := by simpa using hc.1
        have hc4 : c % 4 = 0 := by simpa using hc.2
        obtain ⟨s, hs⟩ := scanMap_complete hc4 hclt
        rw [slotAbs_lookup hs]
        have hss := lookup_slot_lt scanMap_MOk hs
        right
        rw [Bool.and_eq_true]
        refine ⟨?_, by simp [hss.2]⟩
        simp only [decide_eq_true_eq]
        omega
    rw [hc1, hc2, hc3]
    rw [hchild _ hptr.1, hchild _ hptr.2.1, hchild _ hptr.2.2]
    rfl

theorem pass_decode {tr out2 : List Nat} (hok : passOk tr = true)
    (hlen2 : out2.length = (scanMap tr).2) (hcont : passCont tr out2) :
    ∀ (f p : Nat), ptrP tr p = true →
      decode out2 f (slotAbs tr (scanMap tr) p) = decode tr f p := by
  intro f
  induction f with
  | zero => intro p _; rfl
  | succ f ih =>
    intro p hp
    unfold ptrP at hp
    rw [Bool.or_eq_true] at hp
    rcases hp with hp | hp
    · have hbig : tr.length ≤ p := by simpa using hp
      rw [decode_big hbig, slotAbs_big hbig,
        decode_big (le_of_eq hlen2)]
    · rw [Bool.and_eq_true] at hp
      have hplt : p < tr.length := by simpa using hp.1
      have hp4 : p % 4 = 0 := by simpa using hp.2
      obtain ⟨s, hs⟩ := scanMap_complete hp4 hplt
      have hsl : slotAbs tr (scanMap tr) p = s := slotAbs_lookup hs
      have hslt : s < out2.length := by
        rw [hlen2]
        exact (lookup_slot_lt scanMap_MOk hs).1
      have hcv := hcont p hp4 hplt (by rw [hsl]; exact hslt)
      rw [hsl] at hcv
      obtain ⟨hc0, hc1, hc2, hc3⟩ := hcv
      rw [hsl]
      simp only [decode]
      rw [if_neg (not_le.mpr hslt), if_neg (not_le.mpr hplt)]
      have hptr := (passOk_parts hok).2 p hp4 hplt
      rw [hc0, hc1, hc2, hc3]
      rw [ih _ hptr.1, ih _ hptr.2.1, ih _ hptr.2.2]

/-!  Compaction, part 5: the full pass specification. -/

theorem scanMap_root {tr : List Nat} (h0 : 0 < tr.length) :
    lookupKey (scanMap tr).1 (nodeKey tr 0) = some 0 := by
  obtain ⟨m, hm⟩ : ∃ m, (tr.length + 3) / 4 = m + 1 :=
    ⟨(tr.length + 3) / 4 - 1, by omega⟩
  obtain ⟨l2, hl2⟩ : ∃ l2, alignedIdxs tr.length = 0 :: l2 := by
    unfold alignedIdxs
    rw [hm, List.range_succ_eq_map, List.map_cons]
    exact ⟨_, by rw [Nat.mul_zero]⟩
  unfold scanMap
  rw [hl2, List.foldl_cons]
  have hstep : (mapping tr ([], 0) 0).2 = ([(nodeKey tr 0, 0)], 4) := by
    rw [mapping_fresh (show lookupKey (([], 0) :
      NodeMap × Nat).1 (nodeKey tr 0) = none from rfl)]
  exact lookup_pres_scan l2 ((mapping tr ([], 0) 0).2)
    (by rw [hstep]; exact lookupKey_head)

theorem treeOk_passOk {tr : List Nat} (hok : treeOk tr = true) :
    passOk tr = true := by
  obtain ⟨hm4, hceil, hblocks⟩ := treeOk_parts hok
  unfold passOk
  rw [Bool.and_eq_true]
  refine ⟨by simp [hm4], ?_⟩
  rw [List.all_eq_true]
  intro i hi
  obtain ⟨hi4, hilt⟩ := mem_alignedIdxs.mp hi
  obtain ⟨hgv, hp1, hp2, hp3⟩ := blockOk_parts (hblocks i hi4 hilt)
  have hptr : ∀ p, (p = NUL ∨ (i < p ∧ p < tr.length ∧ p % 4 = 0)) →
      ptrP tr p = true := by
    intro p hp
    unfold ptrP
    rw [Bool.or_eq_true]
    rcases hp with rfl | ⟨_, hplt, hp4⟩
    · left
      simp only [decide_eq_true_eq]
      have := ceiling_lt_nul
      omega
    · right
      rw [Bool.and_eq_true]
      exact ⟨by simp [hplt], by simp [hp4]⟩
  rw [hptr _ (ptrOk_elim hp1), hptr _ (ptrOk_elim hp2),
    hptr _ (ptrOk_elim hp3)]
  rfl

theorem compactionPass_ok {tr : List Nat} (hok : passOk tr = true) :
    ∃ out2, compactionPass tr = some out2 ∧
      passOk out2 = true ∧
      out2.length ≤ tr.length ∧
      (out2.length = tr.length → out2 = tr) ∧
      (∀ T, stabTo tr 0 T → stabTo out2 0 T) := by
  by_cases heq : (scanMap tr).2 = tr.length
  · refine ⟨tr, ?_, hok, le_refl _, fun _ => rfl, fun T h => h⟩
    unfold compactionPass
    rw [if_pos heq]
  · have hlen0 : 0 < tr.length := by
      rcases Nat.eq_zero_or_pos tr.length with h0 | h0
      · exfalso
        apply heq
        have : alignedIdxs tr.length = [] := by
          unfold alignedIdxs
          rw [h0]
          rfl
        unfold scanMap
        rw [this, List.foldl_nil, h0]
      · exact h0
    obtain ⟨out2, stR2, hfold2, hlen2, hcont2⟩ := rewrite_sync hok
      (alignedIdxs tr.length) ([], 0) [] (scanMap tr)
      (fun i hi => mem_alignedIdxs.mp hi) rfl (MOk_nil tr) rfl (Or.inl rfl)
      (fun i _ _ hs => by simp at hs)
    have hpass : compactionPass tr = some out2 := by
      unfold compactionPass
      rw [if_neg heq]
      rw [show ((alignedIdxs tr.length).foldlM
          (fun acc i => rewriteStep tr acc i)
          (([], scanMap tr) : List Nat × (NodeMap × Nat))) =
          some (out2, stR2) from hfold2]
      rfl
    have hcontP : passCont tr out2 := hcont2
    refine ⟨out2, hpass, pass_passOk hok hlen2 hcontP, ?_, ?_, ?_⟩
    · rw [hlen2]
      exact scanMap_le (passOk_parts hok).1
    · intro hl
      exfalso
      apply heq
      rw [← hlen2, hl]
    · intro T hT f
      have hroot : slotAbs tr (scanMap tr) 0 = 0 :=
        slotAbs_lookup (scanMap_root hlen0)
      have hptr0 : ptrP tr 0 = true := by
        unfold ptrP
        rw [Bool.or_eq_true]
        right
        rw [Bool.and_eq_true]
        exact ⟨by simp [hlen0], by simp⟩
      have := pass_decode hok hlen2 hcontP f 0 hptr0
      rw [hroot] at this
      rw [this]
      exact hT f

/-!  Compaction, part 6: trees pinned down by a stable decode, and the
height pigeonhole that makes the wrap fuel sufficient after shrinking. -/

theorem itrunc_of_height : ∀ (T : ITree) (f : Nat), iHeight T ≤ f →
    itrunc f T = T
  | .nil, 0, _ => rfl
  | .nil, _ + 1, _ => rfl
  | .nd v l e g, f, hf => by
    rw [show iHeight (ITree.nd v l e g) =
      1 + max (iHeight l) (max (iHeight e) (iHeight g)) from rfl] at hf
    cases f with
    | zero => omega
    | succ f2 =>
      rw [show itrunc (f2 + 1) (ITree.nd v l e g) =
        ITree.nd v (itrunc f2 l) (itrunc f2 e) (itrunc f2 g) from rfl]
      rw [itrunc_of_height l f2 (by omega), itrunc_of_height e f2 (by omega),
        itrunc_of_height g f2 (by omega)]

theorem iHeight_decode_le (tr : List Nat) :
    ∀ (f node : Nat), iHeight (decode tr f node) ≤ f
  | 0, node => by simp [decode, iHeight]
  | f + 1, node => by
    by_cases hbig : tr.length ≤ node
    · rw [decode_big hbig]
      simp [iHeight]
    · simp only [decode, if_neg hbig]
      rw [show iHeight (ITree.nd (tval tr node)
          (decode tr f (tval tr (node + 1)))
          (decode tr f (tval tr (node + 2)))
          (decode tr f (tval tr (node + 3)))) =
        1 + max (iHeight (decode tr f (tval tr (node + 1))))
          (max (iHeight (decode tr f (tval tr (node + 2))))
            (iHeight (decode tr f (tval tr (node + 3))))) from rfl]
      have h1 := iHeight_decode_le tr f (tval tr (node + 1))
      have h2 := iHeight_decode_le tr f (tval tr (node + 2))
      have h3 := iHeight_decode_le tr f (tval tr (node + 3))
      omega

theorem decode_trunc (tr : List Nat) : ∀ (f F node : Nat), f ≤ F →
    decode tr f node = itrunc f (decode tr F node)
  | 0, _, _ => fun _ => rfl
  | f + 1, F, node => fun hF => by
    obtain ⟨F2, rfl⟩ : ∃ F2, F = F2 + 1 := ⟨F - 1, by omega⟩
    by_cases hbig : tr.length ≤ node
    · rw [decode_big hbig, decode_big hbig]
      rfl
    · simp only [decode, if_neg hbig]
      rw [show itrunc (f + 1) (ITree.nd (tval tr node)
          (decode tr F2 (tval tr (node + 1)))
          (decode tr F2 (tval tr (node + 2)))
          (decode tr F2 (tval tr (node + 3)))) =
        ITree.nd (tval tr node)
          (itrunc f (decode tr F2 (tval tr (node + 1))))
          (itrunc f (decode tr F2 (tval tr (node + 2))))
          (itrunc f (decode tr F2 (tval tr (node + 3)))) from rfl]
      rw [decode_trunc tr f F2 (tval tr (node + 1)) (by omega),
        decode_trunc tr f F2 (tval tr (node + 2)) (by omega),
        decode_trunc tr f F2 (tval tr (node + 3)) (by omega)]

theorem stabTo_src {tr : List Nat} (hok : treeOk tr = true) :
    stabTo tr 0 (decN tr 0) := by
  intro f
  have hF : decN tr 0 = decode tr ((tr.length - 0) / 4 + 1) 0 := rfl
  by_cases hf : f ≤ (tr.length - 0) / 4 + 1
  · rw [hF]
    exact decode_trunc tr f _ 0 hf
  · push_neg at hf
    rw [hF]
    have hstable := decode_stable hok f ((tr.length - 0) / 4 + 1) 0
      (Or.inl (by norm_num)) (by omega) (by omega)
    rw [hstable]
    rw [itrunc_of_height _ f
      (le_trans (iHeight_decode_le tr _ 0) (by omega))]

theorem stabTo_unique {tr : List Nat} {node : Nat} {T T2 : ITree}
    (h1 : stabTo tr node T) (h2 : stabTo tr node T2) : T = T2 := by
  have hf1 := h1 (max (iHeight T) (iHeight T2))
  have hf2 := h2 (max (iHeight T) (iHeight T2))
  rw [itrunc_of_height T _ (le_max_left _ _)] at hf1
  rw [itrunc_of_height T2 _ (le_max_right _ _)] at hf2
  exact hf1.symm.trans hf2

theorem stab_chain {tr : List Nat} (hok : passOk tr = true) :
    ∀ (h node : Nat) (T : ITree), node % 4 = 0 →
      stabTo tr node T → iHeight T = h →
      ∃ L : List Nat, L.length = h ∧
        (∀ j ∈ L, j % 4 = 0 ∧ j < tr.length) ∧
        ∀ (k : Nat) (hk : k < L.length),
          ∃ T2, stabTo tr (L.get ⟨k, hk⟩) T2 ∧ iHeight T2 = h - k
  | 0, node, T => fun _ _ _ =>
    ⟨[], rfl, by simp, fun k hk => absurd hk (by simp)⟩
  | h + 1, node, T => fun h4 hst hht => by
    cases T with
    | nil =>
      rw [show iHeight ITree.nil = 0 from rfl] at hht
      omega
    | nd v l e g =>
      rw [show iHeight (ITree.nd v l e g) =
        1 + max (iHeight l) (max (iHeight e) (iHeight g)) from rfl] at hht
      have hlt : node < tr.length := by
        by_contra hbig
        push_neg at hbig
        have h1 := hst 1
        rw [decode_big hbig,
          show itrunc 1 (ITree.nd v l e g) =
            ITree.nd v ITree.nil ITree.nil ITree.nil from rfl] at h1
        exact ITree.noConfusion h1
      have hkids : ∀ f, decode tr f (tval tr (node + 1)) = itrunc f l ∧
          decode tr f (tval tr (node + 2)) = itrunc f e ∧
          decode tr f (tval tr (node + 3)) = itrunc f g := by
        intro f
        have h1 := hst (f + 1)
        simp only [decode] at h1
        rw [if_neg (not_le.mpr hlt),
          show itrunc (f + 1) (ITree.nd v l e g) =
            ITree.nd v (itrunc f l) (itrunc f e) (itrunc f g) from rfl] at h1
        injection h1 with hv ha hb hc
        exact ⟨ha, hb, hc⟩
      have hst1 : stabTo tr (tval tr (node + 1)) l := fun f => (hkids f).1
      have hst2 : stabTo tr (tval tr (node + 2)) e := fun f => (hkids f).2.1
      have hst3 : stabTo tr (tval tr (node + 3)) g := fun f => (hkids f).2.2
      have hptr := (passOk_parts hok).2 node h4 hlt
      have hcont : ∀ (p : Nat) (C : ITree), ptrP tr p = true →
          stabTo tr p C → iHeight C = h →
          ∃ L : List Nat, L.length = h + 1 ∧
            (∀ j ∈ L, j % 4 = 0 ∧ j < tr.length) ∧
            ∀ (k : Nat) (hk : k < L.length),
              ∃ T2, stabTo tr (L.get ⟨k, hk⟩) T2 ∧
                iHeight T2 = h + 1 - k := by
        intro p C hpp hstC hhC
        cases h with
        | zero =>
          refine ⟨[node], rfl, ?_, ?_⟩
          · intro j hj
            rw [List.mem_singleton] at hj
            subst hj
            exact ⟨h4, hlt⟩
          · intro k hk
            have hk0 : k = 0 := by
              simp only [List.length_singleton] at hk
              omega
            subst hk0
            refine ⟨ITree.nd v l e g, hst, ?_⟩
            rw [show iHeight (ITree.nd v l e g) =
              1 + max (iHeight l) (max (iHeight e) (iHeight g)) from rfl]
            omega
        | succ h2 =>
          have hCnd : ∃ v2 l2 e2 g2, C = ITree.nd v2 l2 e2 g2 := by
            cases C with
            | nil =>
              rw [show iHeight ITree.nil = 0 from rfl] at hhC
              omega
            | nd v2 l2 e2 g2 => exact ⟨v2, l2, e2, g2, rfl⟩
          obtain ⟨v2, l2, e2, g2, rfl⟩ := hCnd
          have hplt : p < tr.length := by
            by_contra hbig
            push_neg at hbig
            have h1 := hstC 1
            rw [decode_big hbig,
              show itrunc 1 (ITree.nd v2 l2 e2 g2) =
                ITree.nd v2 ITree.nil ITree.nil ITree.nil from rfl] at h1
            exact ITree.noConfusion h1
          have hp4 : p % 4 = 0 := by
            unfold ptrP at hpp
            rw [Bool.or_eq_true] at hpp
            rcases hpp with hpp | hpp
            · simp only [decide_eq_true_eq] at hpp
              omega
            · rw [Bool.and_eq_true] at hpp
              simpa using hpp.2
          obtain ⟨L2, hL2len, hL2mem, hL2idx⟩ :=
            stab_chain hok (h2 + 1) p (ITree.nd v2 l2 e2 g2) hp4 hstC hhC
          refine ⟨node :: L2, by simp [hL2len], ?_, ?_⟩
          · intro j hj
            rcases List.mem_cons.mp hj with rfl | hj2
            · exact ⟨h4, hlt⟩
            · exact hL2mem j hj2
          · intro k hk
            cases k with
            | zero =>
              refine ⟨ITree.nd v l e g, hst, ?_⟩
              rw [show iHeight (ITree.nd v l e g) =
                1 + max (iHeight l) (max (iHeight e) (iHeight g)) from rfl]
              omega
            | succ k2 =>
              have hk2 : k2 < L2.length := by
                simp only [List.length_cons] at hk
                omega
              obtain ⟨T2, hT2, hhT2⟩ := hL2idx k2 hk2
              refine ⟨T2, ?_, by omega⟩
              rw [show (node :: L2).get ⟨k2 + 1, hk⟩ =
                L2.get ⟨k2, hk2⟩ from rfl]
              exact hT2
      have hmax : iHeight l = h ∨ iHeight e = h ∨ iHeight g = h := by omega
      rcases hmax with hm | hm | hm
      · exact hcont _ l hptr.1 hst1 hm
      · exact hcont _ e hptr.2.1 hst2 hm
      · exact hcont _ g hptr.2.2 hst3 hm

theorem stab_height_le {tr : List Nat} (hok : passOk tr = true) {T : ITree}
    (hst : stabTo tr 0 T) : iHeight T ≤ tr.length / 4 := by
  obtain ⟨L, hLlen, hLmem, hLidx⟩ :=
    stab_chain hok (iHeight T) 0 T (by norm_num) hst rfl
  have hnd : L.Nodup := by
    rw [List.nodup_iff_injective_get]
    intro a b hab
    obtain ⟨Ta, hTa, hha⟩ := hLidx a.1 a.2
    obtain ⟨Tb, hTb, hhb⟩ := hLidx b.1 b.2
    have hTa2 : stabTo tr (L.get a) Ta := hTa
    have hTb2 : stabTo tr (L.get b) Tb := hTb
    rw [← hab] at hTb2
    have hTT : Ta = Tb := stabTo_unique hTa2 hTb2
    rw [hTT] at hha
    have ha1 : a.1 < iHeight T := by
      rw [← hLlen]
      exact a.2
    have hb1 : b.1 < iHeight T := by
      rw [← hLlen]
      exact b.2
    apply Fin.ext
    omega
  have hsub : L ⊆ alignedIdxs tr.length := fun j hj =>
    mem_alignedIdxs.mpr (hLmem j hj)
  have hlen := (hnd.subperm hsub).length_le
  rw [hLlen] at hlen
  have hAlen : (alignedIdxs tr.length).length = (tr.length + 3) / 4 := by
    unfold alignedIdxs
    rw [List.length_map, List.length_range]
  have hm4 := (passOk_parts hok).1
  omega

theorem compactLoop_ok :
    ∀ (fuel : Nat) (tr : List Nat) (T : ITree), passOk tr = true →
      stabTo tr 0 T →
      ∃ c, compactLoop fuel tr = some c ∧ passOk c = true ∧ stabTo c 0 T
  | 0, tr, T => fun hok hst => ⟨tr, rfl, hok, hst⟩
  | fuel + 1, tr, T => fun hok hst => by
    obtain ⟨out2, hpass, hok2, hle, heqid, hstab⟩ := compactionPass_ok hok
    have hstep : compactLoop (fuel + 1) tr =
        (if out2.length = tr.length then some out2
          else compactLoop fuel out2) := by
      rw [show compactLoop (fuel + 1) tr =
        (match compactionPass tr with
          | none => none
          | some c => if c.length = tr.length then some c
              else compactLoop fuel c) from rfl, hpass]
    rw [hstep]
    by_cases hl : out2.length = tr.length
    · rw [if_pos hl]
      exact ⟨out2, rfl, hok2, hstab T hst⟩
    · rw [if_neg hl]
      exact compactLoop_ok fuel out2 T hok2 (hstab T hst)

/-- C3: on a well-formed non-compact state, `compact()` succeeds and
changes no logical content: `toArray()` afterwards yields exactly the same
sequence of strings as before, and `has(s)` is unchanged for every
string `s`. -/
theorem claim_C3 {t : TernaryStringSet} (hInv : Inv t) :
    ∃ t2, compact t = (some (), t2) ∧
      toArray t2 = toArray t ∧
      ∀ s, has t2 s = has t s := by
  have hcompact : t._compact = false := hInv.2.2.2
  by_cases hlen : t._tree.length = 0
  · have hid : compact t = (some (), t) := by
      unfold compact
      rw [if_pos (by simp [hcompact, hlen])]
    exact ⟨t, hid, rfl, fun s => rfl⟩
  · have hok := treeOk_passOk hInv.1
    have hst := stabTo_src hInv.1
    obtain ⟨c, hloop, hokc, hstc⟩ := compactLoop_ok (t._tree.length + 1)
      t._tree (decN t._tree 0) hok hst
    have hcompeq : compact t =
        (some (), { t with _tree := c, _compact := true }) := by
      unfold compact
      rw [if_neg (by simp [hcompact, hlen]), hloop]
    have hc1 : decode c (c.length + 1) 0 = decN t._tree 0 := by
      rw [hstc (c.length + 1)]
      exact itrunc_of_height _ _
        (le_trans (stab_height_le hokc hstc) (by omega))
    have ht1 : decode t._tree (t._tree.length + 1) 0 = decN t._tree 0 := by
      rw [hst (t._tree.length + 1)]
      exact itrunc_of_height _ _
        (le_trans (stab_height_le hok hst) (by omega))
    refine ⟨_, hcompeq, ?_, ?_⟩
    · show (if t._hasEmpty then [[]] else []) ++
          (visitCP c (c.length + 1) 0 []).map fromCodePoints =
        (if t._hasEmpty then [[]] else []) ++
          (visitCP t._tree (t._tree.length + 1) 0 []).map fromCodePoints
      rw [visitCP_decode, visitCP_decode, hc1, ht1]
    · intro s
      show (if s.length = 0 then t._hasEmpty
          else _has c (c.length + 1) 0 s 0 (s.getD 0 0)) =
        (if s.length = 0 then t._hasEmpty
          else _has t._tree (t._tree.length + 1) 0 s 0 (s.getD 0 0))
      by_cases hsl : s.length = 0
      · rw [if_pos hsl, if_pos hsl]
      · rw [if_neg hsl, if_neg hsl, has_decode, has_decode, hc1, ht1]

theorem claim_C3_witness :
    Inv ((add emptySet [97]).2) ∧
    (∃ t2, compact ((add emptySet [97]).2) = (some (), t2) ∧
      toArray t2 = toArray ((add emptySet [97]).2) ∧
      ∀ s, has t2 s = has ((add emptySet [97]).2) s) := by
  have hInv : Inv ((add emptySet [97]).2) := by
    unfold Inv
    exact ⟨by decide, by decide, by decide, by decide⟩
  exact ⟨hInv, claim_C3 hInv⟩

/-!  Size bookkeeping across the remaining public mutators.  The auxiliary
exactness invariant `eosCount = iCount ∘ decN` (every end-of-string block
is part of the decoded tree) holds in every reachable state and is what
lets the `balance` rebuild be counted. -/

theorem addM_cnt {fuel : Nat} {t : TernaryStringSet} {s : JsStr}
    (hInv : Inv t) (hs : SmallW s) (hsz : sizeInv t)
    (hroom : t._tree.length + 4 * s.length ≤ NODE_CEILING)
    {t2 : TernaryStringSet} (h : addM (fuel + 1) t s = (some (), t2))
    (hcnt : eosCount t._tree = iCount (decN t._tree 0)) :
    eosCount t2._tree = iCount (decN t2._tree 0) := by
  by_cases hne : s = []
  · subst hne
    simp only [addM] at h
    rw [if_pos (by simp)] at h
    by_cases hhe : t._hasEmpty = true
    · rw [show (!t._hasEmpty) = false from by rw [hhe]; rfl] at h
      rw [if_neg (by simp)] at h
      injection h with h1 h2
      rw [← h2]
      exact hcnt
    · rw [show (!t._hasEmpty) = true from by
        rw [Bool.of_not_eq_true hhe]; rfl] at h
      rw [if_pos rfl] at h
      injection h with h1 h2
      rw [← h2]
      exact hcnt
  · obtain ⟨hok, hnd, hord, hcomp⟩ := hInv
    have hsz2 := addM_sizeInv ⟨hok, hnd, hord, hcomp⟩ hs hsz hroom h
    obtain ⟨t2x, heq, hhe, _, _, _, hdec, hsize, _, _⟩ :=
      addM_ok fuel hok hnd hcomp hs hne hroom
    rw [h] at heq
    injection heq with h1 h2
    subst h2
    have hcount := iInsW_count (decN t._tree 0) s
      (decN_goodT hok (Or.inl (by norm_num))) hs hne
    rw [← hdec] at hcount
    rw [has_iFind hok hs hne] at hsize
    unfold sizeInv at hsz hsz2
    rw [hhe] at hsz2
    rcases Bool.eq_false_or_eq_true (iFind (decN t._tree 0) s) with hf | hf <;>
      rcases Bool.eq_false_or_eq_true t._hasEmpty with hb | hb <;>
      rw [hf] at hcount hsize <;> rw [hb] at hsz hsz2 <;>
      simp at hcount hsize hsz hsz2 <;> omega

theorem deleteM_cnt {fuel : Nat} {t : TernaryStringSet} {s : JsStr}
    (hInv : Inv t) (hs : SmallW s) (hsz : sizeInv t)
    {r : Bool} {t2 : TernaryStringSet}
    (h : deleteM (fuel + 1) t s = (some r, t2))
    (hcnt : eosCount t._tree = iCount (decN t._tree 0)) :
    eosCount t2._tree = iCount (decN t2._tree 0) := by
  by_cases hne : s = []
  · subst hne
    simp only [deleteM] at h
    rw [if_pos (by simp)] at h
    by_cases hhe : t._hasEmpty = true
    · rw [if_pos hhe] at h
      injection h with h1 h2
      rw [← h2]
      exact hcnt
    · rw [if_neg hhe] at h
      injection h with h1 h2
      rw [← h2]
      exact hcnt
  · obtain ⟨hok, hnd, hord, hcomp⟩ := hInv
    have hsz2 := deleteM_sizeInv ⟨hok, hnd, hord, hcomp⟩ hs hsz h
    obtain ⟨t2x, heq, hhe, _, _, _, hdec, hsize, _, _⟩ :=
      deleteM_ok fuel hok hnd hcomp hs hne
    rw [h] at heq
    injection heq with h1 h2
    subst h2
    have hcount := iDelW_count (decN t._tree 0) s
      (decN_goodT hok (Or.inl (by norm_num)))
    rw [← hdec] at hcount
    rw [has_iFind hok hs hne] at hsize
    unfold sizeInv at hsz hsz2
    rw [hhe] at hsz2
    rcases Bool.eq_false_or_eq_true (iFind (decN t._tree 0) s) with hf | hf <;>
      rcases Bool.eq_false_or_eq_true t._hasEmpty with hb | hb <;>
      rw [hf] at hcount hsize <;> rw [hb] at hsz hsz2 <;>
      simp at hcount hsize hsz hsz2 <;> omega

theorem _addAllM_sz : ∀ (fuel : Nat) (t : TernaryStringSet)
    (strings : List JsStr) (start stop : Nat),
    Inv t → (∀ w ∈ strings, SmallW w) →
    stop - start + 1 ≤ fuel →
    t._tree.length + 4 * segLen strings start stop ≤ NODE_CEILING →
    sizeInv t → eosCount t._tree = iCount (decN t._tree 0) →
    ∃ t2, _addAllM fuel t strings start stop = (some (), t2) ∧ Inv t2 ∧
      sizeInv t2 ∧ eosCount t2._tree = iCount (decN t2._tree 0) ∧
      t2._tree.length ≤ t._tree.length + 4 * segLen strings start stop
  | 0, t, strings, start, stop => by
    intro _ _ hf _ _ _
    omega
  | fuel + 1, t, strings, start, stop => by
    intro hInv hw hf hroom hsz hcnt
    by_cases hend : stop ≤ start
    · refine ⟨t, ?_, hInv, hsz, hcnt, by omega⟩
      simp [_addAllM, hend]
    · have hstart : start < stop := by omega
      have hmid1 : start ≤ start + (stop - 1 - start) / 2 := by omega
      have hmid2 : start + (stop - 1 - start) / 2 < stop := by omega
      have hsplit := segLen_split strings hmid1 hmid2
      have hsmid : SmallW (strings.getD (start + (stop - 1 - start) / 2) []) := by
        by_cases hlt : start + (stop - 1 - start) / 2 < strings.length
        · rw [List.getD_eq_getElem _ _ hlt]
          exact hw _ (List.getElem_mem hlt)
        · rw [List.getD_eq_default _ _ (by omega)]
          intro c hc
          simp at hc
      obtain ⟨f2, rfl⟩ : ∃ f2, fuel = f2 + 1 := ⟨fuel - 1, by omega⟩
      obtain ⟨t1, heq1, hInv1, hmem1, hsz1, hlen1⟩ := addM_inv f2
        hInv hsmid (by omega)
      have hszB1 : sizeInv t1 := addM_sizeInv hInv hsmid hsz (by omega) heq1
      have hcnt1 : eosCount t1._tree = iCount (decN t1._tree 0) :=
        addM_cnt hInv hsmid hsz (by omega) heq1 hcnt
      obtain ⟨t2, heq2, hInv2, hszB2, hcnt2, hlen2⟩ := _addAllM_sz (f2 + 1) t1
        strings start (start + (stop - 1 - start) / 2) hInv1 hw (by omega)
        (by omega) hszB1 hcnt1
      obtain ⟨t3, heq3, hInv3, hszB3, hcnt3, hlen3⟩ := _addAllM_sz (f2 + 1) t2
        strings (start + (stop - 1 - start) / 2 + 1) (stop - 1 + 1) hInv2 hw
        (by omega) (by rw [show stop - 1 + 1 = stop from by omega]; omega)
        hszB2 hcnt2
      rw [show stop - 1 + 1 = stop from by omega] at heq3 hlen3
      refine ⟨t3, ?_, hInv3, hszB3, hcnt3, by omega⟩
      show _addAllM (f2 + 1 + 1) t strings start stop = (some (), t3)
      rw [_addAllM, if_neg hend]
      simp only [heq1, heq2]
      rw [show stop - 1 + 1 = stop from by omega]
      exact heq3

theorem addAllM_sz (fuel : Nat) {t : TernaryStringSet} {strings : List JsStr}
    (hInv : Inv t) (hw : ∀ w ∈ strings, SmallW w)
    (hf : strings.length + 1 ≤ fuel)
    (hroom : t._tree.length + 4 * segLen strings 0 strings.length ≤
      NODE_CEILING)
    (hsz : sizeInv t) (hcnt : eosCount t._tree = iCount (decN t._tree 0)) :
    ∃ t2, addAllM (fuel + 1) t strings 0 none = (some (), t2) ∧ Inv t2 ∧
      sizeInv t2 ∧ eosCount t2._tree = iCount (decN t2._tree 0) := by
  have hc1 : (decide ((0 : Int) < 0) ||
      decide ((strings.length : Int) < 0)) = false := by
    simp only [Bool.or_eq_false_iff, decide_eq_false_iff_not]
    exact ⟨by omega, by omega⟩
  have hc2 : (decide ((strings.length : Int) < 0) ||
      decide ((strings.length : Int) < (strings.length : Int))) = false := by
    simp only [Bool.or_eq_false_iff, decide_eq_false_iff_not]
    exact ⟨by omega, by omega⟩
  by_cases hnil : strings.length = 0
  · refine ⟨t, ?_, hInv, hsz, hcnt⟩
    simp only [addAllM]
    rw [hc1]
    simp only [Bool.false_eq_true, if_false]
    rw [hc2]
    simp only [Bool.false_eq_true, if_false]
    rw [if_neg (by omega)]
  · obtain ⟨t2, heq, hInv2, hsz2, hcnt2, _⟩ := _addAllM_sz fuel t strings 0
      strings.length hInv hw (by omega) (by simpa using hroom) hsz hcnt
    refine ⟨t2, ?_, hInv2, hsz2, hcnt2⟩
    simp only [addAllM]
    rw [hc1]
    simp only [Bool.false_eq_true, if_false]
    rw [hc2]
    simp only [Bool.false_eq_true, if_false]
    rw [if_pos (by exact_mod_cast Nat.pos_of_ne_zero hnil)]
    simpa using heq

theorem ctorM_sz (fuel : Nat) {src : List JsStr}
    (hw : ∀ w ∈ src, SmallW w) (hf : src.length + 2 ≤ fuel)
    (hroom : 4 * segLen src 0 src.length ≤ NODE_CEILING) :
    ∃ t2, ctorM (fuel + 1) src = (some (), t2) ∧ Inv t2 ∧
      sizeInv t2 ∧ eosCount t2._tree = iCount (decN t2._tree 0) := by
  obtain ⟨f2, rfl⟩ : ∃ f2, fuel = f2 + 1 := ⟨fuel - 1, by omega⟩
  obtain ⟨t2, heq, hInv2, hsz2, hcnt2⟩ := addAllM_sz f2
    Inv_emptySet hw (by omega) (by simpa [emptySet] using hroom)
    sizeInv_emptySet (by decide)
  refine ⟨t2, ?_, hInv2, hsz2, hcnt2⟩
  simp only [ctorM]
  exact heq

theorem deleteAllM_sz : ∀ (fuel : Nat) (t : TernaryStringSet)
    (els : List (Option JsStr)) (acc : Bool) (r : Bool)
    (t2 : TernaryStringSet),
    Inv t → (∀ s, some s ∈ els → SmallW s) → sizeInv t →
    deleteAllM fuel t els acc = (some r, t2) → sizeInv t2
  | 0, t, els, acc => by
    intro r t2 _ _ _ h
    simp [deleteAllM] at h
  | fuel + 1, t, [], acc => by
    intro r t2 _ _ hsz h
    simp only [deleteAllM] at h
    injection h with h1 h2
    rw [← h2]
    exact hsz
  | fuel + 1, t, el :: rest, acc => by
    intro r t2 hInv hw hsz h
    cases el with
    | none =>
      rw [show deleteAllM (fuel + 1) t (none :: rest) acc =
        ((none, t) : Option Bool × TernaryStringSet) from rfl] at h
      injection h with h1 h2
      exact Option.noConfusion h1
    | some s =>
      have hsmall : SmallW s := hw s (by simp)
      cases fuel with
      | zero =>
        rw [show deleteAllM (0 + 1) t (some s :: rest) acc =
          ((none, t) : Option Bool × TernaryStringSet) from rfl] at h
        injection h with h1 h2
        exact Option.noConfusion h1
      | succ f2 =>
        obtain ⟨t1x, heq1, hInv1, _, _, _⟩ := deleteM_inv f2 hInv hsmall
        have hstep : deleteAllM (f2 + 1 + 1) t (some s :: rest) acc =
            deleteAllM (f2 + 1) t1x rest ((memF t s) && acc) := by
          rw [show deleteAllM (f2 + 1 + 1) t (some s :: rest) acc =
            (match deleteM (f2 + 1) t s with
              | (none, t1) => (none, t1)
              | (some d, t1) => deleteAllM (f2 + 1) t1 rest (d && acc)) from
            rfl]
          rw [heq1]
        rw [hstep] at h
        have hszB1 : sizeInv t1x := deleteM_sizeInv hInv hsmall hsz heq1
        exact deleteAllM_sz (f2 + 1) t1x rest ((memF t s) && acc) r t2 hInv1
          (fun s2 hs2 => hw s2 (List.mem_cons_of_mem _ hs2)) hszB1 h

theorem balanceM_sz (fuel : Nat) {t : TernaryStringSet} (hInv : Inv t)
    (hf : (toArray t).length + 3 ≤ fuel)
    (hroom : 4 * segLen (toArray t) 0 (toArray t).length ≤ NODE_CEILING)
    (hsz : sizeInv t) (hcnt : eosCount t._tree = iCount (decN t._tree 0)) :
    ∀ t2, balanceM (fuel + 1) t = (some (), t2) → sizeInv t2 := by
  intro t2 h
  obtain ⟨t2x, heqB, hInv2, hszEq, hheEq, hmemEq, htaEq, _⟩ :=
    balanceM_inv fuel hInv hf hroom
  rw [h] at heqB
  injection heqB with h1 h2
  subst h2
  obtain ⟨f2, rfl⟩ : ∃ f2, fuel = f2 + 1 := ⟨fuel - 1, by omega⟩
  have hw : ∀ w ∈ toArray t, SmallW w := by
    intro w hw
    rw [toArray_Inv hInv] at hw
    rcases List.mem_append.mp hw with h3 | h3
    · rcases Bool.eq_false_or_eq_true t._hasEmpty with hb | hb <;>
        rw [hb] at h3 <;> simp at h3
      subst h3
      intro c hc
      simp at hc
    · exact iStrings_small _ (decN_goodT hInv.1 (Or.inl (by norm_num))) w h3
  obtain ⟨fresh, heqC, hInvF, hszF, hcntF⟩ := ctorM_sz f2 hw (by omega) hroom
  have heq2 : balanceM (f2 + 1 + 1) t =
      (some (), { t with _tree := fresh._tree, _compact := false }) := by
    simp only [balanceM]
    simp only [heqC]
  rw [h] at heq2
  injection heq2 with h3 h4
  have htree : t2._tree = fresh._tree := by rw [h4]
  have hlenEq : iCount (decN t2._tree 0) = iCount (decN t._tree 0) := by
    have hL := congrArg List.length htaEq
    rw [toArray_Inv hInv2, toArray_Inv hInv] at hL
    rw [List.length_append, List.length_append, iStrings_length_eq,
      iStrings_length_eq, hheEq] at hL
    exact Nat.add_left_cancel hL
  rw [htree] at hlenEq
  have hfe : eosCount fresh._tree = eosCount t._tree := by
    rw [hcntF, hlenEq, ← hcnt]
  unfold sizeInv at hsz ⊢
  rw [hszEq, hheEq, htree, hfe]
  exact hsz

/-- C9 (amended): on well-formed non-compact states whose `_size` counts
the end-of-string blocks plus the empty-string flag and whose end-of-string
blocks all belong to the decoded tree (both hold in every reachable state),
each of `add`, `addAll`, `delete`, `deleteAll`, `clear` and `balance`
preserves the bookkeeping `size = eosCount + emptyFlag`.  (`compact` does
not: `claim_C9_counterexample` shows a compacted state whose shared
end-of-string block makes the count fall below `size`.) -/
theorem claim_C9 {t : TernaryStringSet} (hInv : Inv t) (hsz : sizeInv t)
    (hcnt : eosCount t._tree = iCount (decN t._tree 0)) :
    (∀ s t2, SmallW s → t._tree.length + 4 * s.length ≤ NODE_CEILING →
      add t s = (some (), t2) → sizeInv t2) ∧
    (∀ strings t2, (∀ w ∈ strings, SmallW w) →
      t._tree.length + 4 * segLen strings 0 strings.length ≤ NODE_CEILING →
      addAll t strings 0 none = (some (), t2) → sizeInv t2) ∧
    (∀ s r t2, SmallW s → delete t s = (some r, t2) → sizeInv t2) ∧
    (∀ els r t2, (∀ s, some s ∈ els → SmallW s) →
      deleteAll t els = (some r, t2) → sizeInv t2) ∧
    sizeInv (clear t) ∧
    (∀ t2, 4 * segLen (toArray t) 0 (toArray t).length ≤ NODE_CEILING →
      balance t = (some (), t2) → sizeInv t2) := by
  refine ⟨?_, ?_, ?_, ?_, sizeInv_emptySet, ?_⟩
  · intro s t2 hs hroom h
    simp only [add] at h
    rw [show t._tree.length + s.length + 32 =
      t._tree.length + s.length + 31 + 1 from by omega] at h
    exact addM_sizeInv hInv hs hsz hroom h
  · intro strings t2 hw hroom h
    simp only [addAll] at h
    rw [show t._tree.length + strings.length + 32 =
      t._tree.length + strings.length + 31 + 1 from by omega] at h
    obtain ⟨t2x, heq, _, hsz2, _⟩ := addAllM_sz
      (t._tree.length + strings.length + 31) hInv hw (by omega) hroom hsz hcnt
    rw [h] at heq
    injection heq with h1 h2
    rw [← h2] at hsz2
    exact hsz2
  · intro s r t2 hs h
    simp only [delete] at h
    rw [show t._tree.length + s.length + 32 =
      t._tree.length + s.length + 31 + 1 from by omega] at h
    exact deleteM_sizeInv hInv hs hsz h
  · intro els r t2 hw h
    simp only [deleteAll] at h
    exact deleteAllM_sz (t._tree.length + els.length + 32) t els true r t2
      hInv hw hsz h
  · intro t2 hroom h
    simp only [balance] at h
    rw [show t._tree.length + 32 = t._tree.length + 31 + 1 from by omega] at h
    exact balanceM_sz (t._tree.length + 31) hInv
      (by have := toArray_length_le hInv; omega) hroom hsz hcnt t2 h

theorem claim_C9_witness :
    Inv emptySet ∧ sizeInv emptySet ∧
    eosCount emptySet._tree = iCount (decN emptySet._tree 0) ∧
    ((∀ s t2, SmallW s →
        emptySet._tree.length + 4 * s.length ≤ NODE_CEILING →
        add emptySet s = (some (), t2) → sizeInv t2) ∧
      (∀ strings t2, (∀ w ∈ strings, SmallW w) →
        emptySet._tree.length + 4 * segLen strings 0 strings.length ≤
          NODE_CEILING →
        addAll emptySet strings 0 none = (some (), t2) → sizeInv t2) ∧
      (∀ s r t2, SmallW s → delete emptySet s = (some r, t2) → sizeInv t2) ∧
      (∀ els r t2, (∀ s, some s ∈ els → SmallW s) →
        deleteAll emptySet els = (some r, t2) → sizeInv t2) ∧
      sizeInv (clear emptySet) ∧
      (∀ t2, 4 * segLen (toArray emptySet) 0 (toArray emptySet).length ≤
          NODE_CEILING →
        balance emptySet = (some (), t2) → sizeInv t2)) :=
  ⟨Inv_emptySet, sizeInv_emptySet, by decide,
    claim_C9 Inv_emptySet sizeInv_emptySet (by decide)⟩

end Ftss
